import Mathlib

/-!
Verification development for the FreeFileSync translation-file subsystem
(`parse_lng.h`): byte scanner, grammar parser, validation engine,
translation collection and generator.

Nat strings (`std::string`) are modelled as lists of natural numbers
(one per byte).  Helper routines of the zen utility library and the
plural-rule evaluator (`parse_plural.h`) are not part of the given
sources; those definitions are modelled from the specification and are
marked as such in their doc comments.
-/

namespace LngSpec

/-- A C++ `std::string` as its list of bytes; each byte is a `Nat`. -/
abbrev Str := List Nat

/-- ASCII bytes of a Lean string literal (used only with ASCII content). -/
def ascii (s : String) : Str := s.data.map Char.toNat

/-- Modelled from the spec: zen whitespace test used by the scanner and by
`trim` (space and the ASCII control whitespace range 9..13). -/
def isWS (c : Nat) : Bool := c == 32 || (Nat.ble 9 c && Nat.ble c 13)

/-- Modelled from the spec: zen `isLineBreak` (LF or CR). -/
def isLB (c : Nat) : Bool := c == 10 || c == 13

/-- Prefix test on byte strings (zen `startsWith`). -/
def isPrefixL : Str → Str → Bool
  | [], _ => true
  | _ :: _, [] => false
  | a :: as, b :: bs => a == b && isPrefixL as bs

/-- Substring test (zen `contains` for string needles). -/
def containsL (needle : Str) : Str → Bool
  | [] => isPrefixL needle []
  | c :: t => isPrefixL needle (c :: t) || containsL needle t

/-- Suffix test (zen `endsWith`). -/
def endsWithL (s suffix0 : Str) : Bool := isPrefixL suffix0.reverse s.reverse

/-- Modelled from the spec: zen `trim`, removing whitespace from both ends. -/
def trimL (s : Str) : Str := ((s.dropWhile isWS).reverse.dropWhile isWS).reverse

/-- Replace every occurrence of CRLF by LF, left to right
(zen `replace(text, "\r\n", '\n')`). -/
def replaceCRLF : Str → Str
  | [] => []
  | [c] => [c]
  | c :: d :: r =>
    if c = 13 ∧ d = 10 then 10 :: replaceCRLF r
    else c :: replaceCRLF (d :: r)

/-- Replace every CR byte by LF (zen `replace(text, '\r', '\n')`). -/
def replaceCR : Str → Str
  | [] => []
  | c :: r => if c = 13 then 10 :: replaceCR r else c :: replaceCR r

/-- Replace every LF by CRLF (zen `replaceCpy(output, '\n', "\r\n")`),
used by the generator to emit Windows line endings. -/
def toCRLF : Str → Str
  | [] => []
  | c :: r => if c = 10 then 13 :: 10 :: toCRLF r else c :: toCRLF r

/-- Modelled from the spec: zen `split2` on line-break characters,
producing the list of blocks between breaks (empty blocks included). -/
def splitLB : Str → List Str
  | [] => [[]]
  | c :: r =>
    if isLB c then [] :: splitLB r
    else
      match splitLB r with
      | b :: bs => (c :: b) :: bs
      | [] => [[c]]

/-- Modelled from the spec: zen `beforeFirst(block, ':', IfNotFoundReturn.none)`:
text before the first colon, empty when there is none. -/
def beforeColon (s : Str) : Str :=
  if s.contains 58 then s.takeWhile (fun c => c != 58) else []

/-- Modelled from the spec: zen `afterFirst(block, ':', IfNotFoundReturn.none)`:
text after the first colon, empty when there is none. -/
def afterColon : Str → Str
  | [] => []
  | c :: r => if c == 58 then r else afterColon r

/-- Nat-membership test (zen `contains` for single characters). -/
def containsB (s : Str) (b : Nat) : Bool := s.contains b

/-- First-match association-list lookup, the model of
`std::unordered_map::find` on maps built with first-wins `emplace`. -/
def lookupA {α β : Type} [DecidableEq α] : List (α × β) → α → Option β
  | [], _ => none
  | (k, v) :: r, k0 => if k = k0 then some v else lookupA r k0

/-- Model of `std::unordered_map::emplace`: insert only when the key is
absent; an existing entry wins. -/
def emplaceA {α β : Type} [DecidableEq α] (k : α) (v : β) (m : List (α × β)) :
    List (α × β) :=
  match lookupA m k with
  | some _ => m
  | none => m ++ [(k, v)]

/-- Decimal digits of a natural number, most significant first
(fuel-based so that it reduces in the kernel). -/
def natDigitsAux : Nat → Nat → Str
  | 0, _ => []
  | fuel + 1, n => if n < 10 then [48 + n] else natDigitsAux fuel (n / 10) ++ [48 + n % 10]

/-- Decimal rendering of a natural number. -/
def natDigits (n : Nat) : Str := natDigitsAux (n + 1) n

/-- Modelled from the spec: zen `numberTo<std::string>` on `int`
(decimal rendering, minus sign for negative values). -/
def intToStr (n : Int) : Str :=
  if n < 0 then 45 :: natDigits (-n).toNat else natDigits n.toNat

/-- Digit test. -/
def isDigit (c : Nat) : Bool := Nat.ble 48 c && Nat.ble c 57

/-- Value of a digit list, most significant first. -/
def digitsVal (s : Str) : Nat := s.foldl (fun a c => a * 10 + (c - 48)) 0

/-- Modelled from the spec: zen `stringTo<int>` for the `plural_count`
header value, which must parse as an integer; `none` reports the fatal
bad-integer header error.  Accepts an optional sign followed by one or
more decimal digits. -/
def stringToInt (s : Str) : Option Int :=
  match s with
  | [] => none
  | c :: r =>
    if c = 45 then
      if r ≠ [] && r.all isDigit then some (-(digitsVal r : Int)) else none
    else if c = 43 then
      if r ≠ [] && r.all isDigit then some (digitsVal r : Int) else none
    else if (c :: r).all isDigit then some (digitsVal (c :: r) : Int) else none

/-- Continuation-byte test for UTF-8. -/
def isCont (c : Nat) : Bool := Nat.ble 128 c && Nat.ble c 191

/-- Modelled from the spec: zen `isValidUtf`, strict UTF-8 validation
(rejecting overlong encodings, surrogates and values beyond U+10FFFF). -/
def utfValid : Str → Bool
  | [] => true
  | c :: r =>
    if c < 128 then utfValid r
    else if c < 194 then false
    else if c < 224 then
      match r with
      | c1 :: r1 => isCont c1 && utfValid r1
      | [] => false
    else if c < 240 then
      match r with
      | c1 :: c2 :: r2 =>
        isCont c1 && isCont c2 &&
        !(c == 224 && c1 < 160) && !(c == 237 && Nat.ble 160 c1) && utfValid r2
      | _ => false
    else if c < 245 then
      match r with
      | c1 :: c2 :: c3 :: r3 =>
        isCont c1 && isCont c2 && isCont c3 &&
        !(c == 240 && c1 < 144) && !(c == 244 && Nat.ble 144 c1) && utfValid r3
      | _ => false
    else false

/-! ## Tokens and the byte scanner -/

/-- Token kinds of the `.lng` grammar (`TokenType`). -/
inductive TokT
  | header | source | target | empty | text | plural | tend
deriving DecidableEq

/-- A scanner token (`Token`): kind plus normalized text content. -/
structure Token where
  type : TokT
  text : Str
deriving DecidableEq

/-- The fixed tag-spelling table (`KnownTokens`), shared by scanner and
generator. -/
def knownTags : List (TokT × Str) :=
  [(TokT.header, ascii "<header>"),
   (TokT.source, ascii "<source>"),
   (TokT.target, ascii "<target>"),
   (TokT.empty,  ascii "<empty>"),
   (TokT.plural, ascii "<pluralform>")]

/-- Spelling of one tag (`KnownTokens::text`). -/
def tagText (t : TokT) : Str :=
  match lookupA knownTags t with
  | some s => s
  | none => []

/-- First known tag matching a prefix of the stream, with its length. -/
def matchTag (s : Str) : Option (TokT × Nat) :=
  knownTags.foldr
    (fun p acc => if isPrefixL p.2 s then some (p.1, p.2.length) else acc) none

/-- Does some known tag begin at the head of the stream
(`Scanner::startsWithKnownTag`)? -/
def startsTag (s : Str) : Bool := knownTags.any (fun p => isPrefixL p.2 s)

/-- Number of bytes of a text token: up to the next position where a known
tag begins, or the end of the stream (the scan loop of
`Scanner::getNextToken`). -/
def textLenF : Str → Nat
  | [] => 0
  | c :: r => if startsTag (c :: r) then 0 else 1 + textLenF r

/-- Text normalization of the scanner (`Scanner::normalize`): trim both
ends, then turn CRLF and lone CR into LF. -/
def normalizeT (s : Str) : Str := replaceCR (replaceCRLF (trimL s))

/-- One scanner step (`Scanner::getNextToken`) on the remaining stream:
the produced token together with the number of bytes consumed. -/
def scanNextR (s : Str) : Token × Nat :=
  let w := (s.takeWhile isWS).length
  let r := s.drop w
  match r with
  | [] => (⟨TokT.tend, []⟩, w)
  | _ =>
    match matchTag r with
    | some (t, len) => (⟨t, []⟩, w + len)
    | none =>
      let n := textLenF r
      let raw := r.take n
      let t := normalizeT raw
      if t = [] && n = r.length then (⟨TokT.tend, []⟩, w + n)
      else (⟨TokT.text, t⟩, w + n)

/-- Row of a scanner position (`Scanner::posRow`): the larger of the CR
count and the LF count in the consumed prefix. -/
def posRowOf (pre : Str) : Nat := max (pre.count 13) (pre.count 10)

/-- Column of a scanner position (`Scanner::posCol`): distance to the
last line-break character of the consumed prefix. -/
def posColOf (pre : Str) : Nat := (pre.reverse.takeWhile (fun c => !isLB c)).length

/-- The UTF-8 byte-order mark, consumed once by the scanner constructor. -/
def bomUtf8 : Str := [239, 187, 191]

/-! ## Plural rule evaluator

`parse_plural.h` is not among the given sources; the evaluator below is
modelled from the specification: a small expression evaluator
(arithmetic, comparisons, logical connectives and the ternary operator
over one integer variable `n`) behind the narrow interface
`form_count` / `is_single_number_form` / `representative_value`. -/

/-- Tokens of a plural-rule expression. -/
inductive ETok
  | num (v : Nat) | varN | qmark | colon | lpar | rpar
  | opEq | opNe | opLe | opGe | opLt | opGt
  | opAnd | opOr | opMod | opAdd | opSub | opMul | opDiv
deriving DecidableEq

/-- Modelled from the spec: tokenizer of the plural-rule expression
grammar. -/
def tokenizeE : Nat → Str → Option (List ETok)
  | 0, _ => none
  | _ + 1, [] => some []
  | fuel + 1, c :: r =>
    if isWS c then tokenizeE fuel r
    else if isDigit c then
      let ds := (c :: r).takeWhile isDigit
      let rest := (c :: r).dropWhile isDigit
      match tokenizeE fuel rest with
      | some ts => some (ETok.num (digitsVal ds) :: ts)
      | none => none
    else if c == 110 then (tokenizeE fuel r).map (ETok.varN :: ·)
    else if c == 63 then (tokenizeE fuel r).map (ETok.qmark :: ·)
    else if c == 40 then (tokenizeE fuel r).map (ETok.lpar :: ·)
    else if c == 41 then (tokenizeE fuel r).map (ETok.rpar :: ·)
    else if c == 37 then (tokenizeE fuel r).map (ETok.opMod :: ·)
    else if c == 43 then (tokenizeE fuel r).map (ETok.opAdd :: ·)
    else if c == 45 then (tokenizeE fuel r).map (ETok.opSub :: ·)
    else if c == 42 then (tokenizeE fuel r).map (ETok.opMul :: ·)
    else if c == 47 then (tokenizeE fuel r).map (ETok.opDiv :: ·)
    else
      match c, r with
      | 61, 61 :: r2 => (tokenizeE fuel r2).map (ETok.opEq :: ·)
      | 33, 61 :: r2 => (tokenizeE fuel r2).map (ETok.opNe :: ·)
      | 60, 61 :: r2 => (tokenizeE fuel r2).map (ETok.opLe :: ·)
      | 62, 61 :: r2 => (tokenizeE fuel r2).map (ETok.opGe :: ·)
      | 60, r2 => (tokenizeE fuel r2).map (ETok.opLt :: ·)
      | 62, r2 => (tokenizeE fuel r2).map (ETok.opGt :: ·)
      | 38, 38 :: r2 => (tokenizeE fuel r2).map (ETok.opAnd :: ·)
      | 124, 124 :: r2 => (tokenizeE fuel r2).map (ETok.opOr :: ·)
      | 58, r2 => (tokenizeE fuel r2).map (ETok.colon :: ·)
      | _, _ => none

/-- Binary operators of a plural-rule expression. -/
inductive BOp
  | beq | bne | ble | bge | blt | bgt | band | bor | bmod | badd | bsub | bmul | bdiv
deriving DecidableEq

/-- Abstract syntax of a plural-rule expression. -/
inductive PExpr
  | num (v : Nat)
  | varN
  | bin (op : BOp) (a b : PExpr)
  | cond (c a b : PExpr)
deriving DecidableEq

mutual

/-- Conditional (ternary) level of the expression parser. -/
def parseCond : Nat → List ETok → Option (PExpr × List ETok)
  | 0, _ => none
  | fuel + 1, ts =>
    match parseOr fuel ts with
    | some (c, ETok.qmark :: ts1) =>
      match parseCond fuel ts1 with
      | some (a, ETok.colon :: ts2) =>
        match parseCond fuel ts2 with
        | some (b, ts3) => some (PExpr.cond c a b, ts3)
        | none => none
      | _ => none
    | some (e, ts1) => some (e, ts1)
    | none => none

/-- Logical-or level of the expression parser. -/
def parseOr : Nat → List ETok → Option (PExpr × List ETok)
  | 0, _ => none
  | fuel + 1, ts =>
    match parseAnd fuel ts with
    | some (a, ts1) => parseOrTail fuel a ts1
    | none => none

/-- Left-associative tail of the logical-or level. -/
def parseOrTail : Nat → PExpr → List ETok → Option (PExpr × List ETok)
  | 0, _, _ => none
  | fuel + 1, a, ETok.opOr :: ts =>
    match parseAnd fuel ts with
    | some (b, ts1) => parseOrTail fuel (PExpr.bin BOp.bor a b) ts1
    | none => none
  | _ + 1, a, ts => some (a, ts)

/-- Logical-and level of the expression parser. -/
def parseAnd : Nat → List ETok → Option (PExpr × List ETok)
  | 0, _ => none
  | fuel + 1, ts =>
    match parseCmp fuel ts with
    | some (a, ts1) => parseAndTail fuel a ts1
    | none => none

/-- Left-associative tail of the logical-and level. -/
def parseAndTail : Nat → PExpr → List ETok → Option (PExpr × List ETok)
  | 0, _, _ => none
  | fuel + 1, a, ETok.opAnd :: ts =>
    match parseCmp fuel ts with
    | some (b, ts1) => parseAndTail fuel (PExpr.bin BOp.band a b) ts1
    | none => none
  | _ + 1, a, ts => some (a, ts)

/-- Comparison level of the expression parser. -/
def parseCmp : Nat → List ETok → Option (PExpr × List ETok)
  | 0, _ => none
  | fuel + 1, ts =>
    match parseAdd fuel ts with
    | some (a, op :: ts1) =>
      let mk (o : BOp) : Option (PExpr × List ETok) :=
        match parseAdd fuel ts1 with
        | some (b, ts2) => some (PExpr.bin o a b, ts2)
        | none => none
      match op with
      | ETok.opEq => mk BOp.beq
      | ETok.opNe => mk BOp.bne
      | ETok.opLe => mk BOp.ble
      | ETok.opGe => mk BOp.bge
      | ETok.opLt => mk BOp.blt
      | ETok.opGt => mk BOp.bgt
      | _ => some (a, op :: ts1)
    | some (a, []) => some (a, [])
    | none => none

/-- Additive level of the expression parser. -/
def parseAdd : Nat → List ETok → Option (PExpr × List ETok)
  | 0, _ => none
  | fuel + 1, ts =>
    match parseMul fuel ts with
    | some (a, ts1) => parseAddTail fuel a ts1
    | none => none

/-- Left-associative tail of the additive level. -/
def parseAddTail : Nat → PExpr → List ETok → Option (PExpr × List ETok)
  | 0, _, _ => none
  | fuel + 1, a, ETok.opAdd :: ts =>
    match parseMul fuel ts with
    | some (b, ts1) => parseAddTail fuel (PExpr.bin BOp.badd a b) ts1
    | none => none
  | fuel + 1, a, ETok.opSub :: ts =>
    match parseMul fuel ts with
    | some (b, ts1) => parseAddTail fuel (PExpr.bin BOp.bsub a b) ts1
    | none => none
  | _ + 1, a, ts => some (a, ts)

/-- Multiplicative level (including `%`) of the expression parser. -/
def parseMul : Nat → List ETok → Option (PExpr × List ETok)
  | 0, _ => none
  | fuel + 1, ts =>
    match parsePrim fuel ts with
    | some (a, ts1) => parseMulTail fuel a ts1
    | none => none

/-- Left-associative tail of the multiplicative level. -/
def parseMulTail : Nat → PExpr → List ETok → Option (PExpr × List ETok)
  | 0, _, _ => none
  | fuel + 1, a, ETok.opMul :: ts =>
    match parsePrim fuel ts with
    | some (b, ts1) => parseMulTail fuel (PExpr.bin BOp.bmul a b) ts1
    | none => none
  | fuel + 1, a, ETok.opDiv :: ts =>
    match parsePrim fuel ts with
    | some (b, ts1) => parseMulTail fuel (PExpr.bin BOp.bdiv a b) ts1
    | none => none
  | fuel + 1, a, ETok.opMod :: ts =>
    match parsePrim fuel ts with
    | some (b, ts1) => parseMulTail fuel (PExpr.bin BOp.bmod a b) ts1
    | none => none
  | _ + 1, a, ts => some (a, ts)

/-- Primary level of the expression parser: number, `n`, parentheses. -/
def parsePrim : Nat → List ETok → Option (PExpr × List ETok)
  | 0, _ => none
  | _ + 1, ETok.num v :: ts => some (PExpr.num v, ts)
  | _ + 1, ETok.varN :: ts => some (PExpr.varN, ts)
  | fuel + 1, ETok.lpar :: ts =>
    match parseCond fuel ts with
    | some (e, ETok.rpar :: ts1) => some (e, ts1)
    | _ => none
  | _ + 1, _ => none

end

/-- Integer truth value. -/
def itv (b : Bool) : Int := if b then 1 else 0

/-- Evaluation of a plural-rule expression at `n`. -/
def evalE (n : Int) : PExpr → Int
  | PExpr.num v => (v : Int)
  | PExpr.varN => n
  | PExpr.cond c a b => if evalE n c ≠ 0 then evalE n a else evalE n b
  | PExpr.bin op a b =>
    let x := evalE n a
    let y := evalE n b
    match op with
    | BOp.beq => itv (x = y)
    | BOp.bne => itv (x ≠ y)
    | BOp.ble => itv (x ≤ y)
    | BOp.bge => itv (y ≤ x)
    | BOp.blt => itv (x < y)
    | BOp.bgt => itv (y < x)
    | BOp.band => itv (x ≠ 0 ∧ y ≠ 0)
    | BOp.bor => itv (x ≠ 0 ∨ y ≠ 0)
    | BOp.bmod => x % y
    | BOp.badd => x + y
    | BOp.bsub => x - y
    | BOp.bmul => x * y
    | BOp.bdiv => x / y

/-- Per-slot data of the evaluator: how many of the scanned values select
the slot, and the first (representative) such value. -/
structure FormInfo where
  hits : Nat
  firstNumber : Int
deriving DecidableEq

/-- The plural-rule evaluator (`plural::PluralFormInfo`), reduced to its
per-slot data. -/
structure PluralFormInfo where
  forms : List FormInfo
deriving DecidableEq

/-- Declared form count (`PluralFormInfo::getCount`). -/
def piCount (pi : PluralFormInfo) : Nat := pi.forms.length

/-- Modelled from the spec: `is_single_number_form(slot)` — true when the
rule maps exactly one scanned integer to that slot. -/
def isSingleNumberForm (pi : PluralFormInfo) (i : Nat) : Bool :=
  match pi.forms.get? i with
  | some fi => fi.hits == 1
  | none => false

/-- Modelled from the spec: `representative_value(slot)` — a concrete
integer selecting that slot. -/
def getFirstNumber (pi : PluralFormInfo) (i : Nat) : Int :=
  match pi.forms.get? i with
  | some fi => fi.firstNumber
  | none => -1

/-- Record one selected slot in the per-slot data. -/
def bumpAt (l : List FormInfo) (i : Nat) (n : Int) : List FormInfo :=
  match l, i with
  | [], _ => []
  | fi :: r, 0 => ⟨fi.hits + 1, if fi.hits = 0 then n else fi.firstNumber⟩ :: r
  | fi :: r, j + 1 => fi :: bumpAt r j n

/-- Bound of the evaluator's scan over concrete values of `n`. -/
def scanBound : Nat := 100

/-- Scan `n = start, start+1, …` for `steps` steps, recording selected
slots; fails when some value selects no valid slot. -/
def scanForms (ast : PExpr) (cnt : Nat) : Nat → Nat → List FormInfo → Option (List FormInfo)
  | _, 0, acc => some acc
  | n, steps + 1, acc =>
    let v := evalE (Int.ofNat n) ast
    if 0 ≤ v && v.toNat < cnt then
      scanForms ast cnt (n + 1) steps (bumpAt acc v.toNat (Int.ofNat n))
    else none

/-- Modelled from the spec: construction of the plural-rule evaluator
from the rule expression and the declared count; `none` models the
`InvalidPluralForm` failure (inconsistent or unparsable definition, a
count below one, or a slot never selected). -/
def mkPluralFormInfo (definition : Str) (pluralCount : Int) : Option PluralFormInfo :=
  if pluralCount < 1 then none
  else
    match tokenizeE (definition.length + 1) definition with
    | none => none
    | some ts =>
      match parseCond (ts.length * 8 + 8) ts with
      | some (ast, []) =>
        match scanForms ast pluralCount.toNat 0 scanBound
            (List.replicate pluralCount.toNat ⟨0, 0⟩) with
        | some fis => if fis.all (fun fi => Nat.ble 1 fi.hits) then some ⟨fis⟩ else none
        | none => none
      | _ => none

/-! ## Error messages and the validation engine -/

/-- Structured counterparts of the `ParsingError` message strings. -/
inductive EMsg
  | unexpectedToken
  | invalidPluralForm
  | cannotFindHeaderItem (name : Str)
  | invalidIntegerValue (name : Str)
  | sourceTextEmpty
  | sourceUtfError
  | transUtfError
  | textUtfError
  | placeholderMissing (ph : Str)
  | oneLinerMultiline
  | ampersandCount
  | ampersandAtEnd
  | colonMissing
  | dotMissing
  | ellipsisMissing
  | misspelled (lit : Str)
  | spaceBeforePunct (c : Nat)
  | pluralSourceMissingX
  | invalidFormCount (actual expected : Nat)
  | duplicateForm (idx : Nat)
  | needsDecimal (pos : Nat) (firstNumber : Int)
  | formMissingX (pos : Nat)
  | placeholderMissingText (ph : Str)
  | oneLinerPlural
  | fuelExhausted
deriving DecidableEq

/-- A located parsing error (`ParsingError`). -/
structure PError where
  msg : EMsg
  row : Nat
  col : Nat
deriving DecidableEq

/-- The primary placeholder `%x`. -/
def xph : Str := ascii "%x"

/-- The secondary placeholder `%y`. -/
def yph : Str := ascii "%y"

/-- The secondary placeholder `%z`. -/
def zph : Str := ascii "%z"

/-- Remove every `&&` pair (display escape), left to right. -/
def dropAmpAmp : Str → Str
  | [] => []
  | [c] => [c]
  | c :: d :: r =>
    if c = 38 ∧ d = 38 then dropAmpAmp r
    else c :: dropAmpAmp (d :: r)

/-- Number of lone `&` accelerator markers
(`LngParser::ampersandTokenCount`). -/
def ampCount (s : Str) : Nat := (dropAmpAmp s).count 38

/-- Ends with a single `&` (`LngParser::endsWithSingleAmp`). -/
def endsWithSingleAmp (s : Str) : Bool :=
  endsWithL s [38] && !endsWithL s [38, 38]

/-- Ends with an ellipsis, ASCII or narrow
(`LngParser::endsWithEllipsis`). -/
def endsWithEllipsis (s : Str) : Bool :=
  endsWithL s (ascii "...") || endsWithL s [226, 128, 166]

/-- Ends with a colon, ASCII or Chinese (`LngParser::endsWithColon`). -/
def endsWithColon (s : Str) : Bool :=
  endsWithL s [58] || endsWithL s [239, 188, 154]

/-- Ends with a single period, ASCII, Hindi or Chinese
(`LngParser::endsWithSingleDot`). -/
def endsWithSingleDot (s : Str) : Bool :=
  (endsWithL s [46] || endsWithL s [224, 165, 164] || endsWithL s [227, 128, 130]) &&
  (!endsWithL s [46, 46] &&
   !endsWithL s [224, 165, 164, 224, 165, 164] &&
   !endsWithL s [227, 128, 130, 227, 128, 130])

/-- The fixed not-to-be-translated literal list of the singular
validation (`validateTranslation`, line 459). -/
def fixedStrings7 : List Str :=
  [ascii "FreeFileSync", ascii "RealTimeSync", ascii "ffs_gui",
   ascii "ffs_batch", ascii "ffs_real", ascii "ffs_tmp",
   ascii "GlobalSettings.xml"]

/-- The fixed not-to-be-translated literal list of the plural validation
(`validateTranslation`, line 581); it lacks `"ffs_real"`. -/
def fixedStrings6 : List Str :=
  [ascii "FreeFileSync", ascii "RealTimeSync", ascii "ffs_gui",
   ascii "ffs_batch", ascii "ffs_tmp", ascii "GlobalSettings.xml"]

/-- Punctuation characters checked for a preceding space (`.!?:;$#`). -/
def punctChars : List Nat := ascii ".!?:;$#"

/-- One throw-check of `validateTranslation`: raise the message when the
condition holds. -/
def checkE (bad : Bool) (m : EMsg) : Except EMsg Unit :=
  if bad then .error m else .ok ()

/-- Raise a computed error when present. -/
def optE : Option EMsg → Except EMsg Unit
  | some m => .error m
  | none => .ok ()

/-- Validation of a singular entry
(`LngParser::validateTranslation(original, translation)`). -/
def validateSingular (original translation : Str) : Except EMsg Unit :=
  checkE (decide (original = [])) .sourceTextEmpty >>= fun _ =>
  checkE (!utfValid original) .sourceUtfError >>= fun _ =>
  checkE (!utfValid translation) .transUtfError >>= fun _ =>
  if translation = [] then .ok ()
  else
    optE (([xph, yph, zph].find?
        (fun ph => containsL ph original && !containsL ph translation)).map
      (fun ph => .placeholderMissing ph)) >>= fun _ =>
    checkE (!containsB original 10 && containsB translation 10)
      .oneLinerMultiline >>= fun _ =>
    checkE (Nat.blt 1 (ampCount original) ||
      ampCount original != ampCount translation) .ampersandCount >>= fun _ =>
    checkE (endsWithSingleAmp original || endsWithSingleAmp translation)
      .ampersandAtEnd >>= fun _ =>
    checkE (endsWithColon original && !endsWithColon translation)
      .colonMissing >>= fun _ =>
    checkE (endsWithSingleDot original && !endsWithSingleDot translation)
      .dotMissing >>= fun _ =>
    checkE (endsWithEllipsis original && !endsWithEllipsis translation)
      .ellipsisMissing >>= fun _ =>
    optE ((fixedStrings7.find?
        (fun f => containsL f original && !containsL f translation)).map
      (fun f => .misspelled f)) >>= fun _ =>
    optE ((punctChars.find?
        (fun c => containsL [32, c] original ||
          containsL [32, c] translation)).map
      (fun c => .spaceBeforePunct c))

/-- First index at or after `j` holding exactly `f`. -/
def idxOfFrom : List Str → Str → Nat → Option Nat
  | [], _, _ => none
  | g :: r, f, j => if g = f then some j else idxOfFrom r f (j + 1)

/-- Duplicate plural-form check: first form lacking `%x` that reappears
later, reported at the later index. -/
def dupIdx : List Str → Nat → Option Nat
  | [], _ => none
  | f :: rest, i =>
    if !containsL xph f then
      match idxOfFrom rest f (i + 1) with
      | some j => some j
      | none => dupIdx rest (i + 1)
    else dupIdx rest (i + 1)

/-- Per-slot plural-form check: single-number slots must carry the
placeholder or the representative decimal when the original singular
carries `%x` or `1`; other slots must carry the placeholder. -/
def slotErr (pi : PluralFormInfo) (o1 : Str) : List Str → Nat → Option EMsg
  | [], _ => none
  | f :: rest, pos =>
    if isSingleNumberForm pi pos then
      if containsL xph o1 || containsL (ascii "1") o1 then
        let fn := getFirstNumber pi pos
        if !containsL xph f && !containsL (intToStr fn) f then
          some (.needsDecimal pos fn)
        else slotErr pi o1 rest (pos + 1)
      else slotErr pi o1 rest (pos + 1)
    else
      if !containsL xph f then some (.formMissingX pos)
      else slotErr pi o1 rest (pos + 1)

/-- The texts a plural entry is checked over: both originals and every
translated form. -/
def allTextsOf (original : Str × Str) (translation : List Str) : List Str :=
  original.1 :: original.2 :: translation

/-- Validation of a plural entry
(`LngParser::validateTranslation(original, translation, pluralInfo)`). -/
def validatePlural (original : Str × Str) (translation : List Str)
    (pi : PluralFormInfo) : Except EMsg Unit :=
  checkE (decide (original.1 = []) || decide (original.2 = []))
    .sourceTextEmpty >>= fun _ =>
  checkE ((allTextsOf original translation).any (fun s => !utfValid s))
    .textUtfError >>= fun _ =>
  checkE (!containsL xph original.2) .pluralSourceMissingX >>= fun _ =>
  if translation = [] then .ok ()
  else
    checkE (piCount pi != translation.length)
      (.invalidFormCount translation.length (piCount pi)) >>= fun _ =>
    optE ((dupIdx translation 0).map (fun i => .duplicateForm i)) >>= fun _ =>
    optE (slotErr pi original.1 translation 0) >>= fun _ =>
    optE (([yph, zph].find?
        (fun ph => (containsL ph original.1 || containsL ph original.2) &&
          (allTextsOf original translation).any
            (fun s => !containsL ph s))).map
      (fun ph => .placeholderMissingText ph)) >>= fun _ =>
    checkE (!containsB original.1 10 && !containsB original.2 10 &&
      translation.any (fun f => containsB f 10)) .oneLinerPlural >>= fun _ =>
    checkE ((allTextsOf original translation).any
      (fun s => Nat.blt 1 (ampCount original.1) ||
        ampCount s != ampCount original.1)) .ampersandCount >>= fun _ =>
    checkE ((allTextsOf original translation).any endsWithSingleAmp)
      .ampersandAtEnd >>= fun _ =>
    checkE ((endsWithL original.1 [58] || endsWithL original.2 [58]) &&
      (allTextsOf original translation).any (fun s => !endsWithColon s))
      .colonMissing >>= fun _ =>
    checkE ((endsWithSingleDot original.1 || endsWithSingleDot original.2) &&
      (allTextsOf original translation).any (fun s => !endsWithSingleDot s))
      .dotMissing >>= fun _ =>
    checkE ((endsWithEllipsis original.1 || endsWithEllipsis original.2) &&
      (allTextsOf original translation).any (fun s => !endsWithEllipsis s))
      .ellipsisMissing >>= fun _ =>
    optE ((fixedStrings6.find?
        (fun f => (containsL f original.1 || containsL f original.2) &&
          (allTextsOf original translation).any (fun s => !containsL f s))).map
      (fun f => .misspelled f)) >>= fun _ =>
    optE ((punctChars.find?
        (fun c => (allTextsOf original translation).any
          (fun s => containsL [32, c] s))).map
      (fun c => .spaceBeforePunct c))

/-! ## Header record, maps and the grammar parser -/

/-- The translation-file header (`TransHeader`). -/
structure TransHeader where
  languageName : Str
  translatorName : Str
  locale : Str
  flagFile : Str
  pluralCount : Int
  pluralDefinition : Str
deriving DecidableEq

/-- Singular map (`TranslationMap`): original to translation. -/
abbrev TransMap := List (Str × Str)

/-- Plural map (`TranslationPluralMap`): (singular, plural) pair to the
list of translated forms. -/
abbrev PluralMap := List ((Str × Str) × List Str)

/-- The `key: value` records of the header block: split the raw text on
line breaks, trim the part before the first colon as the key and the
part after it as the value, skip blocks with an empty key, first
occurrence of a key wins (`std::unordered_map::emplace`). -/
def headerItems (raw : Str) : List (Str × Str) :=
  (splitLB raw).foldl
    (fun acc block =>
      let name := trimL (beforeColon block)
      if name = [] then acc else emplaceA name (trimL (afterColon block)) acc)
    []

/-- Lookup of one required header item (`getValue` in
`LngParser::parseHeader`). -/
def getV (items : List (Str × Str)) (name : Str) : Except EMsg Str :=
  match lookupA items name with
  | some v => .ok v
  | none => .error (.cannotFindHeaderItem name)

/-- Field extraction of `LngParser::parseHeader` from the raw header
text, in the source's assignment order; the integer parse of
`plural_count` is modelled from the spec as a fatal bad-integer error. -/
def headerFromRaw (raw : Str) : Except EMsg TransHeader := do
  let lang ← getV (headerItems raw) (ascii "language")
  let loc ← getV (headerItems raw) (ascii "locale")
  let img ← getV (headerItems raw) (ascii "image")
  let pcS ← getV (headerItems raw) (ascii "plural_count")
  let pc ← match stringToInt pcS with
           | some n => Except.ok n
           | none => Except.error (.invalidIntegerValue (ascii "plural_count"))
  let pdef ← getV (headerItems raw) (ascii "plural_definition")
  let trans ← getV (headerItems raw) (ascii "translator")
  pure ⟨lang, trans, loc, img, pc, pdef⟩

/-- Parser state (`LngParser`): the full stream, the scanner position and
the one-token lookahead. -/
structure PState where
  stream : Str
  pos : Nat
  tk : Token
deriving DecidableEq

/-- Remaining input of a parser state. -/
def stRest (st : PState) : Str := st.stream.drop st.pos

/-- Scan the next token into the lookahead (`LngParser::nextToken`). -/
def advance (st : PState) : PState :=
  let (t, k) := scanNextR (stRest st)
  ⟨st.stream, st.pos + k, t⟩

/-- Initial parser state: skip a UTF-8 byte-order mark once, then scan
the first token (`Scanner` constructor plus the `LngParser`
constructor). -/
def initPState (s : Str) : PState :=
  let p0 := if isPrefixL bomUtf8 s then bomUtf8.length else 0
  advance ⟨s, p0, ⟨TokT.tend, []⟩⟩

/-- Located error at the current scanner position. -/
def errAt (st : PState) (m : EMsg) : PError :=
  ⟨m, posRowOf (st.stream.take st.pos), posColOf (st.stream.take st.pos)⟩

/-- Expect and consume one token (`LngParser::consumeToken`). -/
def consumeTok (t : TokT) (st : PState) : Except PError PState :=
  if st.tk.type = t then .ok (advance st)
  else .error (errAt st .unexpectedToken)

/-- Header production (`LngParser::parseHeader`). -/
def parseHeaderSt (st : PState) : Except PError (TransHeader × PState) := do
  let st ← consumeTok .header st
  let raw := st.tk.text
  let st ← consumeTok .text st
  match headerFromRaw raw with
  | .error m => .error (errAt st m)
  | .ok h => .ok (h, st)

/-- Target-plural form loop of `LngParser::parsePlural`. -/
def parseForms (fuel : Nat) (st : PState) (acc : List Str) :
    Except PError (List Str × PState) :=
  match fuel with
  | 0 => .error (errAt st .fuelExhausted)
  | fuel + 1 =>
    if st.tk.type = .plural then do
      let st := advance st
      let f := st.tk.text
      let st ← consumeTok .text st
      parseForms fuel st (acc ++ [f])
    else .ok (acc, st)

/-- Plural production (`LngParser::parsePlural`); the `<source>` tag is
already consumed. -/
def parsePlural (pi : PluralFormInfo) (st : PState) (out : TransMap)
    (pluralOut : PluralMap) : Except PError (PState × TransMap × PluralMap) := do
  let st ← consumeTok .plural st
  let engSingular := st.tk.text
  let st ← consumeTok .text st
  let st ← consumeTok .plural st
  let engPlural := st.tk.text
  let st ← consumeTok .text st
  let original := (engSingular, engPlural)
  let st ← consumeTok .target st
  let (pluralList, st) ← parseForms (st.stream.length + 1) st []
  let st ←
    if pluralList = [] then consumeTok .empty st
    else pure st
  match validatePlural original pluralList pi with
  | .error m => .error (errAt st m)
  | .ok _ => .ok (st, out, emplaceA original pluralList pluralOut)

/-- Entry production (`LngParser::parseRegular`). -/
def parseRegular (pi : PluralFormInfo) (st : PState) (out : TransMap)
    (pluralOut : PluralMap) : Except PError (PState × TransMap × PluralMap) := do
  let st ← consumeTok .source st
  if st.tk.type = .plural then parsePlural pi st out pluralOut
  else do
    let original := st.tk.text
    let st ← consumeTok .text st
    let st ← consumeTok .target st
    let (translation, st) ←
      if st.tk.type = .text then pure (st.tk.text, advance st)
      else do
        let st ← consumeTok .empty st
        pure (([] : Str), st)
    match validateSingular original translation with
    | .error m => .error (errAt st m)
    | .ok _ => .ok (st, emplaceA original translation out, pluralOut)

/-- Entry loop of `LngParser::parse`; on an error the accumulated maps
are returned as well, the model of the mutated out-parameters. -/
def parseEntries (fuel : Nat) (pi : PluralFormInfo) (st : PState)
    (out : TransMap) (pluralOut : PluralMap) :
    Except PError Unit × TransMap × PluralMap :=
  match fuel with
  | 0 => (.error (errAt st .fuelExhausted), out, pluralOut)
  | fuel + 1 =>
    if st.tk.type = .tend then (.ok (), out, pluralOut)
    else
      match parseRegular pi st out pluralOut with
      | .error e => (.error e, out, pluralOut)
      | .ok (st', out', pluralOut') => parseEntries fuel pi st' out' pluralOut'

/-- The whole-file parse (`parseLng`): clear the maps, parse the header,
build the plural evaluator, then run the entry loop.  The maps are
returned in every case, the model of the caller-visible out-parameters;
the header only on success. -/
def parseLngSt (s : Str) : Except PError TransHeader × TransMap × PluralMap :=
  match parseHeaderSt (initPState s) with
  | .error e => (.error e, [], [])
  | .ok (h, st) =>
    match mkPluralFormInfo h.pluralDefinition h.pluralCount with
    | none => (.error (errAt st .invalidPluralForm), [], [])
    | some pi =>
      match parseEntries (s.length + 1) pi st [] [] with
      | (.ok _, out, pluralOut) => (.ok h, out, pluralOut)
      | (.error e, out, pluralOut) => (.error e, out, pluralOut)

/-- The header-only parse (`parseHeader`). -/
def parseHeaderTop (s : Str) : Except PError TransHeader :=
  match parseHeaderSt (initPState s) with
  | .error e => .error e
  | .ok (h, _) => .ok h

/-! ## Translation collection and generator -/

/-- A collection item (`SingularItem` / `PluralItem`), as a tagged
union. -/
inductive TransItem
  | singular (orig trans : Str)
  | plural (origS origP : Str) (forms : List Str)
deriving DecidableEq

/-- Does the item carry a translation (`Item::hasTranslation`)? -/
def hasTranslation : TransItem → Bool
  | .singular _ t => !t.isEmpty
  | .plural _ _ f => !f.isEmpty

/-- The unordered list of unique translation items
(`TranslationUnorderedList`). -/
structure TUList where
  sequence : List TransItem
  transUnique : List Str
  pluralUnique : List (Str × Str)
  transOld : TransMap
  transPluralOld : PluralMap
deriving DecidableEq

/-- `TranslationUnorderedList::addItem(const std::string&)`: no-op on a
known key, otherwise append one singular item whose translation is
seeded from the prior parsed map (empty when absent there or empty
there). -/
def addItemS (l : TUList) (orig : Str) : TUList :=
  if l.transUnique.contains orig then l
  else
    { l with
      transUnique := orig :: l.transUnique
      sequence := l.sequence ++
        [TransItem.singular orig
          (match lookupA l.transOld orig with
           | some t => if t = [] then [] else t
           | none => [])] }

/-- `TranslationUnorderedList::addItem(const SingularPluralPair&)`:
plural analogue of `addItemS`. -/
def addItemP (l : TUList) (orig : Str × Str) : TUList :=
  if l.pluralUnique.contains orig then l
  else
    { l with
      pluralUnique := orig :: l.pluralUnique
      sequence := l.sequence ++
        [TransItem.plural orig.1 orig.2
          (match lookupA l.transPluralOld orig with
           | some f => if f = [] then [] else f
           | none => [])] }

/-- `TranslationUnorderedList::untranslatedTextExists`. -/
def untranslatedTextExists (l : TUList) : Bool :=
  l.sequence.any (fun it => !hasTranslation it)

/-- Header block emitted by `generateLng`, before CRLF conversion. -/
def genHeaderLines (h : TransHeader) : Str :=
  tagText .header ++ [10] ++
  [9] ++ ascii "language: " ++ h.languageName ++ [10] ++
  [9] ++ ascii "locale: " ++ h.locale ++ [10] ++
  [9] ++ ascii "image: " ++ h.flagFile ++ [10] ++
  [9] ++ ascii "plural_count: " ++ intToStr h.pluralCount ++ [10] ++
  [9] ++ ascii "plural_definition: " ++ h.pluralDefinition ++ [10] ++
  [9] ++ ascii "translator: " ++ h.translatorName

/-- Chunk emitted by `generateLng` for one item, before CRLF
conversion. -/
def genItemChunk : TransItem → Str
  | .singular o t =>
    [10, 10] ++ tagText .source ++ [32] ++ o ++ [10] ++
    (if containsB o 10 then [10] else []) ++
    tagText .target ++ [32] ++ t ++
    (if t = [] then tagText .empty else [])
  | .plural s p forms =>
    [10, 10] ++ tagText .source ++ [10] ++
    [9] ++ tagText .plural ++ [32] ++ s ++ [10] ++
    [9] ++ tagText .plural ++ [32] ++ p ++ [10] ++
    tagText .target ++
    (forms.map (fun f => [10, 9] ++ tagText .plural ++ [32] ++ f)).flatten ++
    (if forms = [] then [32] ++ tagText .empty else [])

/-- The generator (`generateLng`): header block, then the visited items
split into the untranslated-first group and the main group, all LF
breaks turned into CRLF. -/
def generateLng (l : TUList) (h : TransHeader) (untranslatedToTop : Bool) : Str :=
  let grouped := l.sequence.foldl
    (fun (acc : Str × Str) it =>
      let chunk := genItemChunk it
      if untranslatedToTop && !hasTranslation it then (acc.1 ++ chunk, acc.2)
      else (acc.1, acc.2 ++ chunk))
    ([], [])
  toCRLF (genHeaderLines h ++ grouped.1 ++ grouped.2)

/-- Key of an item, for re-adding into a fresh collection. -/
def itemKey : TransItem → Str ⊕ (Str × Str)
  | .singular o _ => Sum.inl o
  | .plural s p _ => Sum.inr (s, p)

/-- One remerge step: `addItem` dispatched on the key kind. -/
def addKey (l : TUList) : Str ⊕ (Str × Str) → TUList
  | Sum.inl o => addItemS l o
  | Sum.inr sp => addItemP l sp

/-- Remerge: rebuild a collection from freshly discovered original keys
against the two previously parsed maps (the caller-side merge step of
the round trip). -/
def remergeC (keys : List (Str ⊕ (Str × Str))) (sm : TransMap) (pm : PluralMap) :
    TUList :=
  keys.foldl addKey ⟨[], [], [], sm, pm⟩

/-! ## Basic lemmas about the string primitives -/

@[simp] theorem ascii_header_tag : ascii "<header>" = [60, 104, 101, 97, 100, 101, 114, 62] := by decide

@[simp] theorem ascii_source_tag : ascii "<source>" = [60, 115, 111, 117, 114, 99, 101, 62] := by decide

@[simp] theorem ascii_target_tag : ascii "<target>" = [60, 116, 97, 114, 103, 101, 116, 62] := by decide

@[simp] theorem ascii_empty_tag : ascii "<empty>" = [60, 101, 109, 112, 116, 121, 62] := by decide

@[simp] theorem ascii_plural_tag : ascii "<pluralform>" = [60, 112, 108, 117, 114, 97, 108, 102, 111, 114, 109, 62] := by decide

theorem toCRLF_append (a b : Str) : toCRLF (a ++ b) = toCRLF a ++ toCRLF b := by
  induction a with
  | nil => rfl
  | cons c r ih =>
    by_cases hc : c = 10 <;> simp [toCRLF, hc, ih]

theorem toCRLF_cons_ne (c : Nat) (r : Str) (hc : c ≠ 10) :
    toCRLF (c :: r) = c :: toCRLF r := by
  simp [toCRLF, hc]

theorem toCRLF_of_no10 (a : Str) (h : ∀ c ∈ a, c ≠ 10) : toCRLF a = a := by
  induction a with
  | nil => rfl
  | cons c r ih =>
    rw [toCRLF_cons_ne c r (h c (by simp)), ih (fun x hx => h x (by simp [hx]))]

theorem mem_toCRLF {c : Nat} {a : Str} (h : c ∈ toCRLF a) : c = 13 ∨ c ∈ a := by
  induction a with
  | nil => simp [toCRLF] at h
  | cons d r ih =>
    by_cases hd : d = 10
    · subst hd
      have h : c = 13 ∨ c = 10 ∨ c ∈ toCRLF r := by simpa [toCRLF] using h
      rcases h with h | h | h
      · left; exact h
      · right; simp [h]
      · rcases ih h with h2 | h2
        · left; exact h2
        · right; simp [h2]
    · rw [toCRLF_cons_ne d r hd] at h
      rcases List.mem_cons.mp h with h | h
      · right; simp [h]
      · rcases ih h with h2 | h2
        · left; exact h2
        · right; simp [h2]

theorem replaceCRLF_cons_ne (c : Nat) (r : Str) (hc : c ≠ 13) :
    replaceCRLF (c :: r) = c :: replaceCRLF r := by
  cases r with
  | nil => rfl
  | cons d t =>
    simp only [replaceCRLF]
    rw [if_neg (fun hand => hc hand.1)]

theorem replaceCRLF_append_no13 (a b : Str) (h : ∀ c ∈ a, c ≠ 13) :
    replaceCRLF (a ++ b) = a ++ replaceCRLF b := by
  induction a with
  | nil => rfl
  | cons c r ih =>
    simp only [List.cons_append]
    rw [replaceCRLF_cons_ne _ _ (h c (by simp)), ih (fun x hx => h x (by simp [hx]))]

theorem replaceCR_cons_ne (c : Nat) (r : Str) (hc : c ≠ 13) :
    replaceCR (c :: r) = c :: replaceCR r := by
  simp [replaceCR, hc]

theorem replaceCR_append_no13 (a b : Str) (h : ∀ c ∈ a, c ≠ 13) :
    replaceCR (a ++ b) = a ++ replaceCR b := by
  induction a with
  | nil => rfl
  | cons c r ih =>
    simp only [List.cons_append]
    rw [replaceCR_cons_ne _ _ (h c (by simp)), ih (fun x hx => h x (by simp [hx]))]

theorem replaceCR_of_no13 (a : Str) (h : ∀ c ∈ a, c ≠ 13) : replaceCR a = a := by
  have := replaceCR_append_no13 a [] h
  simpa [replaceCR] using this

theorem crlf_norm (a : Str) (h : ∀ c ∈ a, c ≠ 13) :
    replaceCR (replaceCRLF (toCRLF a)) = a := by
  induction a with
  | nil => rfl
  | cons c r ih =>
    have hr : ∀ x ∈ r, x ≠ 13 := fun x hx => h x (by simp [hx])
    by_cases hc : c = 10
    · subst hc
      rw [show toCRLF (10 :: r) = 13 :: 10 :: toCRLF r from by simp [toCRLF],
          show replaceCRLF (13 :: 10 :: toCRLF r) = 10 :: replaceCRLF (toCRLF r) from by
            simp [replaceCRLF],
          replaceCR_cons_ne _ _ (by norm_num), ih hr]
    · rw [toCRLF_cons_ne c r hc,
          replaceCRLF_cons_ne c _ (h c (by simp)),
          replaceCR_cons_ne c _ (h c (by simp)), ih hr]

theorem takeWhile_append_stop {p : Nat → Bool} (w : Str) (c : Nat) (t : Str)
    (hw : ∀ x ∈ w, p x = true) (hc : p c = false) :
    (w ++ c :: t).takeWhile p = w ∧ (w ++ c :: t).drop w.length = c :: t := by
  constructor
  · induction w with
    | nil => simp [List.takeWhile, hc]
    | cons a r ih =>
      simp only [List.cons_append, List.takeWhile]
      rw [hw a (by simp)]
      simp only [List.cons.injEq, true_and]
      exact ih (fun x hx => hw x (by simp [hx]))
  · exact List.drop_left w (c :: t)

theorem startsTag_cons_ne60 (c : Nat) (r : Str) (hc : c ≠ 60) :
    startsTag (c :: r) = false := by
  have h60 : (60 == c) = false := beq_eq_false_iff_ne.mpr (fun h => hc h.symm)
  simp [startsTag, knownTags, isPrefixL, h60]

theorem textLenF_append_no60 (a b : Str) (h : ∀ c ∈ a, c ≠ 60) :
    textLenF (a ++ b) = a.length + textLenF b := by
  induction a with
  | nil => simp [textLenF]
  | cons c r ih =>
    have hst := startsTag_cons_ne60 c (r ++ b) (h c (by simp))
    simp only [List.cons_append, textLenF, List.append_eq]
    rw [if_neg (by simp [hst]), ih (fun x hx => h x (by simp [hx]))]
    simp only [List.length_cons]
    omega

theorem textLenF_of_startsTag (s : Str) (h : startsTag s = true) : textLenF s = 0 := by
  cases s with
  | nil => rfl
  | cons c r => simp [textLenF, h]

theorem dropWhile_append_all {p : Nat → Bool} (a b : Str)
    (ha : ∀ x ∈ a, p x = true) : (a ++ b).dropWhile p = b.dropWhile p := by
  induction a with
  | nil => rfl
  | cons c r ih =>
    simp only [List.cons_append, List.dropWhile_cons, ha c (by simp), if_pos]
    exact ih (fun x hx => ha x (by simp [hx]))

theorem dropWhile_of_head_neg {p : Nat → Bool} (l : Str) (a : Nat)
    (hh : l.head? = some a) (hp : p a = false) : l.dropWhile p = l := by
  cases l with
  | nil => simp at hh
  | cons c t =>
    simp only [List.head?_cons, Option.some.injEq] at hh
    subst hh
    simp [List.dropWhile_cons, hp]

theorem trimL_pad (body w : Str) (hb : body ≠ [])
    (hh : isWS (body.headD 0) = false) (hl : isWS (body.getLastD 0) = false)
    (hw : ∀ c ∈ w, isWS c = true) :
    trimL (body ++ w) = body := by
  unfold trimL
  rcases body with _ | ⟨c, t⟩
  · exact absurd rfl hb
  · simp only [List.headD_cons] at hh
    rw [List.cons_append, List.dropWhile_cons, if_neg (by simp [hh])]
    have hxsome : (c :: t).getLast?.isSome := by
      rw [List.getLast?_isSome]; simp
    obtain ⟨x, hx⟩ := Option.isSome_iff_exists.mp hxsome
    have hrev : (c :: t).reverse.head? = some x := by
      rw [List.head?_reverse]; exact hx
    have hgl : (c :: t).getLastD 0 = x := by
      rw [List.getLastD_eq_getLast?, hx]; rfl
    rw [show (c :: (t ++ w)) = (c :: t) ++ w from by simp,
        List.reverse_append,
        dropWhile_append_all w.reverse (c :: t).reverse
          (fun y hy => hw y (by simpa using hy)),
        dropWhile_of_head_neg (c :: t).reverse x hrev (hgl ▸ hl),
        List.reverse_reverse]

/-! ## Scanner lemmas -/

theorem ws_ne60 {c : Nat} (h : isWS c = true) : c ≠ 60 := by
  intro hc; subst hc; simp [isWS] at h

theorem matchTag_none_of_ne60 (c : Nat) (r : Str) (hc : c ≠ 60) :
    matchTag (c :: r) = none := by
  have h60 : (60 == c) = false := beq_eq_false_iff_ne.mpr (fun h => hc h.symm)
  simp [matchTag, knownTags, isPrefixL, h60]

theorem matchTag_header (r : Str) :
    matchTag (ascii "<header>" ++ r) = some (.header, 8) := by
  simp [matchTag, knownTags, isPrefixL]

theorem matchTag_source (r : Str) :
    matchTag (ascii "<source>" ++ r) = some (.source, 8) := by
  simp [matchTag, knownTags, isPrefixL]

theorem matchTag_target (r : Str) :
    matchTag (ascii "<target>" ++ r) = some (.target, 8) := by
  simp [matchTag, knownTags, isPrefixL]

theorem matchTag_empty (r : Str) :
    matchTag (ascii "<empty>" ++ r) = some (.empty, 7) := by
  simp [matchTag, knownTags, isPrefixL]

theorem matchTag_plural (r : Str) :
    matchTag (ascii "<pluralform>" ++ r) = some (.plural, 12) := by
  simp [matchTag, knownTags, isPrefixL]

theorem replaceCRLF_ne_nil (s : Str) (h : s ≠ []) : replaceCRLF s ≠ [] := by
  cases s with
  | nil => exact absurd rfl h
  | cons c t =>
    cases t with
    | nil => simp [replaceCRLF]
    | cons d t2 =>
      simp only [replaceCRLF]
      split <;> simp

theorem replaceCR_ne_nil (s : Str) (h : s ≠ []) : replaceCR s ≠ [] := by
  cases s with
  | nil => exact absurd rfl h
  | cons c t =>
    simp only [replaceCR]
    split <;> simp

theorem scanNextR_nil : scanNextR [] = (⟨TokT.tend, []⟩, 0) := rfl

theorem scanNextR_ws_tag (w : Str) (tg : TokT) (r : Str) (t' : Str)
    (hw : ∀ c ∈ w, isWS c = true)
    (ht : tagText tg = 60 :: t')
    (hm : matchTag (tagText tg ++ r) = some (tg, (tagText tg).length)) :
    scanNextR (w ++ (tagText tg ++ r)) =
      (⟨tg, []⟩, w.length + (tagText tg).length) := by
  have hassoc : w ++ (tagText tg ++ r) = w ++ (60 :: (t' ++ r)) := by
    rw [ht]; simp
  obtain ⟨htake, hdrop⟩ :=
    takeWhile_append_stop (p := isWS) w 60 (t' ++ r) hw (by decide)
  simp only [scanNextR]
  rw [hassoc, htake, hdrop]
  have hm' : matchTag (60 :: (t' ++ r)) = some (tg, (tagText tg).length) := by
    rw [show (60 :: (t' ++ r)) = tagText tg ++ r from by rw [ht]; simp]
    exact hm
  simp only [hm']

theorem scanNextR_text_gen (pre body w rest : Str)
    (hpre : ∀ c ∈ pre, isWS c = true)
    (hb : body ≠ []) (hh : isWS (body.headD 0) = false)
    (hl : isWS (body.getLastD 0) = false) (h60 : ∀ c ∈ body, c ≠ 60)
    (hw : ∀ c ∈ w, isWS c = true)
    (hrest : rest = [] ∨ startsTag rest = true) :
    scanNextR (pre ++ body ++ w ++ rest) =
      (⟨TokT.text, replaceCR (replaceCRLF body)⟩,
        pre.length + (body.length + w.length)) := by
  rcases body with _ | ⟨c, t⟩
  · exact absurd rfl hb
  simp only [List.headD_cons] at hh
  have hassoc : pre ++ (c :: t) ++ w ++ rest = pre ++ (c :: (t ++ w ++ rest)) := by
    simp
  obtain ⟨htake, hdrop⟩ :=
    takeWhile_append_stop (p := isWS) pre c (t ++ w ++ rest) hpre hh
  simp only [scanNextR]
  rw [hassoc, htake, hdrop]
  have hc60 : c ≠ 60 := h60 c (by simp)
  rw [show (c :: (t ++ w ++ rest)) = (c :: t) ++ (w ++ rest) from by simp]
  have hmt : matchTag ((c :: t) ++ (w ++ rest)) = none := by
    rw [show (c :: t) ++ (w ++ rest) = c :: (t ++ (w ++ rest)) from by simp]
    exact matchTag_none_of_ne60 c _ hc60
  simp only [hmt]
  have hlen : textLenF ((c :: t) ++ (w ++ rest)) = (c :: t).length + w.length := by
    rw [textLenF_append_no60 _ _ h60,
        textLenF_append_no60 w rest (fun x hx => ws_ne60 (hw x hx))]
    have hz : textLenF rest = 0 := by
      rcases hrest with h | h
      · subst h; rfl
      · exact textLenF_of_startsTag rest h
    rw [hz]
    omega
  rw [hlen]
  have htakeb : ((c :: t) ++ (w ++ rest)).take ((c :: t).length + w.length) =
      (c :: t) ++ w := by
    rw [show (c :: t) ++ (w ++ rest) = ((c :: t) ++ w) ++ rest from by simp,
        show (c :: t).length + w.length = ((c :: t) ++ w).length from by
          simp; omega]
    exact List.take_left _ _
  rw [htakeb]
  have hnorm : normalizeT ((c :: t) ++ w) = replaceCR (replaceCRLF (c :: t)) := by
    unfold normalizeT
    rw [trimL_pad (c :: t) w (by simp) (by simpa using hh) hl hw]
  rw [hnorm]
  have hne : replaceCR (replaceCRLF (c :: t)) ≠ [] :=
    replaceCR_ne_nil _ (replaceCRLF_ne_nil _ (by simp))
  rw [if_neg (by simp [hne])]
  rfl

@[simp] theorem tagText_header : tagText .header = ascii "<header>" := by decide

@[simp] theorem tagText_source : tagText .source = ascii "<source>" := by decide

@[simp] theorem tagText_target : tagText .target = ascii "<target>" := by decide

@[simp] theorem tagText_empty : tagText .empty = ascii "<empty>" := by decide

@[simp] theorem tagText_plural : tagText .plural = ascii "<pluralform>" := by decide

theorem advance_to (st : PState) (A B : Str) (t : Token)
    (hA : stRest st = A ++ B)
    (hscan : scanNextR (A ++ B) = (t, A.length)) :
    (advance st).tk = t ∧ stRest (advance st) = B ∧
      (advance st).stream = st.stream := by
  unfold advance
  rw [hA, hscan]
  refine ⟨rfl, ?_, rfl⟩
  show st.stream.drop (st.pos + A.length) = B
  rw [← List.drop_drop]
  show (stRest st).drop A.length = B
  rw [hA]
  exact List.drop_left A B

/-! ## Well-formed (canonical) texts -/

/-- Canonical text: non-empty, no leading or trailing whitespace, free of
CR and of the `<` byte (so no tag can occur inside it). -/
def wfText (s : Str) : Bool :=
  !s.isEmpty && !isWS (s.headD 0) && !isWS (s.getLastD 0) &&
  decide (13 ∉ s) && decide (60 ∉ s)

/-- Canonical translation: empty (untranslated) or canonical text. -/
def wfTrans (s : Str) : Bool := s.isEmpty || wfText s

/-- Canonical collection item. -/
def wfItem : TransItem → Bool
  | .singular o t => wfText o && wfTrans t
  | .plural s p fs => wfText s && wfText p && fs.all wfText

/-- Canonical header field: canonical text without line feeds. -/
def wfField (s : Str) : Bool := wfText s && decide (10 ∉ s)

/-- Canonical header: every string field canonical and line-free. -/
def wfHeader (h : TransHeader) : Bool :=
  wfField h.languageName && wfField h.translatorName && wfField h.locale &&
  wfField h.flagFile && wfField h.pluralDefinition

theorem wfText_unpack (s : Str) (h : wfText s = true) :
    s ≠ [] ∧ isWS (s.headD 0) = false ∧ isWS (s.getLastD 0) = false ∧
      (∀ c ∈ s, c ≠ 13) ∧ (∀ c ∈ s, c ≠ 60) := by
  simp only [wfText, Bool.and_eq_true, Bool.not_eq_true', decide_eq_true_eq] at h
  obtain ⟨⟨⟨⟨h1, h2⟩, h3⟩, h4⟩, h5⟩ := h
  refine ⟨by simpa using h1, h2, h3, ?_, ?_⟩
  · intro c hc hceq
    subst hceq
    exact h4 hc
  · intro c hc hceq
    subst hceq
    exact h5 hc

theorem toCRLF_headD (s : Str) (hne : s ≠ []) (h : isWS (s.headD 0) = false) :
    (toCRLF s).headD 0 = s.headD 0 := by
  cases s with
  | nil => exact absurd rfl hne
  | cons c t =>
    simp only [List.headD_cons] at h ⊢
    have hc : c ≠ 10 := by
      intro hc; subst hc; simp [isWS] at h
    rw [toCRLF_cons_ne c t hc]
    rfl

theorem toCRLF_getLastD (s : Str) (hne : s ≠ [])
    (h : isWS (s.getLastD 0) = false) :
    (toCRLF s).getLastD 0 = s.getLastD 0 := by
  rcases List.eq_nil_or_concat s with rfl | ⟨a, x, rfl⟩
  · exact absurd rfl hne
  · simp only [List.concat_eq_append] at h ⊢
    have hx : (a ++ [x]).getLastD 0 = x := by
      rw [List.getLastD_eq_getLast?, List.getLast?_concat]
      rfl
    rw [hx] at h ⊢
    have hx10 : x ≠ 10 := by
      intro hc; subst hc; simp [isWS] at h
    rw [toCRLF_append, show toCRLF [x] = [x] from by simp [toCRLF, hx10],
        List.getLastD_eq_getLast?, List.getLast?_concat]
    rfl

theorem toCRLF_wf_facts (s : Str) (h : wfText s = true) :
    toCRLF s ≠ [] ∧ isWS ((toCRLF s).headD 0) = false ∧
      isWS ((toCRLF s).getLastD 0) = false ∧ (∀ c ∈ toCRLF s, c ≠ 60) := by
  obtain ⟨h1, h2, h3, h4, h5⟩ := wfText_unpack s h
  refine ⟨?_, ?_, ?_, ?_⟩
  · cases s with
    | nil => exact absurd rfl h1
    | cons c t =>
      by_cases hc : c = 10 <;> simp [toCRLF, hc]
  · rw [toCRLF_headD s h1 h2]; exact h2
  · rw [toCRLF_getLastD s h1 h3]; exact h3
  · intro c hc
    rcases mem_toCRLF hc with h13 | hmem
    · subst h13; norm_num
    · exact h5 c hmem

theorem crlf_norm_wf (s : Str) (h : wfText s = true) :
    replaceCR (replaceCRLF (toCRLF s)) = s :=
  crlf_norm s (wfText_unpack s h).2.2.2.1

/-! ## Chunk characterization of generated output -/

/-- Per-form tail of a plural chunk, after CRLF conversion. -/
def formsTailC (fs : List Str) : Str :=
  (fs.map (fun f => [13, 10, 9] ++ ascii "<pluralform>" ++ [32] ++ toCRLF f)).flatten

/-- Bytes of one generated item chunk after its `<source>` tag, after
CRLF conversion. -/
def afterSrcC : TransItem → Str
  | .singular o t =>
    [32] ++ toCRLF o ++ [13, 10] ++ (if containsB o 10 then [13, 10] else []) ++
    ascii "<target>" ++ [32] ++ toCRLF t ++ (if t = [] then ascii "<empty>" else [])
  | .plural s p fs =>
    [13, 10, 9] ++ ascii "<pluralform>" ++ [32] ++ toCRLF s ++
    [13, 10, 9] ++ ascii "<pluralform>" ++ [32] ++ toCRLF p ++
    [13, 10] ++ ascii "<target>" ++
    formsTailC fs ++ (if fs = [] then [32] ++ ascii "<empty>" else [])

/-- One generated item chunk after CRLF conversion. -/
def chunkC (it : TransItem) : Str :=
  [13, 10, 13, 10] ++ ascii "<source>" ++ afterSrcC it

/-- Nat stream of a list of generated item chunks. -/
def entsStream (its : List TransItem) : Str := (its.map chunkC).flatten

/-- File order of emitted items: untranslated first when requested,
each group in insertion order. -/
def emissionOrder (its : List TransItem) (b : Bool) : List TransItem :=
  if b then
    its.filter (fun it => !hasTranslation it) ++
    its.filter (fun it => hasTranslation it)
  else its

theorem toCRLF_flatten (l : List Str) :
    toCRLF l.flatten = (l.map toCRLF).flatten := by
  induction l with
  | nil => rfl
  | cons a r ih => simp [toCRLF_append, ih]

theorem chunkC_eq (it : TransItem) : toCRLF (genItemChunk it) = chunkC it := by
  cases it with
  | singular o t =>
    simp only [genItemChunk, chunkC, afterSrcC, tagText_source, tagText_target,
      tagText_empty, toCRLF_append]
    rw [show toCRLF [10, 10] = [13, 10, 13, 10] from rfl,
        show toCRLF (ascii "<source>") = ascii "<source>" from by decide,
        show toCRLF [32] = [32] from rfl,
        show toCRLF [10] = [13, 10] from rfl,
        show toCRLF (ascii "<target>") = ascii "<target>" from by decide,
        show toCRLF (if containsB o 10 then [10] else []) =
          (if containsB o 10 then [13, 10] else []) from by split <;> rfl,
        show toCRLF (if t = [] then ascii "<empty>" else []) =
          (if t = [] then ascii "<empty>" else []) from by
            split <;> decide]
    simp
  | plural s p fs =>
    have hcomp : (toCRLF ∘ fun f => [10, 9] ++ ascii "<pluralform>" ++ [32] ++ f) =
        (fun f => [13, 10, 9] ++ ascii "<pluralform>" ++ [32] ++ toCRLF f) := by
      funext f
      simp [toCRLF_append, toCRLF]
    simp only [genItemChunk, chunkC, afterSrcC, tagText_source, tagText_target,
      tagText_empty, tagText_plural, toCRLF_append, toCRLF_flatten, List.map_map,
      hcomp]
    have h4 : toCRLF (if fs = [] then [32] ++ ascii "<empty>" else []) =
        (if fs = [] then [32] ++ ascii "<empty>" else []) := by
      split
      · decide
      · rfl
    simp only [h4, formsTailC]
    simp [toCRLF]

theorem entsStream_append (a b : List TransItem) :
    entsStream (a ++ b) = entsStream a ++ entsStream b := by
  simp [entsStream]

theorem gen_fold_true (its : List TransItem) (acc : Str × Str) :
    its.foldl
      (fun (acc : Str × Str) it =>
        let chunk := genItemChunk it
        if true && !hasTranslation it then (acc.1 ++ chunk, acc.2)
        else (acc.1, acc.2 ++ chunk)) acc =
    (acc.1 ++ ((its.filter (fun it => !hasTranslation it)).map genItemChunk).flatten,
     acc.2 ++ ((its.filter (fun it => hasTranslation it)).map genItemChunk).flatten) := by
  induction its generalizing acc with
  | nil => simp
  | cons it r ih =>
    by_cases h : hasTranslation it
    · simp only [List.foldl_cons, List.filter_cons, h]
      rw [ih]
      simp [h]
    · simp only [List.foldl_cons, List.filter_cons,
        Bool.not_eq_true] at *
      rw [ih]
      simp [h]

theorem gen_fold_false (its : List TransItem) (acc : Str × Str) :
    its.foldl
      (fun (acc : Str × Str) it =>
        let chunk := genItemChunk it
        if false && !hasTranslation it then (acc.1 ++ chunk, acc.2)
        else (acc.1, acc.2 ++ chunk)) acc =
    (acc.1, acc.2 ++ (its.map genItemChunk).flatten) := by
  induction its generalizing acc with
  | nil => simp
  | cons it r ih =>
    simp only [List.foldl_cons]
    rw [ih]
    simp

theorem generateLng_eq (l : TUList) (h : TransHeader) (b : Bool) :
    generateLng l h b =
      toCRLF (genHeaderLines h) ++ entsStream (emissionOrder l.sequence b) := by
  cases b with
  | true =>
    unfold generateLng
    rw [gen_fold_true l.sequence ([], [])]
    simp only [List.nil_append]
    have he : emissionOrder l.sequence true =
        l.sequence.filter (fun it => !hasTranslation it) ++
        l.sequence.filter (fun it => hasTranslation it) := by
      simp [emissionOrder]
    rw [he, toCRLF_append, toCRLF_append, entsStream_append]
    unfold entsStream
    rw [toCRLF_flatten, toCRLF_flatten, List.map_map, List.map_map,
        show (toCRLF ∘ genItemChunk) = chunkC from funext chunkC_eq]
    simp
  | false =>
    unfold generateLng
    rw [gen_fold_false l.sequence ([], [])]
    simp only [List.nil_append]
    have he : emissionOrder l.sequence false = l.sequence := by
      simp [emissionOrder]
    rw [he, toCRLF_append]
    unfold entsStream
    rw [toCRLF_flatten, List.map_map,
        show (toCRLF ∘ genItemChunk) = chunkC from funext chunkC_eq]
    simp

/-! ## Parser stepping lemmas -/

theorem startsTag_header (r : Str) : startsTag (ascii "<header>" ++ r) = true := by
  simp [startsTag, knownTags, isPrefixL]

theorem startsTag_source (r : Str) : startsTag (ascii "<source>" ++ r) = true := by
  simp [startsTag, knownTags, isPrefixL]

theorem startsTag_target (r : Str) : startsTag (ascii "<target>" ++ r) = true := by
  simp [startsTag, knownTags, isPrefixL]

theorem startsTag_empty (r : Str) : startsTag (ascii "<empty>" ++ r) = true := by
  simp [startsTag, knownTags, isPrefixL]

theorem startsTag_plural (r : Str) : startsTag (ascii "<pluralform>" ++ r) = true := by
  simp [startsTag, knownTags, isPrefixL]

theorem step_text (st : PState) (pre body w rest : Str)
    (h : stRest st = pre ++ body ++ w ++ rest)
    (hpre : ∀ c ∈ pre, isWS c = true)
    (hb : body ≠ []) (hh : isWS (body.headD 0) = false)
    (hl : isWS (body.getLastD 0) = false) (h60 : ∀ c ∈ body, c ≠ 60)
    (hw : ∀ c ∈ w, isWS c = true)
    (hrest : rest = [] ∨ startsTag rest = true) :
    (advance st).tk = ⟨TokT.text, replaceCR (replaceCRLF body)⟩ ∧
      stRest (advance st) = rest ∧ (advance st).stream = st.stream := by
  have hscan : scanNextR ((pre ++ body ++ w) ++ rest) =
      (⟨TokT.text, replaceCR (replaceCRLF body)⟩, (pre ++ body ++ w).length) := by
    rw [scanNextR_text_gen pre body w rest hpre hb hh hl h60 hw hrest]
    refine Prod.ext rfl ?_
    simp only [List.length_append]
    omega
  exact advance_to st (pre ++ body ++ w) rest _ h hscan

theorem step_tag (st : PState) (w : Str) (tg : TokT) (r : Str) (t' : Str)
    (h : stRest st = w ++ (tagText tg ++ r))
    (hw : ∀ c ∈ w, isWS c = true)
    (ht : tagText tg = 60 :: t')
    (hm : matchTag (tagText tg ++ r) = some (tg, (tagText tg).length)) :
    (advance st).tk = ⟨tg, []⟩ ∧ stRest (advance st) = r ∧
      (advance st).stream = st.stream := by
  have hscan : scanNextR ((w ++ tagText tg) ++ r) =
      (⟨tg, []⟩, (w ++ tagText tg).length) := by
    rw [show (w ++ tagText tg) ++ r = w ++ (tagText tg ++ r) from by simp,
        scanNextR_ws_tag w tg r t' hw ht hm]
    refine Prod.ext rfl ?_
    simp only [List.length_append]
  exact advance_to st (w ++ tagText tg) r _ (by rw [h]; simp) hscan

theorem step_end (st : PState) (h : stRest st = []) :
    (advance st).tk = ⟨TokT.tend, []⟩ ∧ stRest (advance st) = [] ∧
      (advance st).stream = st.stream := by
  have hA : stRest st = ([] : Str) ++ [] := by simpa using h
  exact advance_to st [] [] _ hA rfl

/-- Validation dispatched by item kind, as invoked from the entry
productions. -/
def validateIt (pi : PluralFormInfo) : TransItem → Except EMsg Unit
  | .singular o t => validateSingular o t
  | .plural s p fs => validatePlural (s, p) fs pi

/-- Map update of one parsed entry (`emplace` into the out-maps). -/
def applyItem (m : TransMap × PluralMap) : TransItem → TransMap × PluralMap
  | .singular o t => (emplaceA o t m.1, m.2)
  | .plural s p fs => (m.1, emplaceA (s, p) fs m.2)

/-- Map state after a list of parsed entries. -/
def foldMaps (its : List TransItem) (m : TransMap × PluralMap) :
    TransMap × PluralMap :=
  its.foldl applyItem m

/-- Invariant of the entry loop on a generated stream: the lookahead is
the `<source>` token of the next chunk (or the end token), and the rest
of the stream is the remaining chunks. -/
def EntsInv (its : List TransItem) (st : PState) : Prop :=
  match its with
  | [] => st.tk = ⟨TokT.tend, []⟩ ∧ stRest st = []
  | it :: rest => st.tk = ⟨TokT.source, []⟩ ∧
      stRest st = afterSrcC it ++ entsStream rest

theorem wsl_nil : ∀ c ∈ ([] : Str), isWS c = true := by simp

theorem wsl_32 : ∀ c ∈ ([32] : Str), isWS c = true := by decide

theorem wsl_1310 : ∀ c ∈ ([13, 10] : Str), isWS c = true := by decide

theorem wsl_13109 : ∀ c ∈ ([13, 10, 9] : Str), isWS c = true := by decide

theorem wsl_4 : ∀ c ∈ ([13, 10, 13, 10] : Str), isWS c = true := by decide

theorem consumeTok_ok (tg : TokT) (st : PState) (h : st.tk.type = tg) :
    consumeTok tg st = .ok (advance st) := by
  simp [consumeTok, h]

theorem consumeTok_err (tg : TokT) (st : PState) (h : st.tk.type ≠ tg) :
    consumeTok tg st = .error (errAt st .unexpectedToken) := by
  simp [consumeTok, h]

theorem step_tag_source (st : PState) (w r : Str)
    (h : stRest st = w ++ (ascii "<source>" ++ r))
    (hw : ∀ c ∈ w, isWS c = true) :
    (advance st).tk = ⟨TokT.source, []⟩ ∧ stRest (advance st) = r ∧
      (advance st).stream = st.stream := by
  refine step_tag st w .source r [115, 111, 117, 114, 99, 101, 62] ?_ hw (by decide) ?_
  · rw [tagText_source]; exact h
  · rw [tagText_source, matchTag_source]; rfl

theorem step_tag_target (st : PState) (w r : Str)
    (h : stRest st = w ++ (ascii "<target>" ++ r))
    (hw : ∀ c ∈ w, isWS c = true) :
    (advance st).tk = ⟨TokT.target, []⟩ ∧ stRest (advance st) = r ∧
      (advance st).stream = st.stream := by
  refine step_tag st w .target r [116, 97, 114, 103, 101, 116, 62] ?_ hw (by decide) ?_
  · rw [tagText_target]; exact h
  · rw [tagText_target, matchTag_target]; rfl

theorem step_tag_empty (st : PState) (w r : Str)
    (h : stRest st = w ++ (ascii "<empty>" ++ r))
    (hw : ∀ c ∈ w, isWS c = true) :
    (advance st).tk = ⟨TokT.empty, []⟩ ∧ stRest (advance st) = r ∧
      (advance st).stream = st.stream := by
  refine step_tag st w .empty r [101, 109, 112, 116, 121, 62] ?_ hw (by decide) ?_
  · rw [tagText_empty]; exact h
  · rw [tagText_empty, matchTag_empty]; rfl

theorem step_tag_plural (st : PState) (w r : Str)
    (h : stRest st = w ++ (ascii "<pluralform>" ++ r))
    (hw : ∀ c ∈ w, isWS c = true) :
    (advance st).tk = ⟨TokT.plural, []⟩ ∧ stRest (advance st) = r ∧
      (advance st).stream = st.stream := by
  refine step_tag st w .plural r
    [112, 108, 117, 114, 97, 108, 102, 111, 114, 109, 62] ?_ hw (by decide) ?_
  · rw [tagText_plural]; exact h
  · rw [tagText_plural, matchTag_plural]; rfl

theorem step_tag_header0 (st : PState) (r : Str)
    (h : stRest st = ascii "<header>" ++ r) :
    (advance st).tk = ⟨TokT.header, []⟩ ∧ stRest (advance st) = r ∧
      (advance st).stream = st.stream := by
  refine step_tag st [] .header r [104, 101, 97, 100, 101, 114, 62] ?_ wsl_nil
    (by decide) ?_
  · rw [tagText_header]; simpa using h
  · rw [tagText_header, matchTag_header]; rfl

/-- Step to the next entry boundary: the remaining stream is a chunk
list; the scan yields the end token on an empty list and the `<source>`
token of the first chunk otherwise. -/
theorem step_boundary (st : PState) (its : List TransItem)
    (h : stRest st = entsStream its) :
    EntsInv its (advance st) ∧ (advance st).stream = st.stream := by
  cases its with
  | nil =>
    have h0 : stRest st = [] := by simpa [entsStream] using h
    obtain ⟨h1, h2, h3⟩ := step_end st h0
    exact ⟨⟨h1, h2⟩, h3⟩
  | cons it rest =>
    have h0 : stRest st = [13, 10, 13, 10] ++
        (ascii "<source>" ++ (afterSrcC it ++ entsStream rest)) := by
      rw [h]
      simp [entsStream, chunkC]
    obtain ⟨h1, h2, h3⟩ := step_tag_source st _ _ h0 wsl_4
    exact ⟨⟨h1, h2⟩, h3⟩

/-- Scan of a canonical text followed by the next chunk boundary (or end
of stream), then one more scan after consuming the text token. -/
theorem step_text_then_boundary (st : PState) (x : Str) (its : List TransItem)
    (h : stRest st = [32] ++ toCRLF x ++ entsStream its) (hx : wfText x = true) :
    (advance st).tk = ⟨TokT.text, x⟩ ∧ (advance st).stream = st.stream ∧
      EntsInv its (advance (advance st)) ∧
      (advance (advance st)).stream = st.stream := by
  obtain ⟨hb, hh, hl, h60⟩ := toCRLF_wf_facts x hx
  cases its with
  | nil =>
    have h0 : stRest st = [32] ++ toCRLF x ++ ([] : Str) ++ ([] : Str) := by
      rw [h]; simp [entsStream]
    obtain ⟨h1, h2, h3⟩ :=
      step_text st [32] (toCRLF x) [] [] h0 wsl_32 hb hh hl h60 wsl_nil (Or.inl rfl)
    rw [crlf_norm_wf x hx] at h1
    obtain ⟨h4, h5, h6⟩ := step_end (advance st) h2
    exact ⟨h1, h3, ⟨h4, h5⟩, by rw [h6, h3]⟩
  | cons it rest =>
    have h0 : stRest st = [32] ++ toCRLF x ++ [13, 10, 13, 10] ++
        (ascii "<source>" ++ (afterSrcC it ++ entsStream rest)) := by
      rw [h]; simp [entsStream, chunkC]
    obtain ⟨h1, h2, h3⟩ :=
      step_text st [32] (toCRLF x) [13, 10, 13, 10] _ h0 wsl_32 hb hh hl h60 wsl_4
        (Or.inr (startsTag_source _))
    rw [crlf_norm_wf x hx] at h1
    obtain ⟨h4, h5, h6⟩ := step_tag_source (advance st) [] _ (by simpa using h2) wsl_nil
    exact ⟨h1, h3, ⟨h4, h5⟩, by rw [h6, h3]⟩

/-- Scan of a canonical plural form followed by another form, then one
more scan after consuming the text token. -/
theorem step_text_then_plural (st : PState) (x g : Str) (tail : Str)
    (h : stRest st = [32] ++ toCRLF x ++
      ([13, 10, 9] ++ (ascii "<pluralform>" ++ ([32] ++ toCRLF g ++ tail))))
    (hx : wfText x = true) :
    (advance st).tk = ⟨TokT.text, x⟩ ∧ (advance st).stream = st.stream ∧
      (advance (advance st)).tk = ⟨TokT.plural, []⟩ ∧
      stRest (advance (advance st)) = [32] ++ toCRLF g ++ tail ∧
      (advance (advance st)).stream = st.stream := by
  obtain ⟨hb, hh, hl, h60⟩ := toCRLF_wf_facts x hx
  have h0 : stRest st = [32] ++ toCRLF x ++ [13, 10, 9] ++
      (ascii "<pluralform>" ++ ([32] ++ toCRLF g ++ tail)) := by
    rw [h]; simp
  obtain ⟨h1, h2, h3⟩ :=
    step_text st [32] (toCRLF x) [13, 10, 9] _ h0 wsl_32 hb hh hl h60 wsl_13109
      (Or.inr (startsTag_plural _))
  rw [crlf_norm_wf x hx] at h1
  obtain ⟨h4, h5, h6⟩ := step_tag_plural (advance st) [] _ (by simpa using h2) wsl_nil
  exact ⟨h1, h3, h4, h5, by rw [h6, h3]⟩

@[simp] theorem ebind_ok {ε α β : Type} (a : α) (f : α → Except ε β) :
    (Except.ok a : Except ε α) >>= f = f a := rfl

@[simp] theorem ebind_err {ε α β : Type} (e : ε) (f : α → Except ε β) :
    (Except.error e : Except ε α) >>= f = Except.error e := rfl

@[simp] theorem epure {ε α : Type} (a : α) :
    (pure a : Except ε α) = Except.ok a := rfl

theorem wsl_ml (b : Bool) :
    ∀ c ∈ ([13, 10] ++ if b then ([13, 10] : Str) else []), isWS c = true := by
  cases b <;> decide

/-- One singular entry of a generated stream: `parseRegular` consumes
exactly the entry's chunk, applies its validation, and on success
emplaces the pair and re-establishes the loop invariant. -/
theorem parseRegular_sing (pi : PluralFormInfo) (o t : Str)
    (restIts : List TransItem) (st : PState) (out : TransMap) (pm : PluralMap)
    (hwf : wfItem (.singular o t) = true)
    (hinv : EntsInv (.singular o t :: restIts) st) :
    (validateSingular o t = .ok () →
      ∃ st', parseRegular pi st out pm = .ok (st', emplaceA o t out, pm) ∧
        EntsInv restIts st' ∧ st'.stream = st.stream) ∧
    (∀ m, validateSingular o t = .error m →
      ∃ e, parseRegular pi st out pm = .error e) := by
  obtain ⟨htk, hrest⟩ := hinv
  have hwfo : wfText o = true := by
    simp only [wfItem, Bool.and_eq_true] at hwf; exact hwf.1
  have hwft : wfTrans t = true := by
    simp only [wfItem, Bool.and_eq_true] at hwf; exact hwf.2
  obtain ⟨hb, hh, hl, h60⟩ := toCRLF_wf_facts o hwfo
  have c1 : consumeTok .source st = .ok (advance st) :=
    consumeTok_ok _ _ (by rw [htk])
  have h0 : stRest st = [32] ++ toCRLF o ++
      ([13, 10] ++ if containsB o 10 then ([13, 10] : Str) else []) ++
      (ascii "<target>" ++ ([32] ++ toCRLF t ++
        ((if t = [] then ascii "<empty>" else []) ++ entsStream restIts))) := by
    rw [hrest]
    simp only [afterSrcC]
    simp
  obtain ⟨s1tk, s1rest, s1stream⟩ :=
    step_text st [32] (toCRLF o) _ _ h0 wsl_32 hb hh hl h60
      (wsl_ml (containsB o 10)) (Or.inr (startsTag_target _))
  rw [crlf_norm_wf o hwfo] at s1tk
  have c2 : consumeTok .text (advance st) = .ok (advance (advance st)) :=
    consumeTok_ok _ _ (by rw [s1tk])
  obtain ⟨s2tk, s2rest, s2stream⟩ :=
    step_tag_target (advance st) [] _ (by simpa using s1rest) wsl_nil
  have c3 : consumeTok .target (advance (advance st)) =
      .ok (advance (advance (advance st))) :=
    consumeTok_ok _ _ (by rw [s2tk])
  -- state after consuming the target tag
  by_cases ht : t = []
  · -- empty translation: `<empty>` tag
    subst ht
    have h2 : stRest (advance (advance st)) =
        [32] ++ (ascii "<empty>" ++ entsStream restIts) := by
      rw [s2rest]
      simp [toCRLF]
    obtain ⟨s3tk, s3rest, s3stream⟩ :=
      step_tag_empty (advance (advance st)) [32] _ h2 wsl_32
    have c4 : consumeTok .empty (advance (advance (advance st))) =
        .ok (advance (advance (advance (advance st)))) :=
      consumeTok_ok _ _ (by rw [s3tk])
    obtain ⟨hinv', hstream'⟩ := step_boundary (advance (advance (advance st))) restIts s3rest
    constructor
    · intro hv
      refine ⟨advance (advance (advance (advance st))), ?_, hinv', ?_⟩
      · unfold parseRegular
        rw [c1]
        simp only [ebind_ok]
        rw [if_neg (by rw [s1tk]; simp)]
        rw [show (advance st).tk.text = o from by rw [s1tk]]
        rw [c2]
        simp only [ebind_ok]
        rw [c3]
        simp only [ebind_ok]
        rw [if_neg (by rw [s3tk]; simp)]
        rw [c4]
        simp only [ebind_ok, epure, hv]
      · rw [hstream', s3stream, s2stream, s1stream]
    · intro m hv
      refine ⟨errAt (advance (advance (advance (advance st)))) m, ?_⟩
      unfold parseRegular
      rw [c1]
      simp only [ebind_ok]
      rw [if_neg (by rw [s1tk]; simp)]
      rw [show (advance st).tk.text = o from by rw [s1tk]]
      rw [c2]
      simp only [ebind_ok]
      rw [c3]
      simp only [ebind_ok]
      rw [if_neg (by rw [s3tk]; simp)]
      rw [c4]
      simp only [ebind_ok, epure, hv]
  · -- non-empty translation: text token
    have hwft' : wfText t = true := by
      rcases Bool.or_eq_true _ _ |>.mp hwft with h | h
      · exact absurd (by simpa using h) ht
      · exact h
    have h2 : stRest (advance (advance st)) =
        [32] ++ toCRLF t ++ entsStream restIts := by
      rw [s2rest]
      simp [ht]
    obtain ⟨s3tk, s3stream, hinv', hstream'⟩ :=
      step_text_then_boundary (advance (advance st)) t restIts h2 hwft'
    have c4 : consumeTok .text (advance (advance (advance st))) =
        .ok (advance (advance (advance (advance st)))) :=
      consumeTok_ok _ _ (by rw [s3tk])
    constructor
    · intro hv
      refine ⟨advance (advance (advance (advance st))), ?_, hinv', ?_⟩
      · unfold parseRegular
        rw [c1]
        simp only [ebind_ok]
        rw [if_neg (by rw [s1tk]; simp)]
        rw [show (advance st).tk.text = o from by rw [s1tk]]
        rw [c2]
        simp only [ebind_ok]
        rw [c3]
        simp only [ebind_ok]
        rw [if_pos (by rw [s3tk])]
        rw [show (advance (advance (advance st))).tk.text = t from by rw [s3tk]]
        simp only [ebind_ok, epure, hv]
      · rw [hstream', s2stream, s1stream]
    · intro m hv
      refine ⟨errAt (advance (advance (advance (advance st)))) m, ?_⟩
      unfold parseRegular
      rw [c1]
      simp only [ebind_ok]
      rw [if_neg (by rw [s1tk]; simp)]
      rw [show (advance st).tk.text = o from by rw [s1tk]]
      rw [c2]
      simp only [ebind_ok]
      rw [c3]
      simp only [ebind_ok]
      rw [if_pos (by rw [s3tk])]
      rw [show (advance (advance (advance st))).tk.text = t from by rw [s3tk]]
      simp only [ebind_ok, epure, hv]

/-- Invariant of the plural-form loop: the lookahead is the next
`<pluralform>` tag while forms remain, and the entry-loop invariant once
they are exhausted. -/
def InvF (fs : List Str) (restIts : List TransItem) (st : PState) : Prop :=
  match fs with
  | [] => EntsInv restIts st
  | f :: fs' => st.tk = ⟨TokT.plural, []⟩ ∧
      stRest st = [32] ++ toCRLF f ++ (formsTailC fs' ++ entsStream restIts)

theorem stRest_length_le (st : PState) : (stRest st).length ≤ st.stream.length := by
  simp only [stRest, List.length_drop]
  omega

theorem formsTailC_len (fs : List Str) : fs.length ≤ (formsTailC fs).length := by
  induction fs with
  | nil => simp [formsTailC]
  | cons f r ih =>
    simp only [formsTailC, List.map_cons, List.flatten_cons, List.length_append,
      List.length_cons] at *
    omega

theorem EntsInv_tk_ne_plural {its : List TransItem} {st : PState}
    (h : EntsInv its st) : ¬ st.tk.type = TokT.plural := by
  cases its with
  | nil => rw [h.1]; simp
  | cons a b => rw [h.1]; simp

theorem parseForms_run (fs : List Str) (restIts : List TransItem) :
    ∀ (fuel : Nat) (st : PState) (acc : List Str),
    (∀ f ∈ fs, wfText f = true) → fs.length < fuel → InvF fs restIts st →
    ∃ st', parseForms fuel st acc = .ok (acc ++ fs, st') ∧
      EntsInv restIts st' ∧ st'.stream = st.stream := by
  induction fs with
  | nil =>
    intro fuel st acc _ hfuel hinv
    cases fuel with
    | zero => omega
    | succ f0 =>
      refine ⟨st, ?_, hinv, rfl⟩
      unfold parseForms
      rw [if_neg (EntsInv_tk_ne_plural hinv)]
      simp
  | cons f fs' ih =>
    intro fuel st acc hwf hfuel hinv
    cases fuel with
    | zero => omega
    | succ f0 =>
      obtain ⟨htk, hrest⟩ := hinv
      have hwff : wfText f = true := hwf f (by simp)
      cases fs' with
      | nil =>
        have h2 : stRest st = [32] ++ toCRLF f ++ entsStream restIts := by
          rw [hrest]; simp [formsTailC]
        obtain ⟨s1tk, s1stream, hinv', hstream'⟩ :=
          step_text_then_boundary st f restIts h2 hwff
        have c1 : consumeTok .text (advance st) = .ok (advance (advance st)) :=
          consumeTok_ok _ _ (by rw [s1tk])
        obtain ⟨st', hrun, hinv'', hstream''⟩ :=
          ih f0 (advance (advance st)) (acc ++ [f]) (by simp)
            (by simp only [List.length_cons, List.length_nil] at hfuel ⊢; omega) hinv'
        refine ⟨st', ?_, hinv'', by rw [hstream'', hstream']⟩
        unfold parseForms
        rw [if_pos (by rw [htk])]
        simp only [ebind_ok]
        rw [show (advance st).tk.text = f from by rw [s1tk], c1]
        simp only [ebind_ok]
        rw [hrun]
        simp
      | cons g gs =>
        have h2 : stRest st = [32] ++ toCRLF f ++
            ([13, 10, 9] ++ (ascii "<pluralform>" ++
              ([32] ++ toCRLF g ++ (formsTailC gs ++ entsStream restIts)))) := by
          rw [hrest]
          simp [formsTailC]
        obtain ⟨s1tk, s1stream, s2tk, s2rest, s2stream⟩ :=
          step_text_then_plural st f g _ h2 hwff
        have c1 : consumeTok .text (advance st) = .ok (advance (advance st)) :=
          consumeTok_ok _ _ (by rw [s1tk])
        have hinv2 : InvF (g :: gs) restIts (advance (advance st)) :=
          ⟨s2tk, by rw [s2rest]⟩
        obtain ⟨st', hrun, hinv'', hstream''⟩ :=
          ih f0 (advance (advance st)) (acc ++ [f])
            (fun x hx => hwf x (by simp [hx]))
            (by simp only [List.length_cons] at hfuel ⊢; omega) hinv2
        refine ⟨st', ?_, hinv'', by rw [hstream'', s2stream]⟩
        unfold parseForms
        rw [if_pos (by rw [htk])]
        simp only [ebind_ok]
        rw [show (advance st).tk.text = f from by rw [s1tk], c1]
        simp only [ebind_ok]
        rw [hrun]
        simp

set_option maxHeartbeats 2000000 in
/-- One plural entry of a generated stream: `parseRegular` dispatches to
`parsePlural`, which consumes exactly the entry's chunk, applies its
validation, and on success emplaces the pair and re-establishes the loop
invariant. -/
theorem parseRegular_plural (pi : PluralFormInfo) (s p : Str) (fs : List Str)
    (restIts : List TransItem) (st : PState) (out : TransMap) (pm : PluralMap)
    (hwf : wfItem (.plural s p fs) = true)
    (hinv : EntsInv (.plural s p fs :: restIts) st) :
    (validatePlural (s, p) fs pi = .ok () →
      ∃ st', parseRegular pi st out pm = .ok (st', out, emplaceA (s, p) fs pm) ∧
        EntsInv restIts st' ∧ st'.stream = st.stream) ∧
    (∀ m, validatePlural (s, p) fs pi = .error m →
      ∃ e, parseRegular pi st out pm = .error e) := by
  obtain ⟨htk, hrest⟩ := hinv
  have hwfs : wfText s = true := by
    simp only [wfItem, Bool.and_eq_true] at hwf; exact hwf.1.1
  have hwfp : wfText p = true := by
    simp only [wfItem, Bool.and_eq_true] at hwf; exact hwf.1.2
  have hwffs : ∀ f ∈ fs, wfText f = true := by
    simp only [wfItem, Bool.and_eq_true, List.all_eq_true] at hwf
    exact fun f hf => hwf.2 f hf
  have c1 : consumeTok .source st = .ok (advance st) :=
    consumeTok_ok _ _ (by rw [htk])
  have h0 : stRest st = [13, 10, 9] ++ (ascii "<pluralform>" ++
      ([32] ++ toCRLF s ++
        ([13, 10, 9] ++ (ascii "<pluralform>" ++
          ([32] ++ toCRLF p ++
            ([13, 10] ++ (ascii "<target>" ++
              (formsTailC fs ++
                ((if fs = [] then [32] ++ ascii "<empty>" else []) ++
                  entsStream restIts))))))))) := by
    rw [hrest]
    simp only [afterSrcC]
    simp
  obtain ⟨s1tk, s1rest, s1stream⟩ := step_tag_plural st [13, 10, 9] _ h0 wsl_13109
  have c2 : consumeTok .plural (advance st) = .ok (advance (advance st)) :=
    consumeTok_ok _ _ (by rw [s1tk])
  obtain ⟨s2tk, s2stream, s3tk, s3rest, s3stream⟩ :=
    step_text_then_plural (advance st) s p _ (by rw [s1rest]) hwfs
  have c3 : consumeTok .text (advance (advance st)) =
      .ok (advance (advance (advance st))) :=
    consumeTok_ok _ _ (by rw [s2tk])
  have c4 : consumeTok .plural (advance (advance (advance st))) =
      .ok (advance (advance (advance (advance st)))) :=
    consumeTok_ok _ _ (by rw [s3tk])
  obtain ⟨hbp, hhp, hlp, h60p⟩ := toCRLF_wf_facts p hwfp
  have h3b : stRest (advance (advance (advance st))) = [32] ++ toCRLF p ++ [13, 10] ++
      (ascii "<target>" ++ (formsTailC fs ++
        ((if fs = [] then [32] ++ ascii "<empty>" else []) ++ entsStream restIts))) := by
    rw [s3rest]; simp
  obtain ⟨s4tk, s4rest, s4stream⟩ :=
    step_text (advance (advance (advance st))) [32] (toCRLF p) [13, 10] _
      h3b wsl_32 hbp hhp hlp h60p wsl_1310
      (Or.inr (startsTag_target _))
  rw [crlf_norm_wf p hwfp] at s4tk
  have c5 : consumeTok .text (advance (advance (advance (advance st)))) =
      .ok (advance (advance (advance (advance (advance st))))) :=
    consumeTok_ok _ _ (by rw [s4tk])
  obtain ⟨s5tk, s5rest, s5stream⟩ :=
    step_tag_target (advance (advance (advance (advance st)))) [] _
      (by simpa using s4rest) wsl_nil
  have c6 : consumeTok .target (advance (advance (advance (advance (advance st))))) =
      .ok (advance (advance (advance (advance (advance (advance st)))))) :=
    consumeTok_ok _ _ (by rw [s5tk])
  -- abbreviations for the two deep states
  generalize hst5 : advance (advance (advance (advance (advance st)))) = st5 at *
  have hstream5 : st5.stream = st.stream := by
    rw [s5stream, s4stream, s3stream, s1stream]
  -- forms loop
  cases fs with
  | nil =>
    have h6 : stRest st5 = [32] ++ (ascii "<empty>" ++ entsStream restIts) := by
      rw [s5rest]
      simp [formsTailC]
    obtain ⟨s6tk, s6rest, s6stream⟩ := step_tag_empty st5 [32] _ h6 wsl_32
    generalize hst6 : advance st5 = st6 at *
    have hforms : parseForms (st6.stream.length + 1) st6 [] = .ok ([], st6) := by
      unfold parseForms
      rw [if_neg (by rw [s6tk]; simp)]
    have c7 : consumeTok .empty st6 = .ok (advance st6) :=
      consumeTok_ok _ _ (by rw [s6tk])
    obtain ⟨hinv', hstream'⟩ := step_boundary st6 restIts s6rest
    have hout : ∀ res : Except EMsg Unit, validatePlural (s, p) [] pi = res →
        parseRegular pi st out pm =
          (match res with
           | .error m => .error (errAt (advance st6) m)
           | .ok _ => .ok (advance st6, out, emplaceA (s, p) [] pm)) := by
      intro res hres
      unfold parseRegular
      rw [c1]
      simp only [ebind_ok]
      rw [if_pos (by rw [s1tk])]
      unfold parsePlural
      rw [c2]
      simp only [ebind_ok]
      rw [show (advance (advance st)).tk.text = s from by rw [s2tk], c3]
      simp only [ebind_ok]
      rw [c4]
      simp only [ebind_ok]
      rw [show (advance (advance (advance (advance st)))).tk.text = p from by
            rw [s4tk], c5]
      simp only [ebind_ok]
      rw [c6]
      simp only [ebind_ok]
      rw [hforms]
      simp only [ebind_ok, reduceIte]
      rw [c7]
      simp only [ebind_ok]
      rw [hres]
    constructor
    · intro hv
      refine ⟨advance st6, hout _ hv, hinv', ?_⟩
      rw [hstream', s6stream, hstream5]
    · intro m hv
      exact ⟨_, hout _ hv⟩
  | cons f fs' =>
    have hwff : wfText f = true := hwffs f (by simp)
    have h6 : stRest st5 = [13, 10, 9] ++ (ascii "<pluralform>" ++
        ([32] ++ toCRLF f ++ (formsTailC fs' ++ entsStream restIts))) := by
      rw [s5rest]
      simp [formsTailC]
    obtain ⟨s6tk, s6rest, s6stream⟩ := step_tag_plural st5 [13, 10, 9] _ h6 wsl_13109
    generalize hst6 : advance st5 = st6 at *
    have hinv6 : InvF (f :: fs') restIts st6 := ⟨s6tk, by rw [s6rest]⟩
    have hlen : (f :: fs').length < st6.stream.length + 1 := by
      have h1 : (stRest st6).length ≤ st6.stream.length := stRest_length_le st6
      have h2 : (stRest st6).length =
          1 + (toCRLF f).length + ((formsTailC fs' ++ entsStream restIts)).length := by
        rw [s6rest]
        simp [List.length_append]
        omega
      have h3 := formsTailC_len fs'
      have h4 : 1 ≤ (toCRLF f).length := by
        have := (toCRLF_wf_facts f hwff).1
        cases hcc : toCRLF f with
        | nil => exact absurd hcc this
        | cons a b => simp
      simp only [List.length_append] at h2
      simp only [List.length_cons]
      omega
    obtain ⟨st', hrun, hinv', hstream'⟩ :=
      parseForms_run (f :: fs') restIts (st6.stream.length + 1) st6 [] hwffs hlen hinv6
    have hout : ∀ res : Except EMsg Unit, validatePlural (s, p) (f :: fs') pi = res →
        parseRegular pi st out pm =
          (match res with
           | .error m => .error (errAt st' m)
           | .ok _ => .ok (st', out, emplaceA (s, p) (f :: fs') pm)) := by
      intro res hres
      unfold parseRegular
      rw [c1]
      simp only [ebind_ok]
      rw [if_pos (by rw [s1tk])]
      unfold parsePlural
      rw [c2]
      simp only [ebind_ok]
      rw [show (advance (advance st)).tk.text = s from by rw [s2tk], c3]
      simp only [ebind_ok]
      rw [c4]
      simp only [ebind_ok]
      rw [show (advance (advance (advance (advance st)))).tk.text = p from by
            rw [s4tk], c5]
      simp only [ebind_ok]
      rw [c6]
      simp only [ebind_ok]
      simp only [List.nil_append] at hrun
      rw [hrun]
      simp only [ebind_ok]
      rw [if_neg (by simp)]
      simp only [epure, ebind_ok]
      rw [hres]
    constructor
    · intro hv
      refine ⟨st', hout _ hv, hinv', ?_⟩
      rw [hstream', s6stream, hstream5]
    · intro m hv
      exact ⟨_, hout _ hv⟩

/-- Combined step lemma for one entry of either kind. -/
theorem parseRegular_step (pi : PluralFormInfo) (it : TransItem)
    (restIts : List TransItem) (st : PState) (out : TransMap) (pm : PluralMap)
    (hwf : wfItem it = true) (hinv : EntsInv (it :: restIts) st) :
    (validateIt pi it = .ok () →
      ∃ st', parseRegular pi st out pm =
          .ok (st', (applyItem (out, pm) it).1, (applyItem (out, pm) it).2) ∧
        EntsInv restIts st' ∧ st'.stream = st.stream) ∧
    (∀ m, validateIt pi it = .error m →
      ∃ e, parseRegular pi st out pm = .error e) := by
  cases it with
  | singular o t =>
    exact parseRegular_sing pi o t restIts st out pm hwf hinv
  | plural s p fs =>
    exact parseRegular_plural pi s p fs restIts st out pm hwf hinv

theorem foldMaps_cons (it : TransItem) (its : List TransItem)
    (m : TransMap × PluralMap) :
    foldMaps (it :: its) m = foldMaps its (applyItem m it) := rfl

/-- The entry loop on a generated stream with all entries valid: success
with the folded maps. -/
theorem parseEntries_ok (its : List TransItem) :
    ∀ (fuel : Nat) (st : PState) (out : TransMap) (pm : PluralMap)
      (pi : PluralFormInfo),
    (∀ it ∈ its, wfItem it = true) →
    its.length < fuel →
    EntsInv its st →
    (∀ it ∈ its, validateIt pi it = .ok ()) →
    parseEntries fuel pi st out pm =
      (.ok (), (foldMaps its (out, pm)).1, (foldMaps its (out, pm)).2) := by
  induction its with
  | nil =>
    intro fuel st out pm pi _ hfuel hinv _
    cases fuel with
    | zero => omega
    | succ f0 =>
      unfold parseEntries
      rw [if_pos (by rw [hinv.1])]
      rfl
  | cons it rest ih =>
    intro fuel st out pm pi hwf hfuel hinv hv
    cases fuel with
    | zero => omega
    | succ f0 =>
      obtain ⟨st', hok, hinv', _⟩ :=
        (parseRegular_step pi it rest st out pm (hwf it (by simp)) hinv).1
          (hv it (by simp))
      have hrec := ih f0 st' (applyItem (out, pm) it).1 (applyItem (out, pm) it).2 pi
        (fun x hx => hwf x (by simp [hx]))
        (by simp only [List.length_cons] at hfuel; omega) hinv'
        (fun x hx => hv x (by simp [hx]))
      unfold parseEntries
      rw [if_neg (by rw [hinv.1]; simp), hok]
      show parseEntries f0 pi st' (applyItem (out, pm) it).1 (applyItem (out, pm) it).2 =
        (.ok (), (foldMaps (it :: rest) (out, pm)).1,
          (foldMaps (it :: rest) (out, pm)).2)
      rw [hrec, foldMaps_cons]

/-- The entry loop on a generated stream with a first invalid entry:
failure, with the maps holding exactly the valid prefix. -/
theorem parseEntries_err (good : List TransItem) (bad : TransItem)
    (rest : List TransItem) :
    ∀ (fuel : Nat) (st : PState) (out : TransMap) (pm : PluralMap)
      (pi : PluralFormInfo),
    (∀ it ∈ good ++ bad :: rest, wfItem it = true) →
    good.length < fuel →
    EntsInv (good ++ bad :: rest) st →
    (∀ it ∈ good, validateIt pi it = .ok ()) →
    ∀ m, validateIt pi bad = .error m →
    ∃ e, parseEntries fuel pi st out pm =
      (.error e, (foldMaps good (out, pm)).1, (foldMaps good (out, pm)).2) := by
  induction good with
  | nil =>
    intro fuel st out pm pi hwf hfuel hinv _ m hm
    cases fuel with
    | zero => omega
    | succ f0 =>
      simp only [List.nil_append] at hinv
      obtain ⟨e, herr⟩ :=
        (parseRegular_step pi bad rest st out pm (hwf bad (by simp)) hinv).2 m hm
      refine ⟨e, ?_⟩
      unfold parseEntries
      rw [if_neg (by rw [hinv.1]; simp), herr]
      rfl
  | cons g good' ih =>
    intro fuel st out pm pi hwf hfuel hinv hv m hm
    cases fuel with
    | zero => omega
    | succ f0 =>
      simp only [List.cons_append] at hinv
      obtain ⟨st', hok, hinv', _⟩ :=
        (parseRegular_step pi g (good' ++ bad :: rest) st out pm
          (hwf g (by simp)) hinv).1 (hv g (by simp))
      obtain ⟨e, herr⟩ := ih f0 st' (applyItem (out, pm) g).1
        (applyItem (out, pm) g).2 pi (fun x hx => hwf x (by simp [hx]))
        (by simp only [List.length_cons] at hfuel; omega) hinv'
        (fun x hx => hv x (by simp [hx])) m hm
      refine ⟨e, ?_⟩
      unfold parseEntries
      rw [if_neg (by rw [hinv.1]; simp), hok]
      show parseEntries f0 pi st' (applyItem (out, pm) g).1 (applyItem (out, pm) g).2 =
        (.error e, (foldMaps (g :: good') (out, pm)).1,
          (foldMaps (g :: good') (out, pm)).2)
      rw [herr, foldMaps_cons]

theorem first_invalid_split (pi : PluralFormInfo) (its : List TransItem)
    (h : ¬ ∀ it ∈ its, validateIt pi it = .ok ()) :
    ∃ good bad rest, its = good ++ bad :: rest ∧
      (∀ it ∈ good, validateIt pi it = .ok ()) ∧
      ∃ m, validateIt pi bad = .error m := by
  induction its with
  | nil => exact absurd (by simp) h
  | cons it rest ih =>
    by_cases hit : validateIt pi it = .ok ()
    · have h2 : ¬ ∀ x ∈ rest, validateIt pi x = .ok () := by
        intro hall
        exact h (by
          intro x hx
          rcases List.mem_cons.mp hx with rfl | hx2
          · exact hit
          · exact hall x hx2)
      obtain ⟨good, bad, r2, heq, hgood, hbad⟩ := ih h2
      exact ⟨it :: good, bad, r2, by rw [heq]; simp, by
        intro x hx
        rcases List.mem_cons.mp hx with rfl | hx2
        · exact hit
        · exact hgood x hx2, hbad⟩
    · refine ⟨[], it, rest, rfl, by simp, ?_⟩
      cases hx : validateIt pi it with
      | error m => exact ⟨m, rfl⟩
      | ok u => cases u; exact absurd hx hit

theorem entsStream_len (its : List TransItem) :
    its.length ≤ (entsStream its).length := by
  induction its with
  | nil => simp [entsStream]
  | cons it rest ih =>
    have hc : 1 ≤ (chunkC it).length := by
      simp [chunkC, List.length_append]
    simp only [entsStream, List.map_cons, List.flatten_cons,
      List.length_append, List.length_cons] at *
    omega

/-! ## Decimal rendering round-trip -/

theorem digitsVal_append_one (a : Str) (d : Nat) :
    digitsVal (a ++ [d]) = digitsVal a * 10 + (d - 48) := by
  simp [digitsVal, List.foldl_append]

theorem natDigitsAux_spec :
    ∀ (fuel n : Nat), n < fuel →
    (∀ c ∈ natDigitsAux fuel n, 48 ≤ c ∧ c ≤ 57) ∧
      natDigitsAux fuel n ≠ [] ∧ digitsVal (natDigitsAux fuel n) = n := by
  intro fuel
  induction fuel with
  | zero => intro n h; omega
  | succ f0 ih =>
    intro n hn
    by_cases h10 : n < 10
    · unfold natDigitsAux
      rw [if_pos h10]
      refine ⟨?_, by simp, ?_⟩
      · intro c hc
        simp only [List.mem_singleton] at hc
        subst hc
        omega
      · simp [digitsVal]
    · have hdiv : n / 10 < f0 := by
        have h1 : n / 10 < n := Nat.div_lt_self (by omega) (by omega)
        omega
      obtain ⟨ha, hb, hc⟩ := ih (n / 10) hdiv
      unfold natDigitsAux
      rw [if_neg h10]
      refine ⟨?_, by simp, ?_⟩
      · intro c hcm
        rcases List.mem_append.mp hcm with hm | hm
        · exact ha c hm
        · simp only [List.mem_singleton] at hm
          have := Nat.mod_lt n (show 0 < 10 by omega)
          omega
      · rw [digitsVal_append_one, hc]
        have := Nat.div_add_mod n 10
        have := Nat.mod_lt n (show 0 < 10 by omega)
        omega

theorem natDigits_spec (n : Nat) :
    (∀ c ∈ natDigits n, 48 ≤ c ∧ c ≤ 57) ∧
      natDigits n ≠ [] ∧ digitsVal (natDigits n) = n :=
  natDigitsAux_spec (n + 1) n (by omega)

theorem intToStr_bytes (n : Int) :
    ∀ c ∈ intToStr n, c = 45 ∨ (48 ≤ c ∧ c ≤ 57) := by
  intro c hc
  unfold intToStr at hc
  split at hc
  · rcases List.mem_cons.mp hc with rfl | hm
    · left; rfl
    · right; exact (natDigits_spec _).1 c hm
  · right; exact (natDigits_spec _).1 c hc

theorem stringToInt_cons (c : Nat) (r : Str) :
    stringToInt (c :: r) =
      if c = 45 then
        (if r ≠ [] && r.all isDigit then some (-(digitsVal r : Int)) else none)
      else if c = 43 then
        (if r ≠ [] && r.all isDigit then some ((digitsVal r : Int)) else none)
      else if (c :: r).all isDigit then some ((digitsVal (c :: r) : Int))
      else none := rfl

theorem stringToInt_intToStr (n : Int) : stringToInt (intToStr n) = some n := by
  by_cases hneg : n < 0
  · unfold intToStr
    rw [if_pos hneg]
    obtain ⟨ha, hb, hc⟩ := natDigits_spec (-n).toNat
    rw [stringToInt_cons]
    rw [if_pos rfl, if_pos (by
      simp only [Bool.and_eq_true, ne_eq, decide_eq_true_eq, List.all_eq_true]
      exact ⟨by simpa using hb, fun c hcm => by
        have := ha c hcm
        simp only [isDigit, Bool.and_eq_true, Nat.ble_eq]
        omega⟩)]
    rw [hc]
    congr 1
    have h1 : ((-n).toNat : Int) = -n := Int.toNat_of_nonneg (by omega)
    omega
  · unfold intToStr
    rw [if_neg hneg]
    obtain ⟨ha, hb, hc⟩ := natDigits_spec n.toNat
    rcases hd : natDigits n.toNat with _ | ⟨d, ds⟩
    · exact absurd hd hb
    · have hdd : 48 ≤ d ∧ d ≤ 57 := ha d (by rw [hd]; simp)
      rw [stringToInt_cons]
      rw [if_neg (by omega), if_neg (by omega), if_pos (by
        rw [← hd]
        simp only [List.all_eq_true]
        intro c hcm
        have := ha c hcm
        simp only [isDigit, Bool.and_eq_true, Nat.ble_eq]
        omega)]
      rw [← hd, hc]
      congr 1
      have h1 : (n.toNat : Int) = n := Int.toNat_of_nonneg (by omega)
      omega

/-! ## Header round-trip -/

/-- The header block as the scanner hands it to `parseHeader`: LF-joined
`key: value` lines in emission order. -/
def hdrRawLF (h : TransHeader) : Str :=
  ascii "language: " ++ h.languageName ++ [10, 9] ++
  ascii "locale: " ++ h.locale ++ [10, 9] ++
  ascii "image: " ++ h.flagFile ++ [10, 9] ++
  ascii "plural_count: " ++ intToStr h.pluralCount ++ [10, 9] ++
  ascii "plural_definition: " ++ h.pluralDefinition ++ [10, 9] ++
  ascii "translator: " ++ h.translatorName

theorem genHeader_toCRLF (h : TransHeader) :
    toCRLF (genHeaderLines h) = ascii "<header>" ++ [13, 10, 9] ++ toCRLF (hdrRawLF h) := by
  simp only [genHeaderLines, hdrRawLF, toCRLF_append, tagText_header]
  rw [show toCRLF (ascii "<header>") = ascii "<header>" from by decide,
      show toCRLF [10] = [13, 10] from rfl,
      show toCRLF [9] = [9] from rfl,
      show toCRLF [10, 9] = [13, 10, 9] from rfl,
      show toCRLF (ascii "language: ") = ascii "language: " from by decide,
      show toCRLF (ascii "locale: ") = ascii "locale: " from by decide,
      show toCRLF (ascii "image: ") = ascii "image: " from by decide,
      show toCRLF (ascii "plural_count: ") = ascii "plural_count: " from by decide,
      show toCRLF (ascii "plural_definition: ") = ascii "plural_definition: " from by decide,
      show toCRLF (ascii "translator: ") = ascii "translator: " from by decide]
  simp

theorem wfField_unpack (s : Str) (h : wfField s = true) :
    wfText s = true ∧ ∀ c ∈ s, c ≠ 10 := by
  simp only [wfField, Bool.and_eq_true, decide_eq_true_eq] at h
  exact ⟨h.1, fun c hc hceq => h.2 (hceq ▸ hc)⟩

theorem isWS_false_of_visible {c : Nat} (h1 : 45 ≤ c) (h2 : c ≤ 57) :
    isWS c = false := by
  cases hws : isWS c
  · rfl
  · exfalso
    simp only [isWS, Bool.or_eq_true, Bool.and_eq_true, beq_iff_eq,
      Nat.ble_eq] at hws
    omega

theorem getLastD_of_append (a b : Str) (hb : b ≠ []) :
    (a ++ b).getLastD 0 = b.getLastD 0 := by
  rw [List.getLastD_eq_getLast?, List.getLastD_eq_getLast?,
      List.getLast?_append_of_ne_nil _ hb]

theorem wfText_intToStr (n : Int) : wfText (intToStr n) = true := by
  have hby := intToStr_bytes n
  have hne : intToStr n ≠ [] := by
    unfold intToStr
    split
    · simp
    · exact (natDigits_spec _).2.1
  rcases hl : intToStr n with _ | ⟨c, r⟩
  · exact absurd hl hne
  · have hbc : c = 45 ∨ (48 ≤ c ∧ c ≤ 57) := hby c (by rw [hl]; simp)
    have hlast : (c :: r).getLastD 0 ∈ (c :: r) := by
      rw [List.getLastD_eq_getLast?, List.getLast?_eq_getLast _ (by simp)]
      exact List.getLast_mem _
    have hbl : (c :: r).getLastD 0 = 45 ∨
        (48 ≤ (c :: r).getLastD 0 ∧ (c :: r).getLastD 0 ≤ 57) :=
      hby _ (by rw [hl]; exact hlast)
    simp only [wfText, Bool.and_eq_true, Bool.not_eq_true', decide_eq_true_eq]
    refine ⟨⟨⟨⟨by simp, ?_⟩, ?_⟩, ?_⟩, ?_⟩
    · simp only [List.headD_cons]
      rcases hbc with h | h
      · subst h; decide
      · exact isWS_false_of_visible (by omega) h.2
    · rcases hbl with h | h
      · rw [h]; decide
      · exact isWS_false_of_visible (by omega) h.2
    · intro hmem
      rw [← hl] at hmem
      rcases hby 13 hmem with h | h <;> omega
    · intro hmem
      rw [← hl] at hmem
      rcases hby 60 hmem with h | h <;> omega

theorem splitLB_noLB (a : Str) (h : ∀ c ∈ a, isLB c = false) : splitLB a = [a] := by
  induction a with
  | nil => rfl
  | cons c r ih =>
    simp only [splitLB]
    rw [if_neg (by rw [h c (by simp)]; simp), ih (fun x hx => h x (by simp [hx]))]

theorem splitLB_append (a b : Str) (h : ∀ c ∈ a, isLB c = false) :
    splitLB (a ++ 10 :: b) = a :: splitLB b := by
  induction a with
  | nil =>
    simp only [List.nil_append, splitLB]
    rw [if_pos (by simp [isLB])]
  | cons c r ih =>
    simp only [List.cons_append, splitLB, List.append_eq]
    rw [if_neg (by rw [h c (by simp)]; simp), ih (fun x hx => h x (by simp [hx]))]

theorem trimL_wspre (w V : Str) (hw : ∀ c ∈ w, isWS c = true)
    (hV : wfText V = true) : trimL (w ++ V) = V := by
  obtain ⟨h1, h2, h3, _, _⟩ := wfText_unpack V hV
  rcases V with _ | ⟨c, t⟩
  · exact absurd rfl h1
  simp only [List.headD_cons] at h2
  unfold trimL
  rw [dropWhile_append_all w _ hw,
      dropWhile_of_head_neg (c :: t) c rfl h2]
  have hxsome : (c :: t).getLast?.isSome := by
    rw [List.getLast?_isSome]; simp
  obtain ⟨x, hx⟩ := Option.isSome_iff_exists.mp hxsome
  have hgl : (c :: t).getLastD 0 = x := by
    rw [List.getLastD_eq_getLast?, hx]; rfl
  rw [dropWhile_of_head_neg (c :: t).reverse x (by rw [List.head?_reverse]; exact hx)
      (hgl ▸ h3), List.reverse_reverse]

theorem afterColon_append_ne (a : Str) (V : Str)
    (ha : ∀ c ∈ a, c ≠ 58) : afterColon (a ++ 58 :: V) = V := by
  induction a with
  | nil => simp [afterColon]
  | cons c r ih =>
    simp only [List.cons_append, afterColon, List.append_eq]
    rw [if_neg (by simp only [beq_iff_eq]; exact ha c (by simp)),
        ih (fun x hx => ha x (by simp [hx]))]

theorem beforeColon_append_ne (a : Str) (V : Str)
    (ha : ∀ c ∈ a, c ≠ 58) : beforeColon (a ++ 58 :: V) = a := by
  unfold beforeColon
  rw [if_pos (by simp)]
  obtain ⟨htake, _⟩ := takeWhile_append_stop (p := fun c => c != 58) a 58 V
    (fun x hx => by simpa using ha x hx) (by simp)
  exact htake

@[simp] theorem ascii_language_key : ascii "language" = [108, 97, 110, 103, 117, 97, 103, 101] := by decide

@[simp] theorem ascii_language_lit : ascii "language: " = [108, 97, 110, 103, 117, 97, 103, 101, 58, 32] := by decide

@[simp] theorem ascii_locale_key : ascii "locale" = [108, 111, 99, 97, 108, 101] := by decide

@[simp] theorem ascii_locale_lit : ascii "locale: " = [108, 111, 99, 97, 108, 101, 58, 32] := by decide

@[simp] theorem ascii_image_key : ascii "image" = [105, 109, 97, 103, 101] := by decide

@[simp] theorem ascii_image_lit : ascii "image: " = [105, 109, 97, 103, 101, 58, 32] := by decide

@[simp] theorem ascii_pc_key : ascii "plural_count" = [112, 108, 117, 114, 97, 108, 95, 99, 111, 117, 110, 116] := by decide

@[simp] theorem ascii_pc_lit : ascii "plural_count: " = [112, 108, 117, 114, 97, 108, 95, 99, 111, 117, 110, 116, 58, 32] := by decide

@[simp] theorem ascii_pd_key : ascii "plural_definition" = [112, 108, 117, 114, 97, 108, 95, 100, 101, 102, 105, 110, 105, 116, 105, 111, 110] := by decide

@[simp] theorem ascii_pd_lit : ascii "plural_definition: " = [112, 108, 117, 114, 97, 108, 95, 100, 101, 102, 105, 110, 105, 116, 105, 111, 110, 58, 32] := by decide

@[simp] theorem ascii_tr_key : ascii "translator" = [116, 114, 97, 110, 115, 108, 97, 116, 111, 114] := by decide

@[simp] theorem ascii_tr_lit : ascii "translator: " = [116, 114, 97, 110, 115, 108, 97, 116, 111, 114, 58, 32] := by decide

theorem isLB_false_of_ne {c : Nat} (h10 : c ≠ 10) (h13 : c ≠ 13) :
    isLB c = false := by
  simp only [isLB, Bool.or_eq_false_iff, beq_eq_false_iff_ne, ne_eq]
  exact ⟨h10, h13⟩

theorem noLB_block (a fv : Str)
    (hlit : ∀ c ∈ a, isLB c = false)
    (hf10 : ∀ c ∈ fv, c ≠ 10) (hf13 : ∀ c ∈ fv, c ≠ 13) :
    ∀ c ∈ a ++ fv, isLB c = false := by
  intro c hc
  rcases List.mem_append.mp hc with hm | hm
  · exact hlit c hm
  · exact isLB_false_of_ne (hf10 c hm) (hf13 c hm)

theorem emplaceA_new {β : Type} (k : Str) (v : β) (m : List (Str × β))
    (h : lookupA m k = none) : emplaceA k v m = m ++ [(k, v)] := by
  unfold emplaceA
  rw [h]

/-- Name and value of one header block of shape `pre ++ key ++ ": " ++ V`. -/
theorem block_name_value (pre keylit : Str) (V : Str)
    (hk : ∀ c ∈ pre ++ keylit, c ≠ 58)
    (hV : wfText V = true) :
    trimL (beforeColon ((pre ++ keylit) ++ 58 :: 32 :: V)) = trimL (pre ++ keylit) ∧
    trimL (afterColon ((pre ++ keylit) ++ 58 :: 32 :: V)) = V := by
  constructor
  · rw [beforeColon_append_ne _ _ hk]
  · rw [afterColon_append_ne _ _ hk]
    exact trimL_wspre [32] V wsl_32 hV

/-- Parsing the generated header block recovers the header record. -/
theorem headerFromRaw_gen (h : TransHeader) (hwf : wfHeader h = true) :
    headerFromRaw (hdrRawLF h) = .ok h := by
  have hw : wfField h.languageName = true ∧ wfField h.translatorName = true ∧
      wfField h.locale = true ∧ wfField h.flagFile = true ∧
      wfField h.pluralDefinition = true := by
    simp only [wfHeader, Bool.and_eq_true] at hwf
    exact ⟨hwf.1.1.1.1, hwf.1.1.1.2, hwf.1.1.2, hwf.1.2, hwf.2⟩
  obtain ⟨hwfL, hL10⟩ := wfField_unpack _ hw.1
  obtain ⟨hwfT, hT10⟩ := wfField_unpack _ hw.2.1
  obtain ⟨hwfLo, hLo10⟩ := wfField_unpack _ hw.2.2.1
  obtain ⟨hwfI, hI10⟩ := wfField_unpack _ hw.2.2.2.1
  obtain ⟨hwfD, hD10⟩ := wfField_unpack _ hw.2.2.2.2
  have hL13 := (wfText_unpack _ hwfL).2.2.2.1
  have hT13 := (wfText_unpack _ hwfT).2.2.2.1
  have hLo13 := (wfText_unpack _ hwfLo).2.2.2.1
  have hI13 := (wfText_unpack _ hwfI).2.2.2.1
  have hD13 := (wfText_unpack _ hwfD).2.2.2.1
  have hN10 : ∀ c ∈ intToStr h.pluralCount, c ≠ 10 := fun c hc => by
    rcases intToStr_bytes _ c hc with hx | hx <;> omega
  have hN13 : ∀ c ∈ intToStr h.pluralCount, c ≠ 13 := fun c hc => by
    rcases intToStr_bytes _ c hc with hx | hx <;> omega
  have hwfN := wfText_intToStr h.pluralCount
  have hsplit : splitLB (hdrRawLF h) =
      [ascii "language: " ++ h.languageName,
       ([9] ++ ascii "locale: ") ++ h.locale,
       ([9] ++ ascii "image: ") ++ h.flagFile,
       ([9] ++ ascii "plural_count: ") ++ intToStr h.pluralCount,
       ([9] ++ ascii "plural_definition: ") ++ h.pluralDefinition,
       ([9] ++ ascii "translator: ") ++ h.translatorName] := by
    rw [show hdrRawLF h =
        (ascii "language: " ++ h.languageName) ++ 10 ::
        ((([9] ++ ascii "locale: ") ++ h.locale) ++ 10 ::
        ((([9] ++ ascii "image: ") ++ h.flagFile) ++ 10 ::
        ((([9] ++ ascii "plural_count: ") ++ intToStr h.pluralCount) ++ 10 ::
        ((([9] ++ ascii "plural_definition: ") ++ h.pluralDefinition) ++ 10 ::
        (([9] ++ ascii "translator: ") ++ h.translatorName))))) from by
      simp [hdrRawLF]]
    rw [splitLB_append _ _ (noLB_block _ _ (by decide) hL10 hL13),
        splitLB_append _ _ (noLB_block _ _ (by decide) hLo10 hLo13),
        splitLB_append _ _ (noLB_block _ _ (by decide) hI10 hI13),
        splitLB_append _ _ (noLB_block _ _ (by decide) hN10 hN13),
        splitLB_append _ _ (noLB_block _ _ (by decide) hD10 hD13),
        splitLB_noLB _ (noLB_block _ _ (by decide) hT10 hT13)]
  obtain ⟨hn1, hv1⟩ := block_name_value [] (ascii "language") h.languageName
    (by decide) hwfL
  obtain ⟨hn2, hv2⟩ := block_name_value [9] (ascii "locale") h.locale
    (by decide) hwfLo
  obtain ⟨hn3, hv3⟩ := block_name_value [9] (ascii "image") h.flagFile
    (by decide) hwfI
  obtain ⟨hn4, hv4⟩ := block_name_value [9] (ascii "plural_count")
    (intToStr h.pluralCount) (by decide) hwfN
  obtain ⟨hn5, hv5⟩ := block_name_value [9] (ascii "plural_definition")
    h.pluralDefinition (by decide) hwfD
  obtain ⟨hn6, hv6⟩ := block_name_value [9] (ascii "translator") h.translatorName
    (by decide) hwfT
  rw [show ([] ++ ascii "language") ++ 58 :: 32 :: h.languageName =
      ascii "language: " ++ h.languageName from by simp] at hn1 hv1
  rw [show ([9] ++ ascii "locale") ++ 58 :: 32 :: h.locale =
      ([9] ++ ascii "locale: ") ++ h.locale from by simp] at hn2 hv2
  rw [show ([9] ++ ascii "image") ++ 58 :: 32 :: h.flagFile =
      ([9] ++ ascii "image: ") ++ h.flagFile from by simp] at hn3 hv3
  rw [show ([9] ++ ascii "plural_count") ++ 58 :: 32 :: intToStr h.pluralCount =
      ([9] ++ ascii "plural_count: ") ++ intToStr h.pluralCount from by simp] at hn4 hv4
  rw [show ([9] ++ ascii "plural_definition") ++ 58 :: 32 :: h.pluralDefinition =
      ([9] ++ ascii "plural_definition: ") ++ h.pluralDefinition from by simp] at hn5 hv5
  rw [show ([9] ++ ascii "translator") ++ 58 :: 32 :: h.translatorName =
      ([9] ++ ascii "translator: ") ++ h.translatorName from by simp] at hn6 hv6
  rw [show trimL ([] ++ ascii "language") = ascii "language" from by decide] at hn1
  rw [show trimL ([9] ++ ascii "locale") = ascii "locale" from by decide] at hn2
  rw [show trimL ([9] ++ ascii "image") = ascii "image" from by decide] at hn3
  rw [show trimL ([9] ++ ascii "plural_count") = ascii "plural_count" from by decide] at hn4
  rw [show trimL ([9] ++ ascii "plural_definition") = ascii "plural_definition" from by
    decide] at hn5
  rw [show trimL ([9] ++ ascii "translator") = ascii "translator" from by decide] at hn6
  have hitems : headerItems (hdrRawLF h) =
      [(ascii "language", h.languageName),
       (ascii "locale", h.locale),
       (ascii "image", h.flagFile),
       (ascii "plural_count", intToStr h.pluralCount),
       (ascii "plural_definition", h.pluralDefinition),
       (ascii "translator", h.translatorName)] := by
    unfold headerItems
    rw [hsplit]
    simp only [List.foldl_cons, List.foldl_nil]
    rw [hn1, hv1, hn2, hv2, hn3, hv3, hn4, hv4, hn5, hv5, hn6, hv6]
    simp [emplaceA, lookupA]
  unfold headerFromRaw
  rw [hitems]
  rw [show getV [(ascii "language", h.languageName), (ascii "locale", h.locale),
      (ascii "image", h.flagFile), (ascii "plural_count", intToStr h.pluralCount),
      (ascii "plural_definition", h.pluralDefinition),
      (ascii "translator", h.translatorName)] (ascii "language") =
      .ok h.languageName from by simp [getV, lookupA]]
  simp only [ebind_ok]
  rw [show getV [(ascii "language", h.languageName), (ascii "locale", h.locale),
      (ascii "image", h.flagFile), (ascii "plural_count", intToStr h.pluralCount),
      (ascii "plural_definition", h.pluralDefinition),
      (ascii "translator", h.translatorName)] (ascii "locale") =
      .ok h.locale from by simp [getV, lookupA]]
  simp only [ebind_ok]
  rw [show getV [(ascii "language", h.languageName), (ascii "locale", h.locale),
      (ascii "image", h.flagFile), (ascii "plural_count", intToStr h.pluralCount),
      (ascii "plural_definition", h.pluralDefinition),
      (ascii "translator", h.translatorName)] (ascii "image") =
      .ok h.flagFile from by simp [getV, lookupA]]
  simp only [ebind_ok]
  rw [show getV [(ascii "language", h.languageName), (ascii "locale", h.locale),
      (ascii "image", h.flagFile), (ascii "plural_count", intToStr h.pluralCount),
      (ascii "plural_definition", h.pluralDefinition),
      (ascii "translator", h.translatorName)] (ascii "plural_count") =
      .ok (intToStr h.pluralCount) from by simp [getV, lookupA]]
  simp only [ebind_ok]
  rw [stringToInt_intToStr]
  rw [show getV [(ascii "language", h.languageName), (ascii "locale", h.locale),
      (ascii "image", h.flagFile), (ascii "plural_count", intToStr h.pluralCount),
      (ascii "plural_definition", h.pluralDefinition),
      (ascii "translator", h.translatorName)] (ascii "plural_definition") =
      .ok h.pluralDefinition from by simp [getV, lookupA]]
  simp only [ebind_ok]
  rw [show getV [(ascii "language", h.languageName), (ascii "locale", h.locale),
      (ascii "image", h.flagFile), (ascii "plural_count", intToStr h.pluralCount),
      (ascii "plural_definition", h.pluralDefinition),
      (ascii "translator", h.translatorName)] (ascii "translator") =
      .ok h.translatorName from by simp [getV, lookupA]]
  simp only [ebind_ok, epure]


theorem mem_append_17 {c : Nat} {a1 a2 a3 a4 a5 a6 a7 a8 a9 a10 a11 a12 a13 a14 a15 a16 a17 : Str}
    (hc : c ∈ a1 ++ a2 ++ a3 ++ a4 ++ a5 ++ a6 ++ a7 ++ a8 ++ a9 ++ a10 ++ a11 ++
      a12 ++ a13 ++ a14 ++ a15 ++ a16 ++ a17) :
    c ∈ a1 ∨ c ∈ a2 ∨ c ∈ a3 ∨ c ∈ a4 ∨ c ∈ a5 ∨ c ∈ a6 ∨ c ∈ a7 ∨ c ∈ a8 ∨
      c ∈ a9 ∨ c ∈ a10 ∨ c ∈ a11 ∨ c ∈ a12 ∨ c ∈ a13 ∨ c ∈ a14 ∨ c ∈ a15 ∨
      c ∈ a16 ∨ c ∈ a17 := by
  simp only [List.mem_append] at hc
  tauto

/-- The header block handed to `parseHeader` out of a generated file is a
canonical text token body. -/
theorem wfText_hdrRawLF (h : TransHeader) (hwf : wfHeader h = true) :
    wfText (hdrRawLF h) = true := by
  simp only [wfHeader, Bool.and_eq_true] at hwf
  obtain ⟨⟨⟨⟨hL, hT⟩, hLo⟩, hF⟩, hD⟩ := hwf
  obtain ⟨hLt, _⟩ := wfField_unpack _ hL
  obtain ⟨hTt, _⟩ := wfField_unpack _ hT
  obtain ⟨hLot, _⟩ := wfField_unpack _ hLo
  obtain ⟨hFt, _⟩ := wfField_unpack _ hF
  obtain ⟨hDt, _⟩ := wfField_unpack _ hD
  obtain ⟨hLne, hLh, hLl, hL13, hL60⟩ := wfText_unpack _ hLt
  obtain ⟨hTne, hTh, hTl, hT13, hT60⟩ := wfText_unpack _ hTt
  obtain ⟨hLone, _, _, hLo13, hLo60⟩ := wfText_unpack _ hLot
  obtain ⟨hFne, _, _, hF13, hF60⟩ := wfText_unpack _ hFt
  obtain ⟨hDne, _, _, hD13, hD60⟩ := wfText_unpack _ hDt
  have hN := intToStr_bytes h.pluralCount
  simp only [wfText, Bool.and_eq_true, Bool.not_eq_true', decide_eq_true_eq]
  refine ⟨⟨⟨⟨?_, ?_⟩, ?_⟩, ?_⟩, ?_⟩
  · simp [hdrRawLF]
  · simp only [hdrRawLF, ascii_language_lit, List.cons_append, List.append_assoc,
      List.headD_cons]
    decide
  · unfold hdrRawLF
    rw [getLastD_of_append _ h.translatorName hTne]
    exact hTl
  · intro hmem
    unfold hdrRawLF at hmem
    rcases mem_append_17 hmem with hc | hc | hc | hc | hc | hc | hc | hc | hc |
      hc | hc | hc | hc | hc | hc | hc | hc
    all_goals first
      | exact absurd hc (by decide)
      | exact hL13 13 hc rfl
      | exact hLo13 13 hc rfl
      | exact hF13 13 hc rfl
      | exact hD13 13 hc rfl
      | exact hT13 13 hc rfl
      | (rcases hN 13 hc with hd | hd <;> omega)
  · intro hmem
    unfold hdrRawLF at hmem
    rcases mem_append_17 hmem with hc | hc | hc | hc | hc | hc | hc | hc | hc |
      hc | hc | hc | hc | hc | hc | hc | hc
    all_goals first
      | exact absurd hc (by decide)
      | exact hL60 60 hc rfl
      | exact hLo60 60 hc rfl
      | exact hF60 60 hc rfl
      | exact hD60 60 hc rfl
      | exact hT60 60 hc rfl
      | (rcases hN 60 hc with hd | hd <;> omega)

/-- Scan of the canonical header body followed by the first chunk boundary
(or end of stream), then one more scan after consuming the text token. -/
theorem step_header_text (st : PState) (x : Str) (its : List TransItem)
    (h : stRest st = [13, 10, 9] ++ toCRLF x ++ entsStream its)
    (hx : wfText x = true) :
    (advance st).tk = ⟨TokT.text, x⟩ ∧ (advance st).stream = st.stream ∧
      EntsInv its (advance (advance st)) ∧
      (advance (advance st)).stream = st.stream := by
  obtain ⟨hb, hh, hl, h60⟩ := toCRLF_wf_facts x hx
  cases its with
  | nil =>
    have h0 : stRest st = [13, 10, 9] ++ toCRLF x ++ ([] : Str) ++ ([] : Str) := by
      rw [h]; simp [entsStream]
    obtain ⟨h1, h2, h3⟩ :=
      step_text st [13, 10, 9] (toCRLF x) [] [] h0 wsl_13109 hb hh hl h60 wsl_nil
        (Or.inl rfl)
    rw [crlf_norm_wf x hx] at h1
    obtain ⟨h4, h5, h6⟩ := step_end (advance st) h2
    exact ⟨h1, h3, ⟨h4, h5⟩, by rw [h6, h3]⟩
  | cons it rest =>
    have h0 : stRest st = [13, 10, 9] ++ toCRLF x ++ [13, 10, 13, 10] ++
        (ascii "<source>" ++ (afterSrcC it ++ entsStream rest)) := by
      rw [h]; simp [entsStream, chunkC]
    obtain ⟨h1, h2, h3⟩ :=
      step_text st [13, 10, 9] (toCRLF x) [13, 10, 13, 10] _ h0 wsl_13109 hb hh hl
        h60 wsl_4 (Or.inr (startsTag_source _))
    rw [crlf_norm_wf x hx] at h1
    obtain ⟨h4, h5, h6⟩ := step_tag_source (advance st) [] _ (by simpa using h2) wsl_nil
    exact ⟨h1, h3, ⟨h4, h5⟩, by rw [h6, h3]⟩

/-- `parseHeader` on a generated stream, from a state whose lookahead is the
`<header>` tag: the header record round-trips and the entry-loop invariant
holds at the returned state. -/
theorem parseHeaderSt_run (h : TransHeader) (its : List TransItem) (st1 : PState)
    (hwf : wfHeader h = true)
    (htk : st1.tk = ⟨TokT.header, []⟩)
    (hr : stRest st1 = [13, 10, 9] ++ toCRLF (hdrRawLF h) ++ entsStream its) :
    ∃ st, parseHeaderSt st1 = .ok (h, st) ∧ EntsInv its st ∧
      st.stream = st1.stream := by
  obtain ⟨h2tk, h2str, hinv, h3str⟩ :=
    step_header_text st1 (hdrRawLF h) its hr (wfText_hdrRawLF h hwf)
  refine ⟨advance (advance st1), ?_, hinv, h3str⟩
  unfold parseHeaderSt
  rw [consumeTok_ok .header st1 (by rw [htk])]
  simp only [ebind_ok]
  rw [consumeTok_ok .text (advance st1) (by rw [h2tk])]
  simp only [ebind_ok]
  rw [show (advance st1).tk.text = hdrRawLF h from by rw [h2tk]]
  rw [headerFromRaw_gen h hwf]

/-- A generated stream does not start with a UTF-8 byte-order mark. -/
theorem bom_not_gen (h : TransHeader) (t : Str) :
    isPrefixL bomUtf8 (toCRLF (genHeaderLines h) ++ t) = false := by
  rw [genHeader_toCRLF h]
  simp only [ascii_header_tag, List.cons_append, List.append_assoc]
  simp [bomUtf8, isPrefixL]

/-- Initial state on a generated stream: the BOM check fails and the first
token is the `<header>` tag. -/
theorem initPState_gen (h : TransHeader) (t : Str) :
    (initPState (toCRLF (genHeaderLines h) ++ t)).tk = ⟨TokT.header, []⟩ ∧
      stRest (initPState (toCRLF (genHeaderLines h) ++ t)) =
        [13, 10, 9] ++ toCRLF (hdrRawLF h) ++ t ∧
      (initPState (toCRLF (genHeaderLines h) ++ t)).stream =
        toCRLF (genHeaderLines h) ++ t := by
  have hinit : initPState (toCRLF (genHeaderLines h) ++ t) =
      advance ⟨toCRLF (genHeaderLines h) ++ t, 0, ⟨TokT.tend, []⟩⟩ := by
    unfold initPState
    simp only [bom_not_gen h t]
    rfl
  have hr0 : stRest (⟨toCRLF (genHeaderLines h) ++ t, 0, ⟨TokT.tend, []⟩⟩ : PState) =
      ascii "<header>" ++ ([13, 10, 9] ++ toCRLF (hdrRawLF h) ++ t) := by
    show toCRLF (genHeaderLines h) ++ t = _
    rw [genHeader_toCRLF h]
    simp
  obtain ⟨h1, h2, h3⟩ := step_tag_header0 _ _ hr0
  rw [hinit]
  exact ⟨h1, h2, h3⟩

/-- The whole parse of a generated stream with a well-formed header, a
plural definition accepted by the evaluator, and all entries canonical and
valid: success, with the maps folded from the emitted entries. -/
theorem parseLngSt_gen_ok (h : TransHeader) (its : List TransItem)
    (pi : PluralFormInfo)
    (hwf : wfHeader h = true)
    (hpi : mkPluralFormInfo h.pluralDefinition h.pluralCount = some pi)
    (hits : ∀ it ∈ its, wfItem it = true)
    (hv : ∀ it ∈ its, validateIt pi it = .ok ()) :
    parseLngSt (toCRLF (genHeaderLines h) ++ entsStream its) =
      (.ok h, (foldMaps its ([], [])).1, (foldMaps its ([], [])).2) := by
  obtain ⟨htk1, hr1, hstr1⟩ := initPState_gen h (entsStream its)
  obtain ⟨st, hps, hinv, hstr⟩ :=
    parseHeaderSt_run h its _ hwf htk1 hr1
  have hfuel : its.length < (toCRLF (genHeaderLines h) ++ entsStream its).length + 1 := by
    have h1 := entsStream_len its
    simp only [List.length_append]
    omega
  unfold parseLngSt
  simp only [hps, hpi]
  rw [parseEntries_ok its _ st [] [] pi hits hfuel hinv hv]


/-! ## Association-map characterization of the parsed out-maps -/

theorem lookupA_append {α β : Type} [DecidableEq α] (a b : List (α × β)) (k : α) :
    lookupA (a ++ b) k =
      match lookupA a k with
      | some v => some v
      | none => lookupA b k := by
  induction a with
  | nil => rfl
  | cons p r ih =>
    obtain ⟨k1, v1⟩ := p
    by_cases hk : k1 = k
    · simp [lookupA, hk]
    · simp only [List.cons_append, lookupA, if_neg hk]
      exact ih

theorem lookupA_emplaceA {α β : Type} [DecidableEq α] (k : α) (v : β)
    (m : List (α × β)) (k0 : α) :
    lookupA (emplaceA k v m) k0 = lookupA (m ++ [(k, v)]) k0 := by
  unfold emplaceA
  cases hm : lookupA m k with
  | some w =>
    rw [lookupA_append]
    cases hm0 : lookupA m k0 with
    | some w0 => rfl
    | none =>
      by_cases hk : k = k0
      · subst hk; rw [hm] at hm0; cases hm0
      · simp [lookupA, hk]
  | none => rfl

/-- Singular associations contributed by an item list, in file order. -/
def smOf : List TransItem → TransMap
  | [] => []
  | .singular o t :: rest => (o, t) :: smOf rest
  | .plural _ _ _ :: rest => smOf rest

/-- Plural associations contributed by an item list, in file order. -/
def pmOf : List TransItem → PluralMap
  | [] => []
  | .singular _ _ :: rest => pmOf rest
  | .plural s p fs :: rest => ((s, p), fs) :: pmOf rest

theorem foldMaps_lookup_sing (its : List TransItem) :
    ∀ (out : TransMap) (pm : PluralMap) (k : Str),
    lookupA (foldMaps its (out, pm)).1 k = lookupA (out ++ smOf its) k := by
  induction its with
  | nil => intro out pm k; simp [foldMaps, smOf]
  | cons it rest ih =>
    intro out pm k
    cases it with
    | singular o t =>
      show lookupA (foldMaps rest (emplaceA o t out, pm)).1 k = _
      rw [ih (emplaceA o t out) pm k,
          show out ++ smOf (TransItem.singular o t :: rest) =
            (out ++ [(o, t)]) ++ smOf rest from by
              simp [smOf],
          lookupA_append, lookupA_append, lookupA_emplaceA]
    | plural s p fs =>
      show lookupA (foldMaps rest (out, emplaceA (s, p) fs pm)).1 k = _
      rw [ih out (emplaceA (s, p) fs pm) k,
          show smOf (TransItem.plural s p fs :: rest) = smOf rest from rfl]

theorem foldMaps_lookup_plur (its : List TransItem) :
    ∀ (out : TransMap) (pm : PluralMap) (k : Str × Str),
    lookupA (foldMaps its (out, pm)).2 k = lookupA (pm ++ pmOf its) k := by
  induction its with
  | nil => intro out pm k; simp [foldMaps, pmOf]
  | cons it rest ih =>
    intro out pm k
    cases it with
    | singular o t =>
      show lookupA (foldMaps rest (emplaceA o t out, pm)).2 k = _
      rw [ih (emplaceA o t out) pm k,
          show pmOf (TransItem.singular o t :: rest) = pmOf rest from rfl]
    | plural s p fs =>
      show lookupA (foldMaps rest (out, emplaceA (s, p) fs pm)).2 k = _
      rw [ih out (emplaceA (s, p) fs pm) k,
          show pm ++ pmOf (TransItem.plural s p fs :: rest) =
            (pm ++ [((s, p), fs)]) ++ pmOf rest from by
              simp [pmOf],
          lookupA_append, lookupA_append, lookupA_emplaceA]

theorem lookupA_eq_none_of_not_mem {α β : Type} [DecidableEq α]
    (m : List (α × β)) (k : α) (h : k ∉ m.map Prod.fst) : lookupA m k = none := by
  induction m with
  | nil => rfl
  | cons p r ih =>
    obtain ⟨k1, v1⟩ := p
    simp only [List.map_cons, List.mem_cons, not_or] at h
    rw [show lookupA ((k1, v1) :: r) k = if k1 = k then some v1 else lookupA r k
      from rfl]
    rw [if_neg (fun he => h.1 he.symm)]
    exact ih h.2

theorem lookupA_eq_some_of_nodup {α β : Type} [DecidableEq α]
    (m : List (α × β)) (k : α) (v : β) (hnd : (m.map Prod.fst).Nodup)
    (hm : (k, v) ∈ m) : lookupA m k = some v := by
  induction m with
  | nil => cases hm
  | cons p r ih =>
    obtain ⟨k1, v1⟩ := p
    simp only [List.map_cons, List.nodup_cons] at hnd
    rcases List.mem_cons.mp hm with he | hr
    · injection he with h1 h2
      subst h1
      subst h2
      simp [lookupA]
    · have hk : k1 ≠ k := by
        intro he
        subst he
        exact hnd.1 (List.mem_map.mpr ⟨(k1, v), hr, rfl⟩)
      rw [show lookupA ((k1, v1) :: r) k = if k1 = k then some v1 else lookupA r k
        from rfl, if_neg hk]
      exact ih hnd.2 hr

theorem mem_smOf (o t : Str) (its : List TransItem)
    (h : TransItem.singular o t ∈ its) : (o, t) ∈ smOf its := by
  induction its with
  | nil => cases h
  | cons it rest ih =>
    rcases List.mem_cons.mp h with he | hr
    · rw [← he]
      simp [smOf]
    · cases it with
      | singular o2 t2 => exact List.mem_cons_of_mem _ (ih hr)
      | plural s2 p2 f2 => exact ih hr

theorem mem_pmOf (s p : Str) (fs : List Str) (its : List TransItem)
    (h : TransItem.plural s p fs ∈ its) : ((s, p), fs) ∈ pmOf its := by
  induction its with
  | nil => cases h
  | cons it rest ih =>
    rcases List.mem_cons.mp h with he | hr
    · rw [← he]
      simp [pmOf]
    · cases it with
      | singular o2 t2 => exact ih hr
      | plural s2 p2 f2 => exact List.mem_cons_of_mem _ (ih hr)

/-- Singular keys of a list of items, extracted from the item keys. -/
theorem smOf_keys (its : List TransItem) :
    (smOf its).map Prod.fst = (its.map itemKey).filterMap
      (fun k => match k with | Sum.inl o => some o | Sum.inr _ => none) := by
  induction its with
  | nil => rfl
  | cons it rest ih =>
    cases it with
    | singular o t =>
      simp only [smOf, List.map_cons, itemKey, List.filterMap_cons]
      rw [ih]
    | plural s p fs =>
      simp only [smOf, List.map_cons, itemKey, List.filterMap_cons]
      rw [ih]

theorem pmOf_keys (its : List TransItem) :
    (pmOf its).map Prod.fst = (its.map itemKey).filterMap
      (fun k => match k with | Sum.inl _ => none | Sum.inr sp => some sp) := by
  induction its with
  | nil => rfl
  | cons it rest ih =>
    cases it with
    | singular o t =>
      simp only [pmOf, List.map_cons, itemKey, List.filterMap_cons]
      rw [ih]
    | plural s p fs =>
      simp only [pmOf, List.map_cons, itemKey, List.filterMap_cons]
      rw [ih]

theorem smOf_keys_nodup (its : List TransItem)
    (hnd : (its.map itemKey).Nodup) : ((smOf its).map Prod.fst).Nodup := by
  rw [smOf_keys]
  refine List.Nodup.filterMap ?_ hnd
  intro a a' b hb hb'
  cases a with
  | inl o =>
    cases a' with
    | inl o' =>
      simp only [Option.mem_def, Option.some.injEq] at hb hb'
      rw [hb, hb']
    | inr sp => cases hb'
  | inr sp => cases hb

theorem pmOf_keys_nodup (its : List TransItem)
    (hnd : (its.map itemKey).Nodup) : ((pmOf its).map Prod.fst).Nodup := by
  rw [pmOf_keys]
  refine List.Nodup.filterMap ?_ hnd
  intro a a' b hb hb'
  cases a with
  | inl o => cases hb
  | inr sp =>
    cases a' with
    | inl o' => cases hb'
    | inr sp' =>
      simp only [Option.mem_def, Option.some.injEq] at hb hb'
      rw [hb, hb']

theorem emissionOrder_perm (its : List TransItem) (b : Bool) :
    List.Perm (emissionOrder its b) its := by
  cases b with
  | true =>
    unfold emissionOrder
    rw [if_pos rfl]
    have h3 : (fun it => hasTranslation it) =
        (fun it => !(!hasTranslation it)) := by
      funext it
      simp
    rw [h3]
    exact List.filter_append_perm _ its
  | false => simp [emissionOrder]

/-- The two parsed out-maps of a successfully parsed generated stream, as
first-match association lists over the emitted entries. -/
theorem gen_maps_lookup (l : TUList) (h : TransHeader) (b : Bool)
    (pi : PluralFormInfo)
    (hwf : wfHeader h = true)
    (hpi : mkPluralFormInfo h.pluralDefinition h.pluralCount = some pi)
    (hits : ∀ it ∈ l.sequence, wfItem it = true)
    (hv : ∀ it ∈ l.sequence, validateIt pi it = .ok ())
    (hnd : (l.sequence.map itemKey).Nodup) :
    ∃ sm pm, parseLngSt (generateLng l h b) = (.ok h, sm, pm) ∧
      (∀ o t, TransItem.singular o t ∈ l.sequence → lookupA sm o = some t) ∧
      (∀ s p fs, TransItem.plural s p fs ∈ l.sequence →
        lookupA pm (s, p) = some fs) := by
  have hperm := emissionOrder_perm l.sequence b
  have hits' : ∀ it ∈ emissionOrder l.sequence b, wfItem it = true :=
    fun it hit => hits it (hperm.mem_iff.mp hit)
  have hv' : ∀ it ∈ emissionOrder l.sequence b, validateIt pi it = .ok () :=
    fun it hit => hv it (hperm.mem_iff.mp hit)
  have hnd' : ((emissionOrder l.sequence b).map itemKey).Nodup :=
    ((hperm.map itemKey).nodup_iff).mpr hnd
  have hparse : parseLngSt (generateLng l h b) =
      (.ok h, (foldMaps (emissionOrder l.sequence b) ([], [])).1,
        (foldMaps (emissionOrder l.sequence b) ([], [])).2) := by
    rw [generateLng_eq]
    exact parseLngSt_gen_ok h (emissionOrder l.sequence b) pi hwf hpi hits' hv'
  refine ⟨_, _, hparse, ?_, ?_⟩
  · intro o t hmem
    rw [foldMaps_lookup_sing, List.nil_append]
    refine lookupA_eq_some_of_nodup _ o t (smOf_keys_nodup _ hnd') ?_
    exact mem_smOf o t _ (hperm.mem_iff.mpr hmem)
  · intro s p fs hmem
    rw [foldMaps_lookup_plur, List.nil_append]
    refine lookupA_eq_some_of_nodup _ (s, p) fs (pmOf_keys_nodup _ hnd') ?_
    exact mem_pmOf s p fs _ (hperm.mem_iff.mpr hmem)

/-- The remerge fold (`addItem` over freshly discovered keys) rebuilds the
original item sequence when the maps return each item's translation and no
key repeats. -/
theorem remerge_go (its : List TransItem) (sm : TransMap) (pm : PluralMap) :
    ∀ (seq : List TransItem) (tu : List Str) (pu : List (Str × Str)),
    (∀ o t, TransItem.singular o t ∈ its → lookupA sm o = some t) →
    (∀ s p fs, TransItem.plural s p fs ∈ its → lookupA pm (s, p) = some fs) →
    (∀ o t, TransItem.singular o t ∈ its → tu.contains o = false) →
    (∀ s p fs, TransItem.plural s p fs ∈ its → pu.contains (s, p) = false) →
    (its.map itemKey).Nodup →
    ((its.map itemKey).foldl addKey ⟨seq, tu, pu, sm, pm⟩).sequence =
      seq ++ its := by
  induction its with
  | nil =>
    intro seq tu pu _ _ _ _ _
    simp
  | cons it rest ih =>
    intro seq tu pu hs hp hstu hppu hnd
    simp only [List.map_cons, List.nodup_cons] at hnd
    cases it with
    | singular o t =>
      show ((rest.map itemKey).foldl addKey
        (addItemS ⟨seq, tu, pu, sm, pm⟩ o)).sequence = _
      have hcontains : tu.contains o = false := hstu o t (by simp)
      have hlook : lookupA sm o = some t := hs o t (by simp)
      have hstep : addItemS ⟨seq, tu, pu, sm, pm⟩ o =
          ⟨seq ++ [TransItem.singular o t], o :: tu, pu, sm, pm⟩ := by
        have hc2 : (⟨seq, tu, pu, sm, pm⟩ : TUList).transUnique.contains o =
            false := hcontains
        have hl2 : lookupA (⟨seq, tu, pu, sm, pm⟩ : TUList).transOld o =
            some t := hlook
        unfold addItemS
        rw [hc2, hl2]
        by_cases ht : t = []
        · subst ht
          rfl
        · simp [ht]
      rw [hstep]
      rw [ih (seq ++ [TransItem.singular o t]) (o :: tu) pu
        (fun o2 t2 hm => hs o2 t2 (by simp [hm]))
        (fun s2 p2 f2 hm => hp s2 p2 f2 (by simp [hm]))
        (fun o2 t2 hm => by
          have hne : o2 ≠ o := by
            intro he
            subst he
            exact hnd.1 (List.mem_map.mpr ⟨TransItem.singular o2 t2, hm, rfl⟩)
          have h2 := hstu o2 t2 (by simp [hm])
          simpa [hne] using h2)
        (fun s2 p2 f2 hm => hppu s2 p2 f2 (by simp [hm]))
        hnd.2]
      simp
    | plural s p fs =>
      show ((rest.map itemKey).foldl addKey
        (addItemP ⟨seq, tu, pu, sm, pm⟩ (s, p))).sequence = _
      have hcontains : pu.contains (s, p) = false := hppu s p fs (by simp)
      have hlook : lookupA pm (s, p) = some fs := hp s p fs (by simp)
      have hstep : addItemP ⟨seq, tu, pu, sm, pm⟩ (s, p) =
          ⟨seq ++ [TransItem.plural s p fs], tu, (s, p) :: pu, sm, pm⟩ := by
        have hc2 : (⟨seq, tu, pu, sm, pm⟩ : TUList).pluralUnique.contains (s, p) =
            false := hcontains
        have hl2 : lookupA (⟨seq, tu, pu, sm, pm⟩ : TUList).transPluralOld (s, p) =
            some fs := hlook
        unfold addItemP
        rw [hc2, hl2]
        by_cases hf : fs = []
        · subst hf
          rfl
        · simp [hf]
      rw [hstep]
      rw [ih (seq ++ [TransItem.plural s p fs]) tu ((s, p) :: pu)
        (fun o2 t2 hm => hs o2 t2 (by simp [hm]))
        (fun s2 p2 f2 hm => hp s2 p2 f2 (by simp [hm]))
        (fun o2 t2 hm => hstu o2 t2 (by simp [hm]))
        (fun s2 p2 f2 hm => by
          have hne : (s2, p2) ≠ (s, p) := by
            intro he
            apply hnd.1
            refine List.mem_map.mpr ⟨TransItem.plural s2 p2 f2, hm, ?_⟩
            show Sum.inr (s2, p2) = Sum.inr (s, p)
            rw [he]
          have h2 := hppu s2 p2 f2 (by simp [hm])
          simpa [hne] using h2)
        hnd.2]
      simp

/-- The complete round trip on canonical input: parse of the generated bytes
succeeds with the original header, and remerging the parsed maps over the
freshly discovered keys rebuilds the original item sequence. -/
theorem roundtrip_main (l : TUList) (h : TransHeader) (b : Bool)
    (pi : PluralFormInfo)
    (hwf : wfHeader h = true)
    (hpi : mkPluralFormInfo h.pluralDefinition h.pluralCount = some pi)
    (hits : ∀ it ∈ l.sequence, wfItem it = true)
    (hv : ∀ it ∈ l.sequence, validateIt pi it = .ok ())
    (hnd : (l.sequence.map itemKey).Nodup) :
    ∃ sm pm, parseLngSt (generateLng l h b) = (.ok h, sm, pm) ∧
      (remergeC (l.sequence.map itemKey) sm pm).sequence = l.sequence := by
  obtain ⟨sm, pm, hparse, hsm, hpm⟩ :=
    gen_maps_lookup l h b pi hwf hpi hits hv hnd
  refine ⟨sm, pm, hparse, ?_⟩
  unfold remergeC
  rw [remerge_go l.sequence sm pm [] [] [] hsm hpm
    (fun _ _ _ => rfl) (fun _ _ _ _ => rfl) hnd]
  simp

/-- The generator reads only the item sequence of the collection. -/
theorem generateLng_seq (l l' : TUList) (h : TransHeader) (b : Bool)
    (hseq : l'.sequence = l.sequence) : generateLng l' h b = generateLng l h b := by
  unfold generateLng
  rw [hseq]


/-! ## Decidable equality for parse results -/

instance instDecEqExcept {ε α : Type} [DecidableEq ε] [DecidableEq α] :
    DecidableEq (Except ε α) := fun x y =>
  match x, y with
  | .ok a, .ok b =>
    if h : a = b then isTrue (by rw [h])
    else isFalse (by intro he; cases he; exact h rfl)
  | .ok _, .error _ => isFalse (by intro he; cases he)
  | .error _, .ok _ => isFalse (by intro he; cases he)
  | .error e, .error f =>
    if h : e = f then isTrue (by rw [h])
    else isFalse (by intro he; cases he; exact h rfl)

/-! ## Concrete fixtures for witnesses and counterexamples -/

/-- Evaluator tables of `mkPluralFormInfo "n==1?0:1" 2`. -/
def piTwo : PluralFormInfo := ⟨[⟨1, 1⟩, ⟨99, 0⟩]⟩

/-- Canonical two-form header. -/
def hdrGood : TransHeader :=
  ⟨ascii "A", ascii "B", ascii "C", ascii "D", 2, ascii "n==1?0:1"⟩

/-- Canonical collection with one singular and one plural item. -/
def listGood : TUList :=
  ⟨[TransItem.singular (ascii "X") (ascii "Y"),
    TransItem.plural (ascii "1 file") (ascii "%x files")
      [ascii "1 fichier", ascii "%x fichiers"]], [], [], [], []⟩

/-- Non-canonical header: the translator field carries a trailing space. -/
def hdrPad : TransHeader :=
  ⟨ascii "A", ascii "B ", ascii "C", ascii "D", 1, ascii "0"⟩

/-- The same header with the translator field trimmed, as reparsing
returns it. -/
def hdrTrim : TransHeader :=
  ⟨ascii "A", ascii "B", ascii "C", ascii "D", 1, ascii "0"⟩

/-- Empty collection. -/
def listEmpty : TUList := ⟨[], [], [], [], []⟩

/-- Collection whose second item fails validation (`"B&"` ends in a lone
ampersand while the original has none). -/
def listBadSecond : TUList :=
  ⟨[TransItem.singular (ascii "X") (ascii "Y"),
    TransItem.singular (ascii "A") (ascii "B&")], [], [], [], []⟩

/-- Collection fixture with a previously parsed singular map, for the
`addItem` seeding witness. -/
def listSeed : TUList := ⟨[], [], [], [(ascii "Save", ascii "Sauver")], []⟩

/-! ## C1: generate/parse/remerge round trip -/

/-- C1 (corrected: the round trip holds for canonical input — a
well-formed header, well-formed valid entries and distinct keys —
while a non-canonical header field is silently trimmed on reparse, see
the counterexample): parsing the generated bytes succeeds with the same
header, and remerging the parsed maps over the discovered keys rebuilds
the same item sequence, hence the same singular and plural content. -/
theorem c1_roundtrip_remerge (l : TUList) (h : TransHeader) (b : Bool)
    (pi : PluralFormInfo)
    (hwf : wfHeader h = true)
    (hpi : mkPluralFormInfo h.pluralDefinition h.pluralCount = some pi)
    (hits : ∀ it ∈ l.sequence, wfItem it = true)
    (hv : ∀ it ∈ l.sequence, validateIt pi it = .ok ())
    (hnd : (l.sequence.map itemKey).Nodup) :
    ∃ sm pm, parseLngSt (generateLng l h b) = (.ok h, sm, pm) ∧
      (remergeC (l.sequence.map itemKey) sm pm).sequence = l.sequence :=
  roundtrip_main l h b pi hwf hpi hits hv hnd

/-- Witness for C1 at a concrete collection with one singular and one
plural entry. -/
theorem c1_roundtrip_remerge_witness :
    wfHeader hdrGood = true ∧
    (∃ sm pm, parseLngSt (generateLng listGood hdrGood true) =
        (.ok hdrGood, sm, pm) ∧
      (remergeC (listGood.sequence.map itemKey) sm pm).sequence =
        listGood.sequence) :=
  ⟨by decide,
   c1_roundtrip_remerge listGood hdrGood true piTwo (by decide) (by decide)
     (by decide) (by decide) (by decide)⟩

set_option maxRecDepth 40000 in
/-- Counterexample to C1 as stated: a header whose translator field has a
trailing space generates bytes that reparse successfully, but the reparsed
header is the trimmed one, not the original. -/
theorem c1_counterexample :
    parseLngSt (generateLng listEmpty hdrPad false) = (.ok hdrTrim, [], []) ∧
    hdrTrim ≠ hdrPad := by
  constructor
  · decide
  · decide

/-! ## C5: regeneration idempotence -/

/-- C5 (corrected: idempotence holds for canonical input, while the
counterexample's non-canonical header field is trimmed by the round trip
so the second generation differs): regenerating from the
reparsed-and-remerged result with the same flag yields byte-identical
output. -/
theorem c5_regen_idempotent (l : TUList) (h : TransHeader) (b : Bool)
    (pi : PluralFormInfo)
    (hwf : wfHeader h = true)
    (hpi : mkPluralFormInfo h.pluralDefinition h.pluralCount = some pi)
    (hits : ∀ it ∈ l.sequence, wfItem it = true)
    (hv : ∀ it ∈ l.sequence, validateIt pi it = .ok ())
    (hnd : (l.sequence.map itemKey).Nodup) :
    ∃ h2 sm pm, parseLngSt (generateLng l h b) = (.ok h2, sm, pm) ∧
      generateLng (remergeC (l.sequence.map itemKey) sm pm) h2 b =
        generateLng l h b := by
  obtain ⟨sm, pm, hparse, hseq⟩ := roundtrip_main l h b pi hwf hpi hits hv hnd
  exact ⟨h, sm, pm, hparse, generateLng_seq l _ h b hseq⟩

/-- Witness for C5 at the same concrete collection. -/
theorem c5_regen_idempotent_witness :
    (∀ it ∈ listGood.sequence, validateIt piTwo it = .ok ()) ∧
    (∃ h2 sm pm, parseLngSt (generateLng listGood hdrGood false) =
        (.ok h2, sm, pm) ∧
      generateLng (remergeC (listGood.sequence.map itemKey) sm pm) h2 false =
        generateLng listGood hdrGood false) :=
  ⟨by decide,
   c5_regen_idempotent listGood hdrGood false piTwo (by decide) (by decide)
     (by decide) (by decide) (by decide)⟩

set_option maxRecDepth 40000 in
/-- Counterexample to C5 as stated: after the round trip the trailing
space of the translator field is gone, so the second generation differs
from the first byte stream. -/
theorem c5_counterexample :
    parseLngSt (generateLng listEmpty hdrPad false) = (.ok hdrTrim, [], []) ∧
    generateLng (remergeC (listEmpty.sequence.map itemKey) [] []) hdrTrim false ≠
      generateLng listEmpty hdrPad false := by
  constructor
  · decide
  · decide

/-! ## C2: what an aborted parse leaves in the out-maps -/

/-- C2 (corrected: a failing parse is not free of partial results — the
entries of the valid prefix before the first invalid entry remain in the
caller's out-maps, exactly those and nothing else): on a generated stream
whose first invalid entry follows a valid prefix, the parse returns an
error and the maps hold precisely the folded valid prefix. -/
theorem c2_error_prefix (h : TransHeader) (good : List TransItem)
    (bad : TransItem) (rest : List TransItem) (pi : PluralFormInfo) (m : EMsg)
    (hwf : wfHeader h = true)
    (hpi : mkPluralFormInfo h.pluralDefinition h.pluralCount = some pi)
    (hits : ∀ it ∈ good ++ bad :: rest, wfItem it = true)
    (hgood : ∀ it ∈ good, validateIt pi it = .ok ())
    (hbad : validateIt pi bad = .error m) :
    ∃ e, parseLngSt (toCRLF (genHeaderLines h) ++
        entsStream (good ++ bad :: rest)) =
      (.error e, (foldMaps good ([], [])).1, (foldMaps good ([], [])).2) := by
  obtain ⟨htk1, hr1, hstr1⟩ :=
    initPState_gen h (entsStream (good ++ bad :: rest))
  obtain ⟨st, hps, hinv, hstr⟩ := parseHeaderSt_run h _ _ hwf htk1 hr1
  have hfuel : good.length <
      (toCRLF (genHeaderLines h) ++
        entsStream (good ++ bad :: rest)).length + 1 := by
    have h1 := entsStream_len (good ++ bad :: rest)
    simp only [List.length_append, List.length_cons] at *
    omega
  obtain ⟨e, herr⟩ :=
    parseEntries_err good bad rest _ st [] [] pi hits hfuel hinv hgood m hbad
  refine ⟨e, ?_⟩
  unfold parseLngSt
  simp only [hps, hpi]
  rw [herr]

/-- Witness for C2: a valid entry followed by an invalid one. -/
theorem c2_error_prefix_witness :
    validateIt piTwo (TransItem.singular (ascii "A") (ascii "B&")) =
      .error .ampersandCount ∧
    ∃ e, parseLngSt (toCRLF (genHeaderLines hdrGood) ++
        entsStream [TransItem.singular (ascii "X") (ascii "Y"),
          TransItem.singular (ascii "A") (ascii "B&")]) =
      (.error e, [(ascii "X", ascii "Y")], []) :=
  ⟨by decide,
   c2_error_prefix hdrGood [TransItem.singular (ascii "X") (ascii "Y")]
     (TransItem.singular (ascii "A") (ascii "B&")) [] piTwo .ampersandCount
     (by decide) (by decide) (by decide) (by decide) (by decide)⟩

set_option maxRecDepth 40000 in
/-- Counterexample to C2 as stated: this parse raises an error, yet the
singular out-map is left holding the entry of the valid first item. -/
theorem c2_counterexample :
    parseLngSt (generateLng listBadSecond hdrTrim false) =
      (.error ⟨.ampersandCount, 12, 11⟩, [(ascii "X", ascii "Y")], []) ∧
    [(ascii "X", ascii "Y")] ≠ ([] : TransMap) := by
  constructor
  · decide
  · decide

/-! ## C6: addItem idempotence and seeding -/

/-- C6: `addItem` is idempotent — an immediate repeat call is a no-op and
a call on a known key changes nothing — and a first call on a fresh key
appends exactly one item whose translation is seeded from the prior
parsed map, empty when the key is absent there or its old translation is
empty. -/
theorem c6_addItem_idem (l : TUList) (o : Str) (sp : Str × Str) :
    (addItemS (addItemS l o) o = addItemS l o) ∧
    (addItemP (addItemP l sp) sp = addItemP l sp) ∧
    (l.transUnique.contains o = true → addItemS l o = l) ∧
    (l.pluralUnique.contains sp = true → addItemP l sp = l) ∧
    (l.transUnique.contains o = false →
      ∃ t, (addItemS l o).sequence = l.sequence ++ [TransItem.singular o t] ∧
        ((lookupA l.transOld o = none ∨ lookupA l.transOld o = some []) →
          t = []) ∧
        (∀ t0, lookupA l.transOld o = some t0 → t0 ≠ [] → t = t0)) ∧
    (l.pluralUnique.contains sp = false →
      ∃ fs, (addItemP l sp).sequence =
          l.sequence ++ [TransItem.plural sp.1 sp.2 fs] ∧
        ((lookupA l.transPluralOld sp = none ∨
            lookupA l.transPluralOld sp = some []) → fs = []) ∧
        (∀ f0, lookupA l.transPluralOld sp = some f0 → f0 ≠ [] → fs = f0)) := by
  have hS_true : ∀ l2 : TUList, l2.transUnique.contains o = true →
      addItemS l2 o = l2 := by
    intro l2 h
    unfold addItemS
    rw [h]
    rfl
  have hP_true : ∀ l2 : TUList, l2.pluralUnique.contains sp = true →
      addItemP l2 sp = l2 := by
    intro l2 h
    unfold addItemP
    rw [h]
    rfl
  refine ⟨?_, ?_, hS_true l, hP_true l, ?_, ?_⟩
  · by_cases hc : l.transUnique.contains o = true
    · rw [hS_true l hc, hS_true l hc]
    · have hcf : l.transUnique.contains o = false := Bool.eq_false_iff.mpr hc
      have hproj : (addItemS l o).transUnique = o :: l.transUnique := by
        unfold addItemS
        rw [hcf]
        rfl
      have hc2 : (addItemS l o).transUnique.contains o = true := by
        rw [hproj]
        simp
      rw [hS_true _ hc2]
  · by_cases hc : l.pluralUnique.contains sp = true
    · rw [hP_true l hc, hP_true l hc]
    · have hcf : l.pluralUnique.contains sp = false := Bool.eq_false_iff.mpr hc
      have hproj : (addItemP l sp).pluralUnique = sp :: l.pluralUnique := by
        unfold addItemP
        rw [hcf]
        rfl
      have hc2 : (addItemP l sp).pluralUnique.contains sp = true := by
        rw [hproj]
        simp
      rw [hP_true _ hc2]
  · intro hcf
    have hseq : (addItemS l o).sequence = l.sequence ++ [TransItem.singular o
        (match lookupA l.transOld o with
         | some t0 => if t0 = [] then [] else t0
         | none => [])] := by
      unfold addItemS
      rw [hcf]
      rfl
    refine ⟨_, hseq, ?_, ?_⟩
    · intro hl
      rcases hl with hl | hl
      · rw [hl]
      · rw [hl]
        simp
    · intro t0 hl ht0
      rw [hl]
      simp [ht0]
  · intro hcf
    have hseq : (addItemP l sp).sequence = l.sequence ++ [TransItem.plural
        sp.1 sp.2
        (match lookupA l.transPluralOld sp with
         | some f0 => if f0 = [] then [] else f0
         | none => [])] := by
      unfold addItemP
      rw [hcf]
      rfl
    refine ⟨_, hseq, ?_, ?_⟩
    · intro hl
      rcases hl with hl | hl
      · rw [hl]
      · rw [hl]
        simp
    · intro f0 hl hf0
      rw [hl]
      simp [hf0]

/-- Witness for C6: a repeated `add("Save")` on a seeded collection keeps
exactly one item with the first-seeded translation. -/
theorem c6_addItem_idem_witness :
    (addItemS (addItemS listSeed (ascii "Save")) (ascii "Save") =
      addItemS listSeed (ascii "Save")) ∧
    (∃ t, (addItemS listSeed (ascii "Save")).sequence =
        listSeed.sequence ++ [TransItem.singular (ascii "Save") t] ∧
      ((lookupA listSeed.transOld (ascii "Save") = none ∨
          lookupA listSeed.transOld (ascii "Save") = some []) → t = []) ∧
      (∀ t0, lookupA listSeed.transOld (ascii "Save") = some t0 → t0 ≠ [] →
        t = t0)) :=
  ⟨(c6_addItem_idem listSeed (ascii "Save") (ascii "s", ascii "p")).1,
   (c6_addItem_idem listSeed (ascii "Save") (ascii "s", ascii "p")).2.2.2.2.1
     (by decide)⟩


/-! ## C8: scanner row as a line-break count -/

/-- Number of line breaks in a byte prefix, a CRLF pair counting as one
break (the spec's reading of "robust to LF/CR/CRLF without
double-counting CRLF"). -/
def lineBreaks : Str → Nat
  | [] => 0
  | [c] => if c = 13 || c = 10 then 1 else 0
  | c :: d :: r =>
    if c = 13 then
      (if d = 10 then lineBreaks r + 1 else lineBreaks (d :: r) + 1)
    else if c = 10 then lineBreaks (d :: r) + 1
    else lineBreaks (d :: r)

/-- Every line break of the prefix is an exact CRLF pair. -/
def crlfPaired : Str → Bool
  | [] => true
  | [c] => decide (c ≠ 13) && decide (c ≠ 10)
  | c :: d :: r =>
    if c = 13 then (if d = 10 then crlfPaired r else false)
    else if c = 10 then false
    else crlfPaired (d :: r)

theorem lineBreaks_no13 :
    ∀ (n : Nat) (s : Str), s.length ≤ n → s.count 13 = 0 →
      lineBreaks s = s.count 10 := by
  intro n
  induction n with
  | zero =>
    intro s hl _
    rcases s with _ | ⟨c, r⟩
    · rfl
    · simp at hl
  | succ n ih =>
    intro s hl hc
    rcases s with _ | ⟨c, r⟩
    · rfl
    · rcases r with _ | ⟨d, r2⟩
      · simp only [List.count_cons, List.count_nil, beq_iff_eq] at hc ⊢
        have hc13 : c ≠ 13 := by
          intro he
          subst he
          simp at hc
        show (if c = 13 || c = 10 then 1 else 0) = _
        by_cases h10 : c = 10
        · subst h10
          simp
        · simp [hc13, h10]
      · simp only [List.count_cons, beq_iff_eq] at hc ⊢
        have hc13 : c ≠ 13 := by
          intro he
          subst he
          simp at hc
        have hrest : (d :: r2).count 13 = 0 := by
          simp only [List.count_cons, beq_iff_eq]
          omega
        have hlen : (d :: r2).length ≤ n := by
          simp only [List.length_cons] at hl ⊢
          omega
        show (if c = 13 then
            (if d = 10 then lineBreaks r2 + 1 else lineBreaks (d :: r2) + 1)
          else if c = 10 then lineBreaks (d :: r2) + 1
          else lineBreaks (d :: r2)) = _
        rw [if_neg hc13]
        by_cases h10 : c = 10
        · subst h10
          rw [if_pos rfl, ih (d :: r2) hlen hrest]
          simp [List.count_cons]
        · rw [if_neg h10, ih (d :: r2) hlen hrest]
          simp [List.count_cons, h10]

theorem lineBreaks_no10 :
    ∀ (n : Nat) (s : Str), s.length ≤ n → s.count 10 = 0 →
      lineBreaks s = s.count 13 := by
  intro n
  induction n with
  | zero =>
    intro s hl _
    rcases s with _ | ⟨c, r⟩
    · rfl
    · simp at hl
  | succ n ih =>
    intro s hl hc
    rcases s with _ | ⟨c, r⟩
    · rfl
    · rcases r with _ | ⟨d, r2⟩
      · simp only [List.count_cons, List.count_nil, beq_iff_eq] at hc ⊢
        have hc10 : c ≠ 10 := by
          intro he
          subst he
          simp at hc
        show (if c = 13 || c = 10 then 1 else 0) = _
        by_cases h13 : c = 13
        · subst h13
          simp
        · simp [hc10, h13]
      · simp only [List.count_cons, beq_iff_eq] at hc ⊢
        have hc10 : c ≠ 10 := by
          intro he
          subst he
          simp at hc
        have hrest : (d :: r2).count 10 = 0 := by
          simp only [List.count_cons, beq_iff_eq]
          omega
        have hlen : (d :: r2).length ≤ n := by
          simp only [List.length_cons] at hl ⊢
          omega
        have hd10 : d ≠ 10 := by
          intro he
          subst he
          simp [List.count_cons] at hrest
        show (if c = 13 then
            (if d = 10 then lineBreaks r2 + 1 else lineBreaks (d :: r2) + 1)
          else if c = 10 then lineBreaks (d :: r2) + 1
          else lineBreaks (d :: r2)) = _
        by_cases h13 : c = 13
        · subst h13
          rw [if_pos rfl, if_neg hd10, ih (d :: r2) hlen hrest]
          simp [List.count_cons]
        · rw [if_neg h13, if_neg hc10, ih (d :: r2) hlen hrest]
          simp [List.count_cons, h13]

theorem lineBreaks_crlf :
    ∀ (n : Nat) (s : Str), s.length ≤ n → crlfPaired s = true →
      lineBreaks s = s.count 13 ∧ s.count 13 = s.count 10 := by
  intro n
  induction n with
  | zero =>
    intro s hl _
    rcases s with _ | ⟨c, r⟩
    · exact ⟨rfl, rfl⟩
    · simp at hl
  | succ n ih =>
    intro s hl hp
    rcases s with _ | ⟨c, r⟩
    · exact ⟨rfl, rfl⟩
    · rcases r with _ | ⟨d, r2⟩
      · simp only [crlfPaired, Bool.and_eq_true, decide_eq_true_eq] at hp
        show ((if c = 13 || c = 10 then 1 else 0) = _) ∧ _
        simp [List.count_cons, hp.1, hp.2]
      · simp only [crlfPaired] at hp
        have hlen2 : r2.length ≤ n := by
          simp only [List.length_cons] at hl
          omega
        have hlen1 : (d :: r2).length ≤ n := by
          simp only [List.length_cons] at hl ⊢
          omega
        show ((if c = 13 then
            (if d = 10 then lineBreaks r2 + 1 else lineBreaks (d :: r2) + 1)
          else if c = 10 then lineBreaks (d :: r2) + 1
          else lineBreaks (d :: r2)) = _) ∧ _
        by_cases h13 : c = 13
        · rw [if_pos h13] at hp ⊢
          by_cases hd : d = 10
          · rw [if_pos hd] at hp ⊢
            obtain ⟨ih1, ih2⟩ := ih r2 hlen2 hp
            subst h13
            subst hd
            constructor
            · simp [List.count_cons, ih1]
            · simp [List.count_cons, ih2]
          · rw [if_neg hd] at hp
            cases hp
        · rw [if_neg h13] at hp ⊢
          by_cases h10 : c = 10
          · rw [if_pos h10] at hp
            cases hp
          · rw [if_neg h10] at hp ⊢
            obtain ⟨ih1, ih2⟩ := ih (d :: r2) hlen1 hp
            constructor
            · simp [List.count_cons, ih1, h13]
            · simp [List.count_cons, ih2, h13, h10]

/-- C8: under a consistent line-ending style — LF only, CR only, or
CRLF throughout — the scanner's row equals the count of line breaks in
the consumed prefix, a CRLF pair counting once, and every located error
built at such a position reports that count as its row. -/
theorem c8_posRow_lineBreaks (pre : Str)
    (hstyle : pre.count 13 = 0 ∨ pre.count 10 = 0 ∨ crlfPaired pre = true) :
    posRowOf pre = lineBreaks pre ∧
    (∀ (st : PState) (m : EMsg), st.stream.take st.pos = pre →
      (errAt st m).row = lineBreaks pre) := by
  have key : posRowOf pre = lineBreaks pre := by
    unfold posRowOf
    rcases hstyle with h | h | h
    · rw [lineBreaks_no13 pre.length pre le_rfl h, h]
      simp
    · rw [lineBreaks_no10 pre.length pre le_rfl h, h]
      simp
    · obtain ⟨h1, h2⟩ := lineBreaks_crlf pre.length pre le_rfl h
      rw [h1, h2]
      simp
  refine ⟨key, ?_⟩
  intro st m hpre
  show posRowOf (st.stream.take st.pos) = lineBreaks pre
  rw [hpre, key]

/-- Witness for C8 on the spec's example input: LF-only style, two line
breaks before the offending position, and the parse error of the
truncated file indeed reports row 2. -/
theorem c8_posRow_lineBreaks_witness :
    (ascii "<header>\na\n").count 13 = 0 ∧
    posRowOf (ascii "<header>\na\n") = lineBreaks (ascii "<header>\na\n") ∧
    lineBreaks (ascii "<header>\na\n") = 2 ∧
    (parseLngSt (ascii "<header>\na\n<source>")).1 =
      .error ⟨.cannotFindHeaderItem (ascii "language"), 2, 8⟩ :=
  ⟨by decide,
   (c8_posRow_lineBreaks (ascii "<header>\na\n") (Or.inl (by decide))).1,
   by decide, by decide⟩

/-! ## C3: header errors -/

/-- The six required header keys, in lookup order. -/
def requiredKeys : List Str :=
  [ascii "language", ascii "locale", ascii "image", ascii "plural_count",
   ascii "plural_definition", ascii "translator"]

/-- C3: each of the six required header keys that is missing — all keys
before it in lookup order being present, and for the keys after
`plural_count` its value parsing as an integer — raises the named
cannot-find error carrying that key; a present `plural_count` whose value
does not parse as an integer raises the fatal bad-integer error; and the
six named errors are pairwise distinct. -/
theorem c3_header_errors (raw : Str) :
    (lookupA (headerItems raw) (ascii "language") = none →
      headerFromRaw raw = .error (.cannotFindHeaderItem (ascii "language"))) ∧
    ((lookupA (headerItems raw) (ascii "language")).isSome = true →
      lookupA (headerItems raw) (ascii "locale") = none →
      headerFromRaw raw = .error (.cannotFindHeaderItem (ascii "locale"))) ∧
    ((lookupA (headerItems raw) (ascii "language")).isSome = true →
      (lookupA (headerItems raw) (ascii "locale")).isSome = true →
      lookupA (headerItems raw) (ascii "image") = none →
      headerFromRaw raw = .error (.cannotFindHeaderItem (ascii "image"))) ∧
    ((lookupA (headerItems raw) (ascii "language")).isSome = true →
      (lookupA (headerItems raw) (ascii "locale")).isSome = true →
      (lookupA (headerItems raw) (ascii "image")).isSome = true →
      lookupA (headerItems raw) (ascii "plural_count") = none →
      headerFromRaw raw =
        .error (.cannotFindHeaderItem (ascii "plural_count"))) ∧
    (∀ pcS, (lookupA (headerItems raw) (ascii "language")).isSome = true →
      (lookupA (headerItems raw) (ascii "locale")).isSome = true →
      (lookupA (headerItems raw) (ascii "image")).isSome = true →
      lookupA (headerItems raw) (ascii "plural_count") = some pcS →
      stringToInt pcS = none →
      headerFromRaw raw = .error (.invalidIntegerValue (ascii "plural_count"))) ∧
    (∀ pcS n, (lookupA (headerItems raw) (ascii "language")).isSome = true →
      (lookupA (headerItems raw) (ascii "locale")).isSome = true →
      (lookupA (headerItems raw) (ascii "image")).isSome = true →
      lookupA (headerItems raw) (ascii "plural_count") = some pcS →
      stringToInt pcS = some n →
      lookupA (headerItems raw) (ascii "plural_definition") = none →
      headerFromRaw raw =
        .error (.cannotFindHeaderItem (ascii "plural_definition"))) ∧
    (∀ pcS n, (lookupA (headerItems raw) (ascii "language")).isSome = true →
      (lookupA (headerItems raw) (ascii "locale")).isSome = true →
      (lookupA (headerItems raw) (ascii "image")).isSome = true →
      lookupA (headerItems raw) (ascii "plural_count") = some pcS →
      stringToInt pcS = some n →
      (lookupA (headerItems raw) (ascii "plural_definition")).isSome = true →
      lookupA (headerItems raw) (ascii "translator") = none →
      headerFromRaw raw =
        .error (.cannotFindHeaderItem (ascii "translator"))) ∧
    (requiredKeys.map (fun k => EMsg.cannotFindHeaderItem k)).Nodup := by
  have hgv_none : ∀ k, lookupA (headerItems raw) k = none →
      getV (headerItems raw) k = .error (.cannotFindHeaderItem k) := by
    intro k hk
    unfold getV
    rw [hk]
  have hgv_some : ∀ k v, lookupA (headerItems raw) k = some v →
      getV (headerItems raw) k = .ok v := by
    intro k v hk
    unfold getV
    rw [hk]
  refine ⟨?_, ?_, ?_, ?_, ?_, ?_, ?_, by decide⟩
  · intro h1
    unfold headerFromRaw
    rw [hgv_none _ h1]
    rfl
  · intro h1 h2
    obtain ⟨v1, hv1⟩ := Option.isSome_iff_exists.mp h1
    unfold headerFromRaw
    rw [hgv_some _ _ hv1]
    simp only [ebind_ok]
    rw [hgv_none _ h2]
    rfl
  · intro h1 h2 h3
    obtain ⟨v1, hv1⟩ := Option.isSome_iff_exists.mp h1
    obtain ⟨v2, hv2⟩ := Option.isSome_iff_exists.mp h2
    unfold headerFromRaw
    rw [hgv_some _ _ hv1]
    simp only [ebind_ok]
    rw [hgv_some _ _ hv2]
    simp only [ebind_ok]
    rw [hgv_none _ h3]
    rfl
  · intro h1 h2 h3 h4
    obtain ⟨v1, hv1⟩ := Option.isSome_iff_exists.mp h1
    obtain ⟨v2, hv2⟩ := Option.isSome_iff_exists.mp h2
    obtain ⟨v3, hv3⟩ := Option.isSome_iff_exists.mp h3
    unfold headerFromRaw
    rw [hgv_some _ _ hv1]
    simp only [ebind_ok]
    rw [hgv_some _ _ hv2]
    simp only [ebind_ok]
    rw [hgv_some _ _ hv3]
    simp only [ebind_ok]
    rw [hgv_none _ h4]
    rfl
  · intro pcS h1 h2 h3 h4 h5
    obtain ⟨v1, hv1⟩ := Option.isSome_iff_exists.mp h1
    obtain ⟨v2, hv2⟩ := Option.isSome_iff_exists.mp h2
    obtain ⟨v3, hv3⟩ := Option.isSome_iff_exists.mp h3
    unfold headerFromRaw
    rw [hgv_some _ _ hv1]
    simp only [ebind_ok]
    rw [hgv_some _ _ hv2]
    simp only [ebind_ok]
    rw [hgv_some _ _ hv3]
    simp only [ebind_ok]
    rw [hgv_some _ _ h4]
    simp only [ebind_ok]
    rw [h5]
    rfl
  · intro pcS n h1 h2 h3 h4 h5 h6
    obtain ⟨v1, hv1⟩ := Option.isSome_iff_exists.mp h1
    obtain ⟨v2, hv2⟩ := Option.isSome_iff_exists.mp h2
    obtain ⟨v3, hv3⟩ := Option.isSome_iff_exists.mp h3
    unfold headerFromRaw
    rw [hgv_some _ _ hv1]
    simp only [ebind_ok]
    rw [hgv_some _ _ hv2]
    simp only [ebind_ok]
    rw [hgv_some _ _ hv3]
    simp only [ebind_ok]
    rw [hgv_some _ _ h4]
    simp only [ebind_ok]
    rw [h5]
    simp only [ebind_ok]
    rw [hgv_none _ h6]
    rfl
  · intro pcS n h1 h2 h3 h4 h5 h6 h7
    obtain ⟨v1, hv1⟩ := Option.isSome_iff_exists.mp h1
    obtain ⟨v2, hv2⟩ := Option.isSome_iff_exists.mp h2
    obtain ⟨v3, hv3⟩ := Option.isSome_iff_exists.mp h3
    obtain ⟨v5, hv5⟩ := Option.isSome_iff_exists.mp h6
    unfold headerFromRaw
    rw [hgv_some _ _ hv1]
    simp only [ebind_ok]
    rw [hgv_some _ _ hv2]
    simp only [ebind_ok]
    rw [hgv_some _ _ hv3]
    simp only [ebind_ok]
    rw [hgv_some _ _ h4]
    simp only [ebind_ok]
    rw [h5]
    simp only [ebind_ok]
    rw [hgv_some _ _ hv5]
    simp only [ebind_ok]
    rw [hgv_none _ h7]
    rfl

/-- Witness for C3: a header with only `language` reports the missing
`locale`; one with the first four keys but a non-numeric `plural_count`
reports the bad integer. -/
theorem c3_header_errors_witness :
    headerFromRaw (ascii "language: A") =
      .error (.cannotFindHeaderItem (ascii "locale")) ∧
    headerFromRaw (ascii "language: A\nlocale: B\nimage: C\nplural_count: x") =
      .error (.invalidIntegerValue (ascii "plural_count")) :=
  ⟨(c3_header_errors (ascii "language: A")).2.1 (by decide) (by decide),
   (c3_header_errors
      (ascii "language: A\nlocale: B\nimage: C\nplural_count: x")).2.2.2.2.1
     (ascii "x") (by decide) (by decide) (by decide) (by decide) (by decide)⟩


/-! ## C4 and C7: facts extracted from a passing plural validation -/

/-- Peeling one sequenced check off a successful chain. -/
theorem seqE_ok {a : Except EMsg Unit} {f : Unit → Except EMsg Unit}
    (h : (a >>= f) = .ok ()) : a = .ok () ∧ f () = .ok () := by
  cases a with
  | error e => exact absurd h (by simp)
  | ok u =>
    cases u
    exact ⟨rfl, h⟩

theorem checkE_ok {b : Bool} {m : EMsg} (h : checkE b m = .ok ()) :
    b = false := by
  cases hb : b
  · rfl
  · rw [hb] at h
    exact absurd h (by simp [checkE])

theorem optE_ok {o : Option EMsg} (h : optE o = .ok ()) : o = none := by
  cases o with
  | none => rfl
  | some m => exact absurd h (by simp [optE])

/-- Peeling one sequenced check off a failing chain. -/
theorem seqE_err {a : Except EMsg Unit} {f : Unit → Except EMsg Unit}
    {e : EMsg} (h : (a >>= f) = .error e) :
    a = .error e ∨ (a = .ok () ∧ f () = .error e) := by
  cases a with
  | error e2 =>
    left
    have : (Except.error e2 : Except EMsg Unit) = .error e := h
    exact this
  | ok u =>
    cases u
    exact Or.inr ⟨rfl, h⟩

theorem checkE_err {b : Bool} {m e : EMsg} (h : checkE b m = .error e) :
    e = m := by
  cases hb : b
  · rw [hb] at h
    exact absurd h (by simp [checkE])
  · rw [hb] at h
    simp only [checkE, if_pos rfl] at h
    injection h with h2
    exact h2.symm

theorem optE_err {o : Option EMsg} {e : EMsg} (h : optE o = .error e) :
    o = some e := by
  cases o with
  | none => exact absurd h (by simp [optE])
  | some m =>
    simp only [optE] at h
    injection h with h2
    rw [h2]

/-- A plural validation that returns success with a non-empty form list
has passed the duplicate check, the per-slot check and the fixed-literal
check. -/
theorem validatePlural_ok_facts (o1 o2 : Str) (fs : List Str)
    (pi : PluralFormInfo) (hne : fs ≠ [])
    (hok : validatePlural (o1, o2) fs pi = .ok ()) :
    dupIdx fs 0 = none ∧ slotErr pi o1 fs 0 = none ∧
    fixedStrings6.find?
      (fun f => (containsL f o1 || containsL f o2) &&
        (allTextsOf (o1, o2) fs).any (fun s => !containsL f s)) = none := by
  unfold validatePlural at hok
  obtain ⟨_, hok⟩ := seqE_ok hok
  obtain ⟨_, hok⟩ := seqE_ok hok
  obtain ⟨_, hok⟩ := seqE_ok hok
  rw [if_neg hne] at hok
  obtain ⟨_, hok⟩ := seqE_ok hok
  obtain ⟨hdup, hok⟩ := seqE_ok hok
  obtain ⟨hslot, hok⟩ := seqE_ok hok
  obtain ⟨_, hok⟩ := seqE_ok hok
  obtain ⟨_, hok⟩ := seqE_ok hok
  obtain ⟨_, hok⟩ := seqE_ok hok
  obtain ⟨_, hok⟩ := seqE_ok hok
  obtain ⟨_, hok⟩ := seqE_ok hok
  obtain ⟨_, hok⟩ := seqE_ok hok
  obtain ⟨_, hok⟩ := seqE_ok hok
  obtain ⟨hfix, _⟩ := seqE_ok hok
  refine ⟨?_, optE_ok hslot, ?_⟩
  · have h1 := optE_ok hdup
    rcases hd : dupIdx fs 0 with _ | i
    · rfl
    · rw [hd] at h1
      cases h1
  · have h1 := optE_ok hfix
    rcases hd : fixedStrings6.find?
        (fun f => (containsL f o1 || containsL f o2) &&
          (allTextsOf (o1, o2) fs).any (fun s => !containsL f s)) with _ | f
    · rfl
    · rw [hd] at h1
      cases h1

/-- C4 (corrected: the plural validation's allow-list is the six-element
list that omits "ffs_real", so that literal is not enforced for plural
entries — see the counterexample; for the six listed literals the rule
does hold): a passing plural validation with non-empty forms guarantees
that every literal of the plural allow-list contained in either original
appears in both originals and in every translated form. -/
theorem c4_plural_allowlist (o1 o2 : Str) (fs : List Str)
    (pi : PluralFormInfo) (hne : fs ≠ [])
    (hok : validatePlural (o1, o2) fs pi = .ok ()) :
    ∀ f ∈ fixedStrings6, (containsL f o1 || containsL f o2) = true →
      ∀ s ∈ o1 :: o2 :: fs, containsL f s = true := by
  obtain ⟨_, _, hfind⟩ := validatePlural_ok_facts o1 o2 fs pi hne hok
  intro f hf hcont s hs
  have hnp := List.find?_eq_none.mp hfind f hf
  simp only [Bool.and_eq_true, List.any_eq_true, Bool.not_eq_true',
    not_and, not_exists] at hnp
  by_contra hcs
  have := hnp hcont
  simp only [not_and] at this
  exact (this s hs) (Bool.eq_false_iff.mpr hcs)

/-- Witness for C4: an entry carrying the allow-listed "FreeFileSync" in
the originals passes only because every form carries it too; the theorem
recovers that containment for the first form. -/
theorem c4_plural_allowlist_witness :
    validatePlural (ascii "1 FreeFileSync", ascii "%x FreeFileSync")
      [ascii "1 FreeFileSync", ascii "%x FreeFileSync"] piTwo = .ok () ∧
    containsL (ascii "FreeFileSync") (ascii "1 FreeFileSync") = true :=
  ⟨by decide,
   c4_plural_allowlist (ascii "1 FreeFileSync") (ascii "%x FreeFileSync")
     [ascii "1 FreeFileSync", ascii "%x FreeFileSync"] piTwo (by decide)
     (by decide) (ascii "FreeFileSync") (by decide) (by decide)
     (ascii "1 FreeFileSync") (by decide)⟩

/-- Counterexample to C4 as stated: "ffs_real" is on the singular
allow-list but not on the plural one, so a plural entry whose originals
contain "ffs_real" passes validation although no translated form does. -/
theorem c4_counterexample :
    validatePlural (ascii "ffs_real x", ascii "ffs_real %x")
      [ascii "un", ascii "%x deux"] piTwo = .ok () ∧
    containsL (ascii "ffs_real") (ascii "ffs_real x") = true ∧
    containsL (ascii "ffs_real") (ascii "un") = false ∧
    (ascii "ffs_real" ∈ fixedStrings7) ∧
    (ascii "ffs_real" ∉ fixedStrings6) := by
  refine ⟨by decide, by decide, by decide, by decide, by decide⟩

/-- One violated slot forces the per-slot check to report an error. -/
theorem slotErr_some_of_violation (pi : PluralFormInfo) (o1 : Str) :
    ∀ (fs : List Str) (pos i : Nat) (hi : i < fs.length),
    ((isSingleNumberForm pi (pos + i) = true ∧
        (containsL xph o1 || containsL (ascii "1") o1) = true ∧
        containsL xph (fs.get ⟨i, hi⟩) = false ∧
        containsL (intToStr (getFirstNumber pi (pos + i)))
          (fs.get ⟨i, hi⟩) = false) ∨
      (isSingleNumberForm pi (pos + i) = false ∧
        containsL xph (fs.get ⟨i, hi⟩) = false)) →
    slotErr pi o1 fs pos ≠ none := by
  intro fs
  induction fs with
  | nil =>
    intro pos i hi
    exact absurd hi (by simp)
  | cons f rest ih =>
    intro pos i hi hviol
    unfold slotErr
    by_cases hsn : isSingleNumberForm pi pos = true
    · rw [if_pos hsn]
      by_cases hco : (containsL xph o1 || containsL (ascii "1") o1) = true
      · rw [if_pos hco]
        show (if (!containsL xph f &&
            !containsL (intToStr (getFirstNumber pi pos)) f) = true
          then some (EMsg.needsDecimal pos (getFirstNumber pi pos))
          else slotErr pi o1 rest (pos + 1)) ≠ none
        by_cases hbad : (!containsL xph f &&
            !containsL (intToStr (getFirstNumber pi pos)) f) = true
        · rw [if_pos hbad]
          simp
        · rw [if_neg hbad]
          cases i with
          | zero =>
            simp only [Nat.add_zero, List.get] at hviol
            rcases hviol with ⟨_, _, h3, h4⟩ | ⟨h1, _⟩
            · exact absurd (by rw [h3, h4]; rfl) hbad
            · rw [hsn] at h1
              cases h1
          | succ j =>
            have hj : j < rest.length := by
              simp only [List.length_cons] at hi
              omega
            refine ih (pos + 1) j hj ?_
            have harith : pos + (j + 1) = pos + 1 + j := by omega
            rw [harith] at hviol
            exact hviol
      · rw [if_neg hco]
        cases i with
        | zero =>
          simp only [Nat.add_zero] at hviol
          rcases hviol with ⟨_, h2, _, _⟩ | ⟨h1, _⟩
          · exact absurd h2 hco
          · rw [hsn] at h1
            cases h1
        | succ j =>
          have hj : j < rest.length := by
            simp only [List.length_cons] at hi
            omega
          refine ih (pos + 1) j hj ?_
          have harith : pos + (j + 1) = pos + 1 + j := by omega
          rw [harith] at hviol
          exact hviol
    · rw [if_neg hsn]
      by_cases hx : (!containsL xph f) = true
      · rw [if_pos hx]
        simp
      · rw [if_neg hx]
        cases i with
        | zero =>
          simp only [Nat.add_zero, List.get] at hviol
          rcases hviol with ⟨h1, _, _, _⟩ | ⟨_, h3⟩
          · exact absurd h1 hsn
          · exact absurd (by rw [h3]; rfl) hx
        | succ j =>
          have hj : j < rest.length := by
            simp only [List.length_cons] at hi
            omega
          refine ih (pos + 1) j hj ?_
          have harith : pos + (j + 1) = pos + 1 + j := by omega
          rw [harith] at hviol
          exact hviol

/-- C7: on a plural entry with non-empty forms, a slot that violates its
per-slot rule — a single-number slot whose original singular carries the
placeholder or the literal "1" while the form carries neither the
placeholder nor the decimal rendering of the representative value, or a
non-single-number slot whose form lacks the placeholder — makes the
validation fail with an error. -/
theorem c7_slot_check (o1 o2 : Str) (fs : List Str) (pi : PluralFormInfo)
    (hne : fs ≠ []) (i : Nat) (hi : i < fs.length)
    (hviol : (isSingleNumberForm pi i = true ∧
        (containsL xph o1 || containsL (ascii "1") o1) = true ∧
        containsL xph (fs.get ⟨i, hi⟩) = false ∧
        containsL (intToStr (getFirstNumber pi i)) (fs.get ⟨i, hi⟩) = false) ∨
      (isSingleNumberForm pi i = false ∧
        containsL xph (fs.get ⟨i, hi⟩) = false)) :
    ∃ m, validatePlural (o1, o2) fs pi = .error m := by
  cases hv : validatePlural (o1, o2) fs pi with
  | error m => exact ⟨m, rfl⟩
  | ok u =>
    cases u
    obtain ⟨_, hslot, _⟩ := validatePlural_ok_facts o1 o2 fs pi hne hv
    have hviol0 : (isSingleNumberForm pi (0 + i) = true ∧
        (containsL xph o1 || containsL (ascii "1") o1) = true ∧
        containsL xph (fs.get ⟨i, hi⟩) = false ∧
        containsL (intToStr (getFirstNumber pi (0 + i)))
          (fs.get ⟨i, hi⟩) = false) ∨
      (isSingleNumberForm pi (0 + i) = false ∧
        containsL xph (fs.get ⟨i, hi⟩) = false) := by
      rw [Nat.zero_add]
      exact hviol
    exact absurd hslot (slotErr_some_of_violation pi o1 fs 0 i hi hviol0)

/-- Witness for C7 on the spec's example: the single-number slot's form
"un fichier" has no placeholder and no representative digit, so the
entry fails. -/
theorem c7_slot_check_witness :
    isSingleNumberForm piTwo 0 = true ∧
    (∃ m, validatePlural (ascii "1 file", ascii "%x files")
      [ascii "un fichier", ascii "%x fichiers"] piTwo = .error m) :=
  ⟨by decide,
   c7_slot_check (ascii "1 file") (ascii "%x files")
     [ascii "un fichier", ascii "%x fichiers"] piTwo (by decide) 0 (by decide)
     (Or.inl ⟨by decide, by decide, by decide, by decide⟩)⟩

/-! ## C9: duplicate singular originals -/

theorem smOf_append (a b : List TransItem) :
    smOf (a ++ b) = smOf a ++ smOf b := by
  induction a with
  | nil => rfl
  | cons it rest ih =>
    cases it with
    | singular o t =>
      show (o, t) :: smOf (rest ++ b) = ((o, t) :: smOf rest) ++ smOf b
      rw [ih]
      rfl
    | plural s p fs =>
      show smOf (rest ++ b) = smOf rest ++ smOf b
      exact ih

theorem mem_smOf_inv (o t : Str) (its : List TransItem)
    (h : (o, t) ∈ smOf its) : TransItem.singular o t ∈ its := by
  induction its with
  | nil => cases h
  | cons it rest ih =>
    cases it with
    | singular o2 t2 =>
      rcases List.mem_cons.mp h with he | hr
      · injection he with h1 h2
        subst h1
        subst h2
        simp
      · exact List.mem_cons_of_mem _ (ih hr)
    | plural s2 p2 f2 => exact List.mem_cons_of_mem _ (ih h)

/-- C9: a generated file with two valid singular entries sharing one
original text parses without error, and the singular map holds the first
entry's translation — the later duplicate is silently dropped. -/
theorem c9_duplicate_first_wins (h : TransHeader) (pi : PluralFormInfo)
    (A B C : List TransItem) (o t1 t2 : Str)
    (hwf : wfHeader h = true)
    (hpi : mkPluralFormInfo h.pluralDefinition h.pluralCount = some pi)
    (hits : ∀ it ∈ A ++ (TransItem.singular o t1 ::
      (B ++ (TransItem.singular o t2 :: C))), wfItem it = true)
    (hv : ∀ it ∈ A ++ (TransItem.singular o t1 ::
      (B ++ (TransItem.singular o t2 :: C))), validateIt pi it = .ok ())
    (hA : ∀ t, TransItem.singular o t ∉ A) :
    ∃ sm pm, parseLngSt (toCRLF (genHeaderLines h) ++
        entsStream (A ++ (TransItem.singular o t1 ::
          (B ++ (TransItem.singular o t2 :: C))))) =
      (.ok h, sm, pm) ∧ lookupA sm o = some t1 := by
  have hparse := parseLngSt_gen_ok h
    (A ++ (TransItem.singular o t1 :: (B ++ (TransItem.singular o t2 :: C))))
    pi hwf hpi hits hv
  refine ⟨_, _, hparse, ?_⟩
  rw [foldMaps_lookup_sing, List.nil_append, smOf_append]
  rw [show smOf (TransItem.singular o t1 ::
      (B ++ (TransItem.singular o t2 :: C))) =
    (o, t1) :: smOf (B ++ (TransItem.singular o t2 :: C)) from rfl]
  rw [lookupA_append]
  have hnone : lookupA (smOf A) o = none := by
    apply lookupA_eq_none_of_not_mem
    intro hmem
    obtain ⟨p, hp, hfst⟩ := List.mem_map.mp hmem
    obtain ⟨k, v⟩ := p
    have hk : k = o := hfst
    subst hk
    exact hA v (mem_smOf_inv _ _ _ hp)
  rw [hnone]
  show lookupA ((o, t1) :: smOf (B ++ (TransItem.singular o t2 :: C))) o =
    some t1
  rw [show lookupA ((o, t1) :: smOf (B ++ (TransItem.singular o t2 :: C))) o =
    if o = o then some t1 else lookupA
      (smOf (B ++ (TransItem.singular o t2 :: C))) o from rfl]
  rw [if_pos rfl]

/-- Witness for C9: the duplicated original "X" keeps its first
translation "Y", not the later "Z". -/
theorem c9_duplicate_first_wins_witness :
    ∃ sm pm, parseLngSt (toCRLF (genHeaderLines hdrGood) ++
        entsStream [TransItem.singular (ascii "X") (ascii "Y"),
          TransItem.singular (ascii "X") (ascii "Z")]) =
      (.ok hdrGood, sm, pm) ∧ lookupA sm (ascii "X") = some (ascii "Y") :=
  c9_duplicate_first_wins hdrGood piTwo [] [] [] (ascii "X") (ascii "Y")
    (ascii "Z") (by decide) (by decide) (by decide) (by decide)
    (fun t => List.not_mem_nil _)


/-! ## C10: no empty text tokens, no reachable empty-source error -/

theorem drop_length_takeWhile (p : Nat → Bool) (s : Str) :
    s.drop (s.takeWhile p).length = s.dropWhile p := by
  induction s with
  | nil => rfl
  | cons c r ih =>
    by_cases hc : p c = true
    · simp [List.takeWhile_cons, List.dropWhile_cons, hc, ih]
    · simp [List.takeWhile_cons, List.dropWhile_cons, hc]

theorem dropWhile_head_false (p : Nat → Bool) (s : Str) (c : Nat) (r : Str)
    (h : s.dropWhile p = c :: r) : p c = false := by
  induction s with
  | nil => cases h
  | cons a s2 ih =>
    by_cases ha : p a = true
    · rw [List.dropWhile_cons, if_pos ha] at h
      exact ih h
    · rw [List.dropWhile_cons, if_neg ha] at h
      injection h with h1 _
      rw [← h1]
      exact Bool.eq_false_iff.mpr ha

theorem matchTag_none_startsTag (s : Str) (h : matchTag s = none) :
    startsTag s = false := by
  unfold matchTag knownTags at h
  simp only [List.foldr_cons, List.foldr_nil] at h
  unfold startsTag knownTags
  simp only [List.any_cons, List.any_nil]
  by_cases h1 : isPrefixL (ascii "<header>") s = true
  · rw [if_pos h1] at h
    cases h
  rw [if_neg h1] at h
  by_cases h2 : isPrefixL (ascii "<source>") s = true
  · rw [if_pos h2] at h
    cases h
  rw [if_neg h2] at h
  by_cases h3 : isPrefixL (ascii "<target>") s = true
  · rw [if_pos h3] at h
    cases h
  rw [if_neg h3] at h
  by_cases h4 : isPrefixL (ascii "<empty>") s = true
  · rw [if_pos h4] at h
    cases h
  rw [if_neg h4] at h
  by_cases h5 : isPrefixL (ascii "<pluralform>") s = true
  · rw [if_pos h5] at h
    cases h
  have g1 : isPrefixL (ascii "<header>") s = false := Bool.eq_false_iff.mpr h1
  have g2 : isPrefixL (ascii "<source>") s = false := Bool.eq_false_iff.mpr h2
  have g3 : isPrefixL (ascii "<target>") s = false := Bool.eq_false_iff.mpr h3
  have g4 : isPrefixL (ascii "<empty>") s = false := Bool.eq_false_iff.mpr h4
  have g5 : isPrefixL (ascii "<pluralform>") s = false :=
    Bool.eq_false_iff.mpr h5
  simp only [ascii_header_tag, ascii_source_tag, ascii_target_tag,
    ascii_empty_tag, ascii_plural_tag] at g1 g2 g3 g4 g5
  simp [g1, g2, g3, g4, g5]

theorem matchTag_tag_ne_text (s : Str) (t : TokT) (len : Nat)
    (h : matchTag s = some (t, len)) : t ≠ TokT.text := by
  unfold matchTag knownTags at h
  simp only [List.foldr_cons, List.foldr_nil] at h
  by_cases h1 : isPrefixL (ascii "<header>") s = true
  · rw [if_pos h1] at h
    injection h with h2
    injection h2 with h3 _
    rw [← h3]
    simp
  rw [if_neg h1] at h
  by_cases h2 : isPrefixL (ascii "<source>") s = true
  · rw [if_pos h2] at h
    injection h with h2b
    injection h2b with h3 _
    rw [← h3]
    simp
  rw [if_neg h2] at h
  by_cases h3 : isPrefixL (ascii "<target>") s = true
  · rw [if_pos h3] at h
    injection h with h2b
    injection h2b with h3b _
    rw [← h3b]
    simp
  rw [if_neg h3] at h
  by_cases h4 : isPrefixL (ascii "<empty>") s = true
  · rw [if_pos h4] at h
    injection h with h2b
    injection h2b with h3b _
    rw [← h3b]
    simp
  rw [if_neg h4] at h
  by_cases h5 : isPrefixL (ascii "<pluralform>") s = true
  · rw [if_pos h5] at h
    injection h with h2b
    injection h2b with h3b _
    rw [← h3b]
    simp
  rw [if_neg h5] at h
  cases h

theorem trimL_ne_nil_head (c : Nat) (x : Str) (hc : isWS c = false) :
    trimL (c :: x) ≠ [] := by
  unfold trimL
  intro h
  rw [List.dropWhile_cons, if_neg (by simp [hc])] at h
  have h2 : (c :: x).reverse.dropWhile isWS = [] := by
    have := congrArg List.reverse h
    simpa using this
  rw [List.dropWhile_eq_nil_iff] at h2
  have h3 := h2 c (by simp)
  rw [hc] at h3
  cases h3

/-- Every text token the scanner produces carries non-empty text: leading
whitespace is skipped first, and an all-whitespace tail collapses to the
end token. -/
theorem scanNextR_text_ne (s : Str) :
    (scanNextR s).1.type = TokT.text → (scanNextR s).1.text ≠ [] := by
  simp only [scanNextR]
  rw [drop_length_takeWhile]
  cases hr : s.dropWhile isWS with
  | nil =>
    intro h
    cases h
  | cons c r2 =>
    cases hm : matchTag (c :: r2) with
    | some p =>
      obtain ⟨t, len⟩ := p
      intro h
      exact absurd h (matchTag_tag_ne_text (c :: r2) t len hm)
    | none =>
      have hc : isWS c = false := dropWhile_head_false isWS s c r2 hr
      have hst : startsTag (c :: r2) = false := matchTag_none_startsTag _ hm
      have hlen : textLenF (c :: r2) = 1 + textLenF r2 := by
        show (if startsTag (c :: r2) = true then 0 else 1 + textLenF r2) =
          1 + textLenF r2
        rw [hst]
        simp
      have htake : (c :: r2).take (textLenF (c :: r2)) =
          c :: r2.take (textLenF r2) := by
        rw [hlen, Nat.add_comm]
        rfl
      have hne : normalizeT ((c :: r2).take (textLenF (c :: r2))) ≠ [] := by
        rw [htake]
        unfold normalizeT
        exact fun hcontra => replaceCR_ne_nil _
          (replaceCRLF_ne_nil _ (trimL_ne_nil_head c _ hc)) hcontra
      by_cases hcond : (decide (normalizeT ((c :: r2).take
            (textLenF (c :: r2))) = []) &&
          decide (textLenF (c :: r2) = (c :: r2).length)) = true
      · rw [if_pos hcond]
        intro h
        have h2 : TokT.tend = TokT.text := h
        cases h2
      · rw [if_neg hcond]
        intro _
        exact hne

theorem advance_tk (st : PState) :
    (advance st).tk = (scanNextR (stRest st)).1 := by
  unfold advance
  rcases h : scanNextR (stRest st) with ⟨t, k⟩
  rfl

/-- Every state the parser reaches by scanning has non-empty text in its
lookahead whenever the lookahead is a text token. -/
theorem advance_text_ne (st : PState) :
    (advance st).tk.type = TokT.text → (advance st).tk.text ≠ [] := by
  rw [advance_tk]
  exact scanNextR_text_ne (stRest st)


/-! ## C10: no validation path raises the empty-source error -/

theorem ebind_err_inv {ε α β : Type} {a : Except ε α} {f : α → Except ε β}
    {e : ε} (h : (a >>= f) = .error e) :
    a = .error e ∨ ∃ x, a = .ok x ∧ f x = .error e := by
  cases a with
  | error e2 =>
    left
    have h2 : (Except.error e2 : Except ε β) = .error e := h
    injection h2 with h3
    rw [h3]
  | ok x => exact Or.inr ⟨x, rfl, h⟩

theorem checkE_err_cond {b : Bool} {m e : EMsg} (h : checkE b m = .error e) :
    b = true := by
  cases hb : b
  · rw [hb] at h
    exact absurd h (by simp [checkE])
  · rfl

theorem map_some_inv {α : Type} {g : α → EMsg} {o : Option α} {e : EMsg}
    (h : o.map g = some e) : ∃ x, o = some x ∧ e = g x := by
  cases o with
  | none => cases h
  | some x =>
    injection h with h2
    exact ⟨x, rfl, h2.symm⟩

theorem slotErr_no_empty (pi : PluralFormInfo) (o1 : Str) :
    ∀ (fs : List Str) (pos : Nat) (m : EMsg),
      slotErr pi o1 fs pos = some m → m ≠ .sourceTextEmpty := by
  intro fs
  induction fs with
  | nil =>
    intro pos m h
    cases h
  | cons f rest ih =>
    intro pos m h
    unfold slotErr at h
    by_cases hsn : isSingleNumberForm pi pos = true
    · rw [if_pos hsn] at h
      by_cases hco : (containsL xph o1 || containsL (ascii "1") o1) = true
      · rw [if_pos hco] at h
        have h2 : (if (!containsL xph f &&
              !containsL (intToStr (getFirstNumber pi pos)) f) = true
            then some (EMsg.needsDecimal pos (getFirstNumber pi pos))
            else slotErr pi o1 rest (pos + 1)) = some m := h
        by_cases hbad : (!containsL xph f &&
            !containsL (intToStr (getFirstNumber pi pos)) f) = true
        · rw [if_pos hbad] at h2
          injection h2 with h3
          rw [← h3]
          simp
        · rw [if_neg hbad] at h2
          exact ih (pos + 1) m h2
      · rw [if_neg hco] at h
        exact ih (pos + 1) m h
    · rw [if_neg hsn] at h
      by_cases hx : (!containsL xph f) = true
      · rw [if_pos hx] at h
        injection h with h3
        rw [← h3]
        simp
      · rw [if_neg hx] at h
        exact ih (pos + 1) m h

/-- A singular validation of a non-empty original never reports the
empty-source error. -/
theorem validateSingular_no_empty (o t : Str) (ho : o ≠ []) :
    validateSingular o t ≠ .error .sourceTextEmpty := by
  intro h
  unfold validateSingular at h
  rcases ebind_err_inv h with h1 | ⟨_, _, h⟩
  · have h2 := checkE_err_cond h1
    simp [ho] at h2
  rcases ebind_err_inv h with h1 | ⟨_, _, h⟩
  · have h2 := checkE_err h1
    cases h2
  rcases ebind_err_inv h with h1 | ⟨_, _, h⟩
  · have h2 := checkE_err h1
    cases h2
  by_cases ht : t = []
  · rw [if_pos ht] at h
    cases h
  rw [if_neg ht] at h
  rcases ebind_err_inv h with h1 | ⟨_, _, h⟩
  · obtain ⟨ph, _, he⟩ := map_some_inv (optE_err h1)
    cases he
  rcases ebind_err_inv h with h1 | ⟨_, _, h⟩
  · have h2 := checkE_err h1
    cases h2
  rcases ebind_err_inv h with h1 | ⟨_, _, h⟩
  · have h2 := checkE_err h1
    cases h2
  rcases ebind_err_inv h with h1 | ⟨_, _, h⟩
  · have h2 := checkE_err h1
    cases h2
  rcases ebind_err_inv h with h1 | ⟨_, _, h⟩
  · have h2 := checkE_err h1
    cases h2
  rcases ebind_err_inv h with h1 | ⟨_, _, h⟩
  · have h2 := checkE_err h1
    cases h2
  rcases ebind_err_inv h with h1 | ⟨_, _, h⟩
  · have h2 := checkE_err h1
    cases h2
  rcases ebind_err_inv h with h1 | ⟨_, _, h⟩
  · obtain ⟨f, _, he⟩ := map_some_inv (optE_err h1)
    cases he
  obtain ⟨c, _, he⟩ := map_some_inv (optE_err h)
  cases he

/-- A plural validation of non-empty originals never reports the
empty-source error. -/
theorem validatePlural_no_empty (o1 o2 : Str) (fs : List Str)
    (pi : PluralFormInfo) (h1e : o1 ≠ []) (h2e : o2 ≠ []) :
    validatePlural (o1, o2) fs pi ≠ .error .sourceTextEmpty := by
  intro h
  unfold validatePlural at h
  rcases ebind_err_inv h with h1 | ⟨_, _, h⟩
  · have h2 := checkE_err_cond h1
    simp [h1e, h2e] at h2
  rcases ebind_err_inv h with h1 | ⟨_, _, h⟩
  · have h2 := checkE_err h1
    cases h2
  rcases ebind_err_inv h with h1 | ⟨_, _, h⟩
  · have h2 := checkE_err h1
    cases h2
  by_cases ht : fs = []
  · rw [if_pos ht] at h
    cases h
  rw [if_neg ht] at h
  rcases ebind_err_inv h with h1 | ⟨_, _, h⟩
  · have h2 := checkE_err h1
    cases h2
  rcases ebind_err_inv h with h1 | ⟨_, _, h⟩
  · obtain ⟨i, _, he⟩ := map_some_inv (optE_err h1)
    cases he
  rcases ebind_err_inv h with h1 | ⟨_, _, h⟩
  · exact slotErr_no_empty pi o1 fs 0 _ (optE_err h1) rfl
  rcases ebind_err_inv h with h1 | ⟨_, _, h⟩
  · obtain ⟨ph, _, he⟩ := map_some_inv (optE_err h1)
    cases he
  rcases ebind_err_inv h with h1 | ⟨_, _, h⟩
  · have h2 := checkE_err h1
    cases h2
  rcases ebind_err_inv h with h1 | ⟨_, _, h⟩
  · have h2 := checkE_err h1
    cases h2
  rcases ebind_err_inv h with h1 | ⟨_, _, h⟩
  · have h2 := checkE_err h1
    cases h2
  rcases ebind_err_inv h with h1 | ⟨_, _, h⟩
  · have h2 := checkE_err h1
    cases h2
  rcases ebind_err_inv h with h1 | ⟨_, _, h⟩
  · have h2 := checkE_err h1
    cases h2
  rcases ebind_err_inv h with h1 | ⟨_, _, h⟩
  · have h2 := checkE_err h1
    cases h2
  rcases ebind_err_inv h with h1 | ⟨_, _, h⟩
  · obtain ⟨f, _, he⟩ := map_some_inv (optE_err h1)
    cases he
  obtain ⟨c, _, he⟩ := map_some_inv (optE_err h)
  cases he


/-! ## C10: the parser walks -/

theorem consumeTok_err_inv (t : TokT) (st : PState) (e : PError)
    (h : consumeTok t st = .error e) : e = errAt st .unexpectedToken := by
  unfold consumeTok at h
  by_cases hc : st.tk.type = t
  · rw [if_pos hc] at h
    cases h
  · rw [if_neg hc] at h
    injection h with h2
    exact h2.symm

theorem consumeTok_ok_inv (t : TokT) (st st' : PState)
    (h : consumeTok t st = .ok st') : st' = advance st ∧ st.tk.type = t := by
  unfold consumeTok at h
  by_cases hc : st.tk.type = t
  · rw [if_pos hc] at h
    injection h with h2
    exact ⟨h2.symm, hc⟩
  · rw [if_neg hc] at h
    cases h

theorem parseForms_err_msgs :
    ∀ (fuel : Nat) (st : PState) (acc : List Str) (e : PError),
      parseForms fuel st acc = .error e →
      e.msg = .unexpectedToken ∨ e.msg = .fuelExhausted := by
  intro fuel
  induction fuel with
  | zero =>
    intro st acc e h
    unfold parseForms at h
    injection h with h2
    right
    rw [← h2]
    rfl
  | succ n ih =>
    intro st acc e h
    unfold parseForms at h
    by_cases htk : st.tk.type = .plural
    · rw [if_pos htk] at h
      rcases ebind_err_inv h with h1 | ⟨st2, hst2, h⟩
      · left
        rw [consumeTok_err_inv _ _ _ h1]
        rfl
      · exact ih _ _ _ h
    · rw [if_neg htk] at h
      cases h

/-- No error path of the plural production carries the empty-source
message: both originals come from text tokens, which are non-empty. -/
theorem parsePlural_no_empty (pi : PluralFormInfo) (st : PState)
    (out : TransMap) (pm : PluralMap) (e : PError)
    (h : parsePlural pi st out pm = .error e) : e.msg ≠ .sourceTextEmpty := by
  unfold parsePlural at h
  rcases ebind_err_inv h with h1 | ⟨st1, hst1, h⟩
  · rw [consumeTok_err_inv _ _ _ h1]
    simp [errAt]
  obtain ⟨hst1e, _⟩ := consumeTok_ok_inv _ _ _ hst1
  rcases ebind_err_inv h with h1 | ⟨st2, hst2, h⟩
  · rw [consumeTok_err_inv _ _ _ h1]
    simp [errAt]
  obtain ⟨_, hty1⟩ := consumeTok_ok_inv _ _ _ hst2
  have hne1 : st1.tk.text ≠ [] := by
    rw [hst1e] at hty1 ⊢
    exact advance_text_ne st hty1
  rcases ebind_err_inv h with h1 | ⟨st3, hst3, h⟩
  · rw [consumeTok_err_inv _ _ _ h1]
    simp [errAt]
  obtain ⟨hst3e, _⟩ := consumeTok_ok_inv _ _ _ hst3
  rcases ebind_err_inv h with h1 | ⟨st4, hst4, h⟩
  · rw [consumeTok_err_inv _ _ _ h1]
    simp [errAt]
  obtain ⟨_, hty3⟩ := consumeTok_ok_inv _ _ _ hst4
  have hne2 : st3.tk.text ≠ [] := by
    rw [hst3e] at hty3 ⊢
    exact advance_text_ne st2 hty3
  rcases ebind_err_inv h with h1 | ⟨st5, hst5, h⟩
  · rw [consumeTok_err_inv _ _ _ h1]
    simp [errAt]
  rcases ebind_err_inv h with h1 | ⟨pr, hpr, h⟩
  · rcases parseForms_err_msgs _ _ _ _ h1 with h2 | h2 <;> rw [h2] <;> simp
  obtain ⟨fs2, st6⟩ := pr
  have hfinal : ∀ (st7 : PState),
      (match validatePlural (st1.tk.text, st3.tk.text) fs2 pi with
        | .error m => Except.error (errAt st7 m)
        | .ok _ => Except.ok (st7, out,
            emplaceA (st1.tk.text, st3.tk.text) fs2 pm)) = .error e →
      e.msg ≠ .sourceTextEmpty := by
    intro st7 h2
    cases hv : validatePlural (st1.tk.text, st3.tk.text) fs2 pi with
    | ok u =>
      rw [hv] at h2
      cases h2
    | error m =>
      rw [hv] at h2
      injection h2 with h3
      rw [← h3]
      intro hmm
      have hm2 : m = .sourceTextEmpty := hmm
      subst hm2
      exact validatePlural_no_empty _ _ fs2 pi hne1 hne2 hv
  by_cases hfs : fs2 = []
  · simp only [if_pos hfs] at h
    rcases ebind_err_inv h with h1 | ⟨st7, hst7, h⟩
    · rw [consumeTok_err_inv _ _ _ h1]
      simp [errAt]
    · exact hfinal st7 h
  · simp only [if_neg hfs] at h
    rcases ebind_err_inv h with h1 | ⟨st7, hst7, h⟩
    · cases h1
    · exact hfinal st7 h

/-- No error path of the entry production carries the empty-source
message. -/
theorem parseRegular_no_empty (pi : PluralFormInfo) (st : PState)
    (out : TransMap) (pm : PluralMap) (e : PError)
    (h : parseRegular pi st out pm = .error e) : e.msg ≠ .sourceTextEmpty := by
  unfold parseRegular at h
  rcases ebind_err_inv h with h1 | ⟨st1, hst1, h⟩
  · rw [consumeTok_err_inv _ _ _ h1]
    simp [errAt]
  obtain ⟨hst1e, _⟩ := consumeTok_ok_inv _ _ _ hst1
  by_cases hpl : st1.tk.type = .plural
  · rw [if_pos hpl] at h
    exact parsePlural_no_empty pi st1 out pm e h
  rw [if_neg hpl] at h
  rcases ebind_err_inv h with h1 | ⟨st2, hst2, h⟩
  · rw [consumeTok_err_inv _ _ _ h1]
    simp [errAt]
  obtain ⟨_, hty1⟩ := consumeTok_ok_inv _ _ _ hst2
  have hne1 : st1.tk.text ≠ [] := by
    rw [hst1e] at hty1 ⊢
    exact advance_text_ne st hty1
  rcases ebind_err_inv h with h1 | ⟨st3, hst3, h⟩
  · rw [consumeTok_err_inv _ _ _ h1]
    simp [errAt]
  have hfinal : ∀ (t0 : Str) (st4 : PState),
      (match validateSingular st1.tk.text t0 with
        | .error m => Except.error (errAt st4 m)
        | .ok _ => Except.ok (st4, emplaceA st1.tk.text t0 out, pm)) =
        .error e →
      e.msg ≠ .sourceTextEmpty := by
    intro t0 st4 h2
    cases hv : validateSingular st1.tk.text t0 with
    | ok u =>
      rw [hv] at h2
      cases h2
    | error m =>
      rw [hv] at h2
      injection h2 with h3
      rw [← h3]
      intro hmm
      have hm2 : m = .sourceTextEmpty := hmm
      subst hm2
      exact validateSingular_no_empty _ t0 hne1 hv
  by_cases htx : st3.tk.type = .text
  · simp only [if_pos htx] at h
    rcases ebind_err_inv h with h1 | ⟨tr, htr, h⟩
    · cases h1
    · obtain ⟨t0, st4⟩ := tr
      exact hfinal t0 st4 h
  · simp only [if_neg htx] at h
    rcases ebind_err_inv h with h1 | ⟨st4, hst4, h⟩
    · rw [consumeTok_err_inv _ _ _ h1]
      simp [errAt]
    · rcases ebind_err_inv h with h1 | ⟨tr, htr, h⟩
      · cases h1
      · obtain ⟨t0, st5⟩ := tr
        exact hfinal t0 st5 h

/-- No error path of the entry loop carries the empty-source message. -/
theorem parseEntries_no_empty :
    ∀ (fuel : Nat) (pi : PluralFormInfo) (st : PState) (out : TransMap)
      (pm : PluralMap) (e : PError),
      (parseEntries fuel pi st out pm).1 = .error e →
      e.msg ≠ .sourceTextEmpty := by
  intro fuel
  induction fuel with
  | zero =>
    intro pi st out pm e h
    have h2 : (Except.error (errAt st .fuelExhausted) :
        Except PError Unit) = .error e := h
    injection h2 with h3
    rw [← h3]
    simp [errAt]
  | succ n ih =>
    intro pi st out pm e h
    unfold parseEntries at h
    by_cases htk : st.tk.type = .tend
    · rw [if_pos htk] at h
      have h2 : (Except.ok () : Except PError Unit) = .error e := h
      cases h2
    · rw [if_neg htk] at h
      cases hr : parseRegular pi st out pm with
      | error e2 =>
        rw [hr] at h
        have h2 : (Except.error e2 : Except PError Unit) = .error e := h
        injection h2 with h3
        rw [← h3]
        exact parseRegular_no_empty pi st out pm e2 hr
      | ok p =>
        obtain ⟨st2, out2, pm2⟩ := p
        rw [hr] at h
        exact ih pi st2 out2 pm2 e h

theorem getV_err_inv (items : List (Str × Str)) (k : Str) (m : EMsg)
    (h : getV items k = .error m) : m = .cannotFindHeaderItem k := by
  unfold getV at h
  cases hl : lookupA items k with
  | some v =>
    rw [hl] at h
    have h2 : (Except.ok v : Except EMsg Str) = .error m := h
    cases h2
  | none =>
    rw [hl] at h
    have h2 : (Except.error (EMsg.cannotFindHeaderItem k) :
        Except EMsg Str) = .error m := h
    injection h2 with h3
    exact h3.symm

/-- No error of the header-field extraction carries the empty-source
message. -/
theorem headerFromRaw_no_empty (raw : Str) (m : EMsg)
    (h : headerFromRaw raw = .error m) : m ≠ .sourceTextEmpty := by
  unfold headerFromRaw at h
  rcases ebind_err_inv h with h1 | ⟨v1, _, h⟩
  · rw [getV_err_inv _ _ _ h1]
    simp
  rcases ebind_err_inv h with h1 | ⟨v2, _, h⟩
  · rw [getV_err_inv _ _ _ h1]
    simp
  rcases ebind_err_inv h with h1 | ⟨v3, _, h⟩
  · rw [getV_err_inv _ _ _ h1]
    simp
  rcases ebind_err_inv h with h1 | ⟨v4, _, h⟩
  · rw [getV_err_inv _ _ _ h1]
    simp
  cases hsi : stringToInt v4 with
  | none =>
    rw [hsi] at h
    rcases ebind_err_inv h with h1 | ⟨n0, hok0, h⟩
    · have h2 : (Except.error (EMsg.invalidIntegerValue
          (ascii "plural_count")) : Except EMsg Int) = .error m := h1
      injection h2 with h3
      rw [← h3]
      simp
    · have h2 : (Except.error (EMsg.invalidIntegerValue
          (ascii "plural_count")) : Except EMsg Int) = .ok n0 := hok0
      cases h2
  | some n2 =>
    rw [hsi] at h
    rcases ebind_err_inv h with h1 | ⟨n0, _, h⟩
    · have h2 : (Except.ok n2 : Except EMsg Int) = .error m := h1
      cases h2
    rcases ebind_err_inv h with h1 | ⟨v5, _, h⟩
    · rw [getV_err_inv _ _ _ h1]
      simp
    rcases ebind_err_inv h with h1 | ⟨v6, _, h⟩
    · rw [getV_err_inv _ _ _ h1]
      simp
    have h2 : (Except.ok (TransHeader.mk v1 v6 v2 v3 n0 v5) :
        Except EMsg TransHeader) = .error m := h
    cases h2

/-- No error path of the header production carries the empty-source
message. -/
theorem parseHeaderSt_no_empty (st : PState) (e : PError)
    (h : parseHeaderSt st = .error e) : e.msg ≠ .sourceTextEmpty := by
  unfold parseHeaderSt at h
  rcases ebind_err_inv h with h1 | ⟨st1, _, h⟩
  · rw [consumeTok_err_inv _ _ _ h1]
    simp [errAt]
  rcases ebind_err_inv h with h1 | ⟨st2, _, h⟩
  · rw [consumeTok_err_inv _ _ _ h1]
    simp [errAt]
  have h2 : (match headerFromRaw st1.tk.text with
      | .error m => Except.error (errAt st2 m)
      | .ok hh => Except.ok (hh, st2)) = .error e := h
  cases hm : headerFromRaw st1.tk.text with
  | ok hh =>
    rw [hm] at h2
    cases h2
  | error m =>
    rw [hm] at h2
    injection h2 with h3
    rw [← h3]
    intro hmm
    have hm2 : m = .sourceTextEmpty := hmm
    subst hm2
    exact headerFromRaw_no_empty _ _ hm rfl

/-- C10: every text token produced by one scanner step is non-empty —
leading whitespace is skipped and an all-whitespace tail collapses to the
end token — and consequently no parse of any byte stream fails with the
empty-source-text error: those validator branches are unreachable through
the parser. -/
theorem c10_source_empty_unreachable (s : Str) :
    ((scanNextR s).1.type = TokT.text → (scanNextR s).1.text ≠ []) ∧
    (∀ e, (parseLngSt s).1 = .error e → e.msg ≠ .sourceTextEmpty) := by
  refine ⟨scanNextR_text_ne s, ?_⟩
  intro e he
  unfold parseLngSt at he
  cases hh : parseHeaderSt (initPState s) with
  | error e2 =>
    rw [hh] at he
    have h2 : (Except.error e2 : Except PError TransHeader) = .error e := he
    injection h2 with h3
    rw [← h3]
    exact parseHeaderSt_no_empty _ _ hh
  | ok p =>
    obtain ⟨hd, st⟩ := p
    rw [hh] at he
    cases hpi : mkPluralFormInfo hd.pluralDefinition hd.pluralCount with
    | none =>
      simp only [hpi] at he
      have h2 : (Except.error (errAt st .invalidPluralForm) :
          Except PError TransHeader) = .error e := he
      injection h2 with h3
      rw [← h3]
      simp [errAt]
    | some pi =>
      simp only [hpi] at he
      rcases hpe : parseEntries (s.length + 1) pi st [] [] with ⟨r, out2, pm2⟩
      rw [hpe] at he
      cases r with
      | ok u =>
        have h2 : (Except.ok hd : Except PError TransHeader) = .error e := he
        cases h2
      | error e2 =>
        have h2 : (Except.error e2 : Except PError TransHeader) = .error e := he
        injection h2 with h3
        rw [← h3]
        refine parseEntries_no_empty (s.length + 1) pi st [] [] e2 ?_
        rw [hpe]


/-- Witness for C10 on a minimal failing input: its error is the
unexpected-token error, and the theorem rules out the empty-source
message for it. -/
theorem c10_source_empty_unreachable_witness :
    (parseLngSt (ascii "x")).1 = .error ⟨.unexpectedToken, 0, 1⟩ ∧
    (⟨.unexpectedToken, 0, 1⟩ : PError).msg ≠ .sourceTextEmpty :=
  ⟨by decide,
   (c10_source_empty_unreachable (ascii "x")).2 ⟨.unexpectedToken, 0, 1⟩
     (by decide)⟩

end LngSpec
